import Mathlib

/-! Julia set with OpenMP decomposition strategies (`src/fractal.cpp`).

A shallow embedding of `fractal.cpp`: the complex value type `cuComplex`, the
escape-time kernel `julia`, the per-cell write, the five decomposition
strategies and the sequential baseline, followed by the properties proved
about them.

Conventions of the embedding.

* Floating point. The kernel computes in `float`. The embedding is parametric
  in the arithmetic (`Arith`): a carrier with the conversions and operations
  the source uses. Every theorem that quantifies over `A : Arith` holds for any
  such arithmetic, rounded or exact; `exactArith` is the exact rational one.
* Machine integers. `int` values are `Int`/`Nat`; the one subtraction on
  caller-supplied integers (`DIM/2 - x` in `julia`) is reduced to 32 bits.
  Grid coordinates, thread numbers and byte indices are natural numbers: they
  are never negative in the source, and the bound `2^31` on what the kernels
  compute from them is a theorem below. The strided loops of the interleaved
  strategies add `num_threads` to an index below `DIM`; the sum stays within
  `int` for `num_threads ≤ 2147482880` (`INT_MAX - (DIM - 1)`), and the
  theorems about these strategies are stated for such numbers of threads. A
  last section of definitions follows the manual strategies on 32-bit `int`
  for any value of `num_threads`; it agrees with the definitions on natural
  numbers in that range.
* Memory. The bitmap behind `unsigned char *ptr` is a map from byte index to
  byte value; the bitmap proper is the indices below `4 * DIM * DIM`.
* Threads. An OpenMP parallel region of `num_threads` threads is run one
  thread after another: the thread that meets the construct, as thread 0,
  then the threads `1 .. num_threads - 1`. Concurrent runs
  are the interleavings of the byte writes of the threads, each thread making
  its writes in program order.
* Durations. The durations and speedups of `main` are `double`; the division
  of positive `double` values is the exact quotient rounded to the nearest
  `double`, ties to even, with overflow to `+inf`.
* Loops. A loop whose stride is a run-time value is run with a bound on the
  number of iterations (fuel); the other loops are folds over their index
  range.
-/

namespace Fractal

/-! ## Constants and arithmetic -/

/-- The grid dimension, `#define DIM 768`. -/
def DIM : Nat := 768

/-- Reduction of an integer to the range of a 32-bit two's complement `int`. -/
def wrapInt32 (v : Int) : Int := (v + 2147483648) % 4294967296 - 2147483648

/-- The arithmetic of the kernel: the carrier of `float` values, the
conversion of an `int`, the conversion of a decimal literal, the four
operations and the comparison `>`. -/
structure Arith where
  F : Type
  ofInt : Int → F
  lit : ℚ → F
  add : F → F → F
  sub : F → F → F
  mul : F → F → F
  div : F → F → F
  gt : F → F → Bool

/-- Exact rational arithmetic. -/
def exactArith : Arith where
  F := ℚ
  ofInt := fun n => (n : ℚ)
  lit := fun q => q
  add := fun a b => a + b
  sub := fun a b => a - b
  mul := fun a b => a * b
  div := fun a b => a / b
  gt := fun a b => decide (a > b)

/-! ## `struct cuComplex` -/

/-- The value type `struct cuComplex`, with its fields `float r; float i;`. -/
structure cuComplex (A : Arith) where
  r : A.F
  i : A.F

namespace cuComplex

variable {A : Arith}

/-- The method `float magnitude2( void ) { return r * r + i * i; }`. -/
def magnitude2 (a : cuComplex A) : A.F :=
  A.add (A.mul a.r a.r) (A.mul a.i a.i)

/-- The method `operator*`: `cuComplex(r*a.r - i*a.i, i*a.r + r*a.i)`. -/
def mul (z a : cuComplex A) : cuComplex A :=
  ⟨A.sub (A.mul z.r a.r) (A.mul z.i a.i), A.add (A.mul z.i a.r) (A.mul z.r a.i)⟩

/-- The method `operator+`: `cuComplex(r+a.r, i+a.i)`. -/
def add (z a : cuComplex A) : cuComplex A :=
  ⟨A.add z.r a.r, A.add z.i a.i⟩

end cuComplex

/-! ## The kernel `julia` -/

/-- The constant `cuComplex c(-0.7269, 0.1889)`. -/
def juliaC (A : Arith) : cuComplex A :=
  ⟨A.lit (-7269 / 10000), A.lit (1889 / 10000)⟩

/-- The coordinate map `scale * (float)(DIM/2 - x)/(DIM/2)` with
`scale = 1.5`: the subtraction and `DIM/2` are computed on `int`, the product
and the quotient on `float`. -/
def juliaCoord (A : Arith) (x : Int) : A.F :=
  A.div (A.mul (A.lit (3 / 2)) (A.ofInt (wrapInt32 ((DIM / 2 : Nat) - x))))
    (A.ofInt ((DIM / 2 : Nat) : Int))

/-- The starting point `cuComplex a(jx, jy)`. -/
def juliaStart (A : Arith) (x y : Int) : cuComplex A :=
  ⟨juliaCoord A x, juliaCoord A y⟩

/-- One pass of the loop body's update `a = a * a + c`. -/
def juliaStep (A : Arith) (a : cuComplex A) : cuComplex A :=
  (a.mul a).add (juliaC A)

/-- The test `a.magnitude2() > 1000`. -/
def escaped (A : Arith) (a : cuComplex A) : Bool :=
  A.gt a.magnitude2 (A.ofInt 1000)

/-- The loop `for (i=0; i<300; i++) { a = a * a + c; if (a.magnitude2() > 1000)
return 0; }` followed by `return 1`, with `n` iterations left and `done`
iterations made. The result is the returned value and the number of times the
loop body has run. -/
def juliaLoop (A : Arith) : Nat → Nat → cuComplex A → Int × Nat
  | 0, done, _ => (1, done)
  | n + 1, done, a =>
    let a1 := juliaStep A a
    if escaped A a1 then (0, done + 1) else juliaLoop A n (done + 1) a1

/-- The run of `julia(x, y)`: returned value and number of loop iterations. -/
def juliaRun (A : Arith) (x y : Int) : Int × Nat :=
  juliaLoop A 300 0 (juliaStart A x y)

/-- The function `int julia( int x, int y )`: the value it returns. -/
def julia (A : Arith) (x y : Int) : Int :=
  (juliaRun A x y).1

/-- Number of iterations of the loop of `julia(x, y)`. -/
def juliaIterations (A : Arith) (x y : Int) : Nat :=
  (juliaRun A x y).2

/-! ## The bitmap and the per-cell write -/

/-- The memory behind `unsigned char *ptr`: the byte stored at each index. -/
abbrev Buffer := Nat → Nat

/-- Conversion of an `int` to `unsigned char`. -/
def toUChar (v : Int) : Nat := (v % 256).toNat

/-- The loop body every kernel shares:
`int offset = x + y * DIM; int juliaValue = julia(x, y);
ptr[offset*4 + 0] = 255 * juliaValue; ptr[offset*4 + 1] = 0;
ptr[offset*4 + 2] = 0; ptr[offset*4 + 3] = 255;` -/
def pixel (A : Arith) (x y : Nat) (ptr : Buffer) : Buffer :=
  let offset := x + y * DIM
  let juliaValue := julia A x y
  let p0 := Function.update ptr (offset * 4 + 0) (toUChar (255 * juliaValue))
  let p1 := Function.update p0 (offset * 4 + 1) 0
  let p2 := Function.update p1 (offset * 4 + 2) 0
  Function.update p2 (offset * 4 + 3) 255

/-- The byte indices the loop body writes for the cell `(x, y)`, in order. -/
def pixelWrites (x y : Nat) : List Nat :=
  let offset := x + y * DIM
  [offset * 4 + 0, offset * 4 + 1, offset * 4 + 2, offset * 4 + 3]

/-! ## Loops and parallel regions -/

/-- How a run of a piece of code on a state ends. -/
inductive Outcome (σ : Type) where
  /-- The code ran to its end and left the state `s`. -/
  | done (s : σ)
  /-- The code divided an integer by zero. -/
  | divByZero
  /-- The iteration bound was reached with the loop still running, in state `s`. -/
  | running (s : σ)

/-- Sequencing: the next piece of code runs only when the previous one ended. -/
def Outcome.andThen {σ : Type} (o : Outcome σ) (f : σ → Outcome σ) : Outcome σ :=
  match o with
  | .done s => f s
  | .divByZero => .divByZero
  | .running s => .running s

/-- The loop `for (int i = lo; i < hi; i++) body(i)`. -/
def forRange {σ : Type} (lo hi : Nat) (body : Nat → σ → σ) (s : σ) : σ :=
  (List.range' lo (hi - lo)).foldl (fun acc i => body i acc) s

/-- The loop `for (int i = start; i < bound; i += step) body(i)`, from the
point where the index is `i`, run for at most `fuel` iterations. The index is
a natural number: it is the `int` index of the source as long as
`i + step ≤ 2147483647` at every index `i < bound` (`forStrideInt32` is the
loop on 32-bit `int`, `forStrideInt32_eq_forStride` their agreement). -/
def forStride {σ : Type} (bound step : Nat) (body : Nat → σ → σ) :
    Nat → Nat → σ → Outcome σ
  | 0, i, s => if i < bound then .running s else .done s
  | fuel + 1, i, s =>
    if i < bound then forStride bound step body fuel (i + step) (body i s) else .done s

/-- The construct `#pragma omp parallel` with a team of `num_threads` threads,
run one after another: the thread that meets the construct runs the block as
thread 0, the other threads of the team run it as threads
`1 .. num_threads - 1`; `region thread_id` is the block run by the thread
numbered `thread_id`. -/
def parallel {σ : Type} (num_threads : Nat) (region : Nat → σ → Outcome σ) (s : σ) :
    Outcome σ :=
  (0 :: List.range' 1 (num_threads - 1)).foldl
    (fun o thread_id => o.andThen (region thread_id)) (.done s)

/-! ## The decomposition strategies

Each strategy is first written for an arbitrary loop body `cell x y` acting on
an arbitrary state, as the block one thread runs; the kernel is that block
with the body `pixel`, run by every thread of the region. -/

/-- The parallel region of `kernel_omp_1D_Row`, for one thread:
`for (int y = thread_id; y < DIM; y += num_threads)
   for (int x = 0; x < DIM; x++) cell(x, y)`. -/
def region_1D_Row {σ : Type} (cell : Nat → Nat → σ → σ)
    (num_threads thread_id fuel : Nat) (s : σ) : Outcome σ :=
  forStride DIM num_threads
    (fun y s1 => forRange 0 DIM (fun x s2 => cell x y s2) s1) fuel thread_id s

/-- The parallel region of `kernel_omp_1D_Col`, for one thread:
`for (int x = thread_id; x < DIM; x += num_threads)
   for (int y = 0; y < DIM; y++) cell(x, y)`. -/
def region_1D_Col {σ : Type} (cell : Nat → Nat → σ → σ)
    (num_threads thread_id fuel : Nat) (s : σ) : Outcome σ :=
  forStride DIM num_threads
    (fun x s1 => forRange 0 DIM (fun y s2 => cell x y s2) s1) fuel thread_id s

/-- The value of `int rows_per_thread = DIM / num_threads;` (also
`cols_per_thread`), for a non-zero `num_threads`. -/
def rows_per_thread (num_threads : Nat) : Nat := DIM / num_threads

/-- The value of `int start_row = thread_id * rows_per_thread;` (also `start_col`). -/
def start_row (num_threads thread_id : Nat) : Nat :=
  thread_id * rows_per_thread num_threads

/-- The value of `end_row` (also `end_col`): `if (thread_id == num_threads - 1)
end_row = DIM; else end_row = start_row + rows_per_thread;`. The comparison is made on `int`:
`thread_id == num_threads - 1` is `thread_id + 1 == num_threads`. -/
def end_row (num_threads thread_id : Nat) : Nat :=
  if thread_id + 1 = num_threads then DIM
  else start_row num_threads thread_id + rows_per_thread num_threads

/-- The parallel region of `kernel_omp_2D_Row_Block`, for one thread: the
range `[start_row, end_row)` is computed, with a division by `num_threads`,
then `for (int y = start_row; y < end_row; y++)
        for (int x = 0; x < DIM; x++) cell(x, y)`. -/
def region_2D_Row_Block {σ : Type} (cell : Nat → Nat → σ → σ)
    (num_threads thread_id : Nat) (s : σ) : Outcome σ :=
  if num_threads = 0 then .divByZero
  else .done (forRange (start_row num_threads thread_id) (end_row num_threads thread_id)
    (fun y s1 => forRange 0 DIM (fun x s2 => cell x y s2) s1) s)

/-- The parallel region of `kernel_omp_2D_Col_Block`, for one thread: the
range `[start_col, end_col)` is computed as in the row version, then
`for (int y = 0; y < DIM; y++)
   for (int x = start_col; x < end_col; x++) cell(x, y)`. -/
def region_2D_Col_Block {σ : Type} (cell : Nat → Nat → σ → σ)
    (num_threads thread_id : Nat) (s : σ) : Outcome σ :=
  if num_threads = 0 then .divByZero
  else .done (forRange 0 DIM
    (fun y s1 => forRange (start_row num_threads thread_id) (end_row num_threads thread_id)
      (fun x s2 => cell x y s2) s1) s)

/-- The kernel `void kernel_omp_1D_Row(unsigned char *ptr)` with `num_threads` threads. -/
def kernel_omp_1D_Row (A : Arith) (num_threads fuel : Nat) (ptr : Buffer) : Outcome Buffer :=
  parallel num_threads (fun thread_id => region_1D_Row (pixel A) num_threads thread_id fuel) ptr

/-- The kernel `void kernel_omp_1D_Col(unsigned char *ptr)` with `num_threads` threads. -/
def kernel_omp_1D_Col (A : Arith) (num_threads fuel : Nat) (ptr : Buffer) : Outcome Buffer :=
  parallel num_threads (fun thread_id => region_1D_Col (pixel A) num_threads thread_id fuel) ptr

/-- The kernel `void kernel_omp_2D_Row_Block(unsigned char *ptr)` with `num_threads` threads. -/
def kernel_omp_2D_Row_Block (A : Arith) (num_threads : Nat) (ptr : Buffer) : Outcome Buffer :=
  parallel num_threads (fun thread_id => region_2D_Row_Block (pixel A) num_threads thread_id) ptr

/-- The kernel `void kernel_omp_2D_Col_Block(unsigned char *ptr)` with `num_threads` threads. -/
def kernel_omp_2D_Col_Block (A : Arith) (num_threads : Nat) (ptr : Buffer) : Outcome Buffer :=
  parallel num_threads (fun thread_id => region_2D_Col_Block (pixel A) num_threads thread_id) ptr

/-- The loop nest of `kernel_omp_For`, `#pragma omp parallel for` over
`for (int y = 0; y < DIM; y++)`. The runtime hands out the iterations of the
row loop; `sched` is the order in which the rows end up being run, each row by
`for (int x = 0; x < DIM; x++) cell(x, y)`. The loop as written is
`sched = [0, .., DIM-1]`. -/
def region_For {σ : Type} (cell : Nat → Nat → σ → σ) (sched : List Nat) (s : σ) : σ :=
  sched.foldl (fun s1 y => forRange 0 DIM (fun x s2 => cell x y s2) s1) s

/-- The kernel `void kernel_omp_For(unsigned char *ptr)`, its rows run in the
order `sched`. -/
def kernel_omp_For (A : Arith) (sched : List Nat) (ptr : Buffer) : Buffer :=
  region_For (pixel A) sched ptr

/-- The loop nest of `kernel_serial`: `for (int y=0; y<DIM; y++)
for (int x=0; x<DIM; x++) cell(x, y)`. -/
def region_serial {σ : Type} (cell : Nat → Nat → σ → σ) (s : σ) : σ :=
  forRange 0 DIM (fun y s1 => forRange 0 DIM (fun x s2 => cell x y s2) s1) s

/-- The baseline `void kernel_serial ( unsigned char *ptr )`. -/
def kernel_serial (A : Arith) (ptr : Buffer) : Buffer :=
  region_serial (pixel A) ptr

/-! ## The visit log

The same regions run with a loop body that, instead of writing the cell,
records which thread visited which coordinate. -/

/-- One entry of the log: thread number, then the coordinate `(x, y)`. -/
abbrev Visit := Nat × Nat × Nat

/-- Loop body that records the visit of `(x, y)` by `thread_id`. -/
def logVisit (thread_id x y : Nat) (log : List Visit) : List Visit :=
  log ++ [(thread_id, x, y)]

/-- Loop body that records the visit of `(x, y)`. -/
def logCell (x y : Nat) (log : List (Nat × Nat)) : List (Nat × Nat) :=
  log ++ [(x, y)]

/-- Cells visited by `kernel_omp_For`, its rows run in the order `sched`. -/
def visits_For (sched : List Nat) : List (Nat × Nat) :=
  region_For logCell sched []

/-- Cells visited by `kernel_serial`. -/
def visits_serial : List (Nat × Nat) :=
  region_serial logCell []

/-- Visits made by the threads of `kernel_omp_1D_Row`. -/
def visits_1D_Row (num_threads fuel : Nat) : Outcome (List Visit) :=
  parallel num_threads
    (fun thread_id => region_1D_Row (logVisit thread_id) num_threads thread_id fuel) []

/-- Visits made by the threads of `kernel_omp_1D_Col`. -/
def visits_1D_Col (num_threads fuel : Nat) : Outcome (List Visit) :=
  parallel num_threads
    (fun thread_id => region_1D_Col (logVisit thread_id) num_threads thread_id fuel) []

/-- Visits made by the threads of `kernel_omp_2D_Row_Block`. -/
def visits_2D_Row_Block (num_threads : Nat) : Outcome (List Visit) :=
  parallel num_threads
    (fun thread_id => region_2D_Row_Block (logVisit thread_id) num_threads thread_id) []

/-- Visits made by the threads of `kernel_omp_2D_Col_Block`. -/
def visits_2D_Col_Block (num_threads : Nat) : Outcome (List Visit) :=
  parallel num_threads
    (fun thread_id => region_2D_Col_Block (logVisit thread_id) num_threads thread_id) []

/-! ## Iteration sequences

The index sequences of the loops, as lists, and the run of a loop body along
a sequence of cells. The loops above are shown below to be folds along them. -/

/-- The indices `i, i + step, i + 2 * step, ..` below `bound`, at most `fuel`
of them: the values the index of a strided loop takes. -/
def strideList (bound step : Nat) : Nat → Nat → List Nat
  | 0, _ => []
  | fuel + 1, i => if i < bound then i :: strideList bound step fuel (i + step) else []

/-- The cells `(x, y)` in the order of a loop over `y` in `ys` around a loop
over `x` in `xs`. -/
def rowMajor (ys xs : List Nat) : List (Nat × Nat) :=
  ys.flatMap (fun y => xs.map (fun x => (x, y)))

/-- The cells `(x, y)` in the order of a loop over `x` in `xs` around a loop
over `y` in `ys`. -/
def colMajor (xs ys : List Nat) : List (Nat × Nat) :=
  xs.flatMap (fun x => ys.map (fun y => (x, y)))

/-- The loop body run on each cell of a sequence, in order. -/
def runCells {σ : Type} (cell : Nat → Nat → σ → σ) (cells : List (Nat × Nat)) (s : σ) : σ :=
  cells.foldl (fun acc c => cell c.1 c.2 acc) s

/-- The thread-aware loop body run on each visit of a sequence, in order. -/
def runPlan {σ : Type} (cell : Nat → Nat → Nat → σ → σ) (plan : List Visit) (s : σ) : σ :=
  plan.foldl (fun acc v => cell v.1 v.2.1 v.2.2 acc) s

/-- The visits of a region of `num_threads` threads run one after another,
when thread `t` goes through the cells `cellsOf t`. -/
def teamPlan (num_threads : Nat) (cellsOf : Nat → List (Nat × Nat)) : List Visit :=
  (List.range num_threads).flatMap (fun t => (cellsOf t).map (fun c => (t, c)))

/-- Cells of thread `t` in `kernel_omp_1D_Row`, in loop order. -/
def cells_1D_Row (num_threads fuel t : Nat) : List (Nat × Nat) :=
  rowMajor (strideList DIM num_threads fuel t) (List.range' 0 (DIM - 0))

/-- Cells of thread `t` in `kernel_omp_1D_Col`, in loop order. -/
def cells_1D_Col (num_threads fuel t : Nat) : List (Nat × Nat) :=
  colMajor (strideList DIM num_threads fuel t) (List.range' 0 (DIM - 0))

/-- Cells of thread `t` in `kernel_omp_2D_Row_Block`, in loop order. -/
def cells_2D_Row_Block (num_threads t : Nat) : List (Nat × Nat) :=
  rowMajor (List.range' (start_row num_threads t) (end_row num_threads t - start_row num_threads t))
    (List.range' 0 (DIM - 0))

/-- Cells of thread `t` in `kernel_omp_2D_Col_Block`, in loop order. -/
def cells_2D_Col_Block (num_threads t : Nat) : List (Nat × Nat) :=
  rowMajor (List.range' 0 (DIM - 0))
    (List.range' (start_row num_threads t) (end_row num_threads t - start_row num_threads t))

/-- The thread that owns index `v` (a row or a column) under the block rule. -/
def blockOwner (num_threads v : Nat) : Nat :=
  if v < (num_threads - 1) * rows_per_thread num_threads then v / rows_per_thread num_threads
  else num_threads - 1

/-- The cell lists `cellsOf t` of the threads `t < N` split the grid: none
repeats a cell, and a cell of the grid is in the list of its owner only. -/
structure SplitsGrid (N : Nat) (cellsOf : Nat → List (Nat × Nat))
    (owner : Nat × Nat → Nat) : Prop where
  nodup : ∀ t, t < N → (cellsOf t).Nodup
  mem_iff : ∀ t, t < N → ∀ c, c ∈ cellsOf t ↔ c.1 < DIM ∧ c.2 < DIM ∧ owner c = t
  owner_lt : ∀ c, c.1 < DIM → c.2 < DIM → owner c < N

/-! ## Reference definitions

Definitions that follow the words of the specification, to compare the code
with. -/

/-- The escape-time orbit of the specification: `a_0` is the starting point
and `a_{k+1} = a_k * a_k + c` with `c = (-0.7269, 0.1889)`. -/
def refOrbit (A : Arith) (a0 : cuComplex A) : Nat → cuComplex A
  | 0 => a0
  | k + 1 => ((refOrbit A a0 k).mul (refOrbit A a0 k)).add ⟨A.lit (-7269 / 10000), A.lit (1889 / 10000)⟩

/-- The picture of the specification, byte by byte: the cell at
`offset = x + y * D` holds the four bytes `(255 * value, 0, 0, 255)`, where
`value` is what the kernel returns for `(x, y)`. -/
def refImage (A : Arith) : Buffer := fun idx =>
  let offset := idx / 4
  let x := offset % DIM
  let y := offset / DIM
  match idx % 4 with
  | 0 => (255 * julia A x y).toNat
  | 1 => 0
  | 2 => 0
  | _ => 255

/-- The buffer `buf` after the picture has been written over its first
`4 * D * D` bytes. -/
def refRender (A : Arith) (buf : Buffer) : Buffer := fun idx =>
  if idx < 4 * DIM * DIM then refImage A idx else buf idx

/-- The four bytes of the cell `(x, y)` in the buffer `out` are
`(255 * julia(x, y), 0, 0, 255)`: `(255, 0, 0, 255)` when the kernel returns 1
and `(0, 0, 0, 255)` when it returns 0. -/
def refCellBytes (A : Arith) (x y : Nat) (out : Buffer) : Prop :=
  ((out (4 * (x + y * DIM) + 0) : Nat) : Int) = 255 * julia A x y ∧
  out (4 * (x + y * DIM) + 1) = 0 ∧
  out (4 * (x + y * DIM) + 2) = 0 ∧
  out (4 * (x + y * DIM) + 3) = 255 ∧
  (julia A x y = 1 → out (4 * (x + y * DIM) + 0) = 255) ∧
  (julia A x y = 0 → out (4 * (x + y * DIM) + 0) = 0)

/-- The buffers `p` and `q` hold the same bitmap: they agree on each of the
`4 * D * D` bytes. -/
def sameBitmap (p q : Buffer) : Prop :=
  ∀ idx, idx < 4 * DIM * DIM → p idx = q idx

/-- The byte indices written for the visits of two different threads are
different, whatever two visits of the log are taken. -/
def writesDisjoint (log : List Visit) : Prop :=
  ∀ v ∈ log, ∀ w ∈ log, v.1 ≠ w.1 →
    ∀ i ∈ pixelWrites v.2.1 v.2.2, ∀ j ∈ pixelWrites w.2.1 w.2.2, i ≠ j

/-- The byte indices written for the visits of the log are indices of the
bitmap and fit a 32-bit signed `int`. -/
def writesInBounds (log : List Visit) : Prop :=
  ∀ v ∈ log, ∀ i ∈ pixelWrites v.2.1 v.2.2, i < 4 * DIM * DIM ∧ i < 2 ^ 31

/-- The iterate `a_k` of the orbit of the cell `(x, y)` has squared magnitude
above the threshold: `|a_k|^2 > 1000`. -/
def refEscapesAt (A : Arith) (x y : Int) (k : Nat) : Prop :=
  A.gt (refOrbit A (juliaStart A x y) k).magnitude2 (A.ofInt 1000) = true

instance (A : Arith) (x y : Int) (k : Nat) : Decidable (refEscapesAt A x y k) := by
  unfold refEscapesAt; infer_instance

/-- A value of the exact arithmetic, read as the rational number it is. -/
def exactVal (v : exactArith.F) : ℚ := v

/-- The complex number a value of `cuComplex` stands for, in exact arithmetic:
real part `r`, imaginary part `i`. -/
def refComplex (a : cuComplex exactArith) : ℂ :=
  ⟨(exactVal a.r : ℝ), (exactVal a.i : ℝ)⟩

/-- The values the index of the outer loop of the interleaved strategies takes
for one thread, `for (int y = thread_id; y < DIM; y += num_threads)` in
`kernel_omp_1D_Row` and the same loop over `x` in `kernel_omp_1D_Col`: the
loop run with a body that records its index. -/
def outerIndices_1D (num_threads thread_id fuel : Nat) : Outcome (List Nat) :=
  forStride DIM num_threads (fun i log => log ++ [i]) fuel thread_id []

/-! ## Writes as events, and interleavings

The threads of a region run concurrently. A run of the region is modelled as
an interleaving of the threads, whose steps are the single byte writes of the
loop body, each thread making its writes in program order. -/

/-- One write of a thread: thread number, byte index, byte written. -/
abbrev WriteEv := Nat × Nat × Nat

/-- The four writes the loop body makes for the cell `(x, y)`, in program
order, as events of the thread `thread_id`. -/
def pixelEvents (A : Arith) (thread_id x y : Nat) : List WriteEv :=
  let offset := x + y * DIM
  let juliaValue := julia A x y
  [(thread_id, offset * 4 + 0, toUChar (255 * juliaValue)),
   (thread_id, offset * 4 + 1, 0),
   (thread_id, offset * 4 + 2, 0),
   (thread_id, offset * 4 + 3, 255)]

/-- Loop body that records the writes of the cell `(x, y)` by `thread_id`
instead of making them. -/
def logWrites (A : Arith) (thread_id x y : Nat) (log : List WriteEv) : List WriteEv :=
  log ++ pixelEvents A thread_id x y

/-- The writes of a sequence of events made on a buffer, one after another. -/
def applyWrites (evs : List WriteEv) (ptr : Buffer) : Buffer :=
  evs.foldl (fun p e => Function.update p e.2.1 e.2.2) ptr

/-- The sequence `merged` is an interleaving of the traces of the threads
`0 .. N-1`: its events are events of these threads, and the events of thread
`t` in it are the trace of `t`, in the same order. -/
def isInterleaving (N : Nat) (trace : Nat → List WriteEv) (merged : List WriteEv) : Prop :=
  (∀ e ∈ merged, e.1 < N) ∧ ∀ t, t < N → merged.filter (fun e => decide (e.1 = t)) = trace t

/-- What holds of the runs of `N` threads with the traces `trace`, from the
buffer `buf`: the threads run one after another are one interleaving; and in
every interleaving the writes stay in the bitmap, each cell of the bitmap is
written by exactly one thread, and the buffer at the end is the one
`kernel_serial` leaves. -/
def raceFreeRuns (A : Arith) (N : Nat) (trace : Nat → List WriteEv) (buf : Buffer) : Prop :=
  isInterleaving N trace ((List.range N).flatMap trace) ∧
  ∀ merged, isInterleaving N trace merged →
    (∀ e ∈ merged, e.2.1 < 4 * DIM * DIM) ∧
    (∀ offset, offset < DIM * DIM → ∃! t, ∃ e ∈ merged, e.1 = t ∧ e.2.1 / 4 = offset) ∧
    applyWrites merged buf = kernel_serial A buf

/-- The cell lists `cellsOf t` of the threads `t < N` cover the grid, each
cell of the grid being in the list of one thread only. -/
structure CoversGrid (N : Nat) (cellsOf : Nat → List (Nat × Nat)) : Prop where
  inGrid : ∀ t, t < N → ∀ c ∈ cellsOf t, c.1 < DIM ∧ c.2 < DIM
  covered : ∀ c : Nat × Nat, c.1 < DIM → c.2 < DIM → ∃ t, t < N ∧ c ∈ cellsOf t
  unique : ∀ t u, t < N → u < N → ∀ c, c ∈ cellsOf t → c ∈ cellsOf u → t = u

/-! ## The type `double` and the speedups of `main`

The durations and speedups of `main` are of type `double`. A finite `double`
is a rational number `m * 2^e` with `m < 2^53` and `-1074 ≤ e ≤ 971`; the
quotient of two positive finite `double` is the exact quotient rounded to the
nearest such number, ties to the even `m`, or `+inf` when the rounded value is
`2^1024` or more. -/

/-- What a division of positive `double` values returns: a finite number or
`+inf`. -/
inductive DoubleVal where
  /-- The finite value `q`. -/
  | finite (q : ℚ)
  /-- The value `+inf`. -/
  | infinite
deriving DecidableEq

/-- The rational `q` is a finite non-negative `double`. -/
def isDouble (q : ℚ) : Prop :=
  ∃ (m : Nat) (e : Int), m < 2 ^ 53 ∧ -1074 ≤ e ∧ e ≤ 971 ∧ q = (m : ℚ) * 2 ^ e

/-- Rounding to the nearest integer, a tie going to the even one. -/
def roundTiesEven (m : ℚ) : Int :=
  if m - ⌊m⌋ < 1 / 2 then ⌊m⌋
  else if 1 / 2 < m - ⌊m⌋ then ⌊m⌋ + 1
  else if ⌊m⌋ % 2 = 0 then ⌊m⌋ else ⌊m⌋ + 1

/-- The exponent of the unit in the last place of the `double` values around
the positive number `q`: 52 below the binary exponent of `q`, and `-1074` in
the subnormal range. -/
def ulpExponent (q : ℚ) : Int :=
  max (Int.log 2 q - 52) (-1074)

/-- The positive number `q` rounded to `double`. -/
def roundDouble (q : ℚ) : DoubleVal :=
  let v := (roundTiesEven (q / 2 ^ ulpExponent q) : ℚ) * 2 ^ ulpExponent q
  if v < 2 ^ (1024 : Int) then .finite v else .infinite

/-- The quotient `a / b` of two positive finite `double` values. -/
def divDouble (a b : ℚ) : DoubleVal :=
  roundDouble (a / b)

/-- The durations `main` measures, `double finish_s, ..., finish_omp_for`. -/
structure Durations where
  finish_s : ℚ
  finish_1d_row : ℚ
  finish_1d_col : ℚ
  finish_2d_row_block : ℚ
  finish_2d_col_block : ℚ
  finish_omp_for : ℚ

/-- The five speedups `main` prints, in the order of its output:
`finish_s/finish_1d_row`, `finish_s/finish_1d_col`,
`finish_s/finish_2d_row_block`, `finish_s/finish_2d_col_block` and
`finish_s/finish_omp_for`. -/
def speedups (d : Durations) : List DoubleVal :=
  [divDouble d.finish_s d.finish_1d_row,
   divDouble d.finish_s d.finish_1d_col,
   divDouble d.finish_s d.finish_2d_row_block,
   divDouble d.finish_s d.finish_2d_col_block,
   divDouble d.finish_s d.finish_omp_for]

/-! ## The manual strategies on 32-bit `int`

The strategies above take the number of threads and the thread numbers as
natural numbers and step the strided loops without overflow: that is the
source for `1 ≤ num_threads ≤ 2147482880`, where `y + num_threads` stays
within `int` for every index `y < DIM` (theorems `region_1D_Row_int32_eq` to
`region_2D_Col_Block_int32_eq`). The definitions of this section follow the
source on `int` itself: `num_threads` is the `int` read from
`omp_get_num_threads()`, whatever its value, sums and products are reduced to
32 bits, the division truncates, and the index into `ptr` is signed. -/

/-- The loop `for (int i = lo; i < hi; i++) body(i)` on `int` bounds: no pass
when `hi ≤ lo`. The index stays below `hi`, so `i++` does not overflow. -/
def forRangeInt {σ : Type} (lo hi : Int) (body : Int → σ → σ) (s : σ) : σ :=
  (List.range (hi - lo).toNat).foldl (fun acc (k : Nat) => body (lo + (k : Int)) acc) s

/-- The loop `for (int i = start; i < bound; i += step) body(i)` on `int`,
from the point where the index is `i`, run for at most `fuel` iterations; the
sum `i + step` is reduced to 32 bits. -/
def forStrideInt32 {σ : Type} (bound step : Int) (body : Int → σ → σ) :
    Nat → Int → σ → Outcome σ
  | 0, i, s => if i < bound then .running s else .done s
  | fuel + 1, i, s =>
    if i < bound then forStrideInt32 bound step body fuel (wrapInt32 (i + step)) (body i s)
    else .done s

/-- The parallel region of `kernel_omp_1D_Row` on `int`, for one thread:
`for (int y = thread_id; y < DIM; y += num_threads)
   for (int x = 0; x < DIM; x++) cell(x, y)`. -/
def region_1D_Row_int32 {σ : Type} (cell : Int → Int → σ → σ)
    (num_threads thread_id : Int) (fuel : Nat) (s : σ) : Outcome σ :=
  forStrideInt32 DIM num_threads
    (fun y s1 => forRangeInt 0 DIM (fun x s2 => cell x y s2) s1) fuel thread_id s

/-- The parallel region of `kernel_omp_1D_Col` on `int`, for one thread:
`for (int x = thread_id; x < DIM; x += num_threads)
   for (int y = 0; y < DIM; y++) cell(x, y)`. -/
def region_1D_Col_int32 {σ : Type} (cell : Int → Int → σ → σ)
    (num_threads thread_id : Int) (fuel : Nat) (s : σ) : Outcome σ :=
  forStrideInt32 DIM num_threads
    (fun x s1 => forRangeInt 0 DIM (fun y s2 => cell x y s2) s1) fuel thread_id s

/-- The value of `int rows_per_thread = DIM / num_threads;` (also
`cols_per_thread`) on `int`, for a non-zero `num_threads`: the quotient
truncated towards zero. -/
def rows_per_thread_int32 (num_threads : Int) : Int := Int.tdiv DIM num_threads

/-- The value of `int start_row = thread_id * rows_per_thread;` (also
`start_col`) on `int`. -/
def start_row_int32 (num_threads thread_id : Int) : Int :=
  wrapInt32 (thread_id * rows_per_thread_int32 num_threads)

/-- The value of `end_row` (also `end_col`) on `int`:
`if (thread_id == num_threads - 1) end_row = DIM;
else end_row = start_row + rows_per_thread;`. -/
def end_row_int32 (num_threads thread_id : Int) : Int :=
  if thread_id = wrapInt32 (num_threads - 1) then DIM
  else wrapInt32 (start_row_int32 num_threads thread_id + rows_per_thread_int32 num_threads)

/-- The parallel region of `kernel_omp_2D_Row_Block` on `int`, for one thread:
the range `[start_row, end_row)` is computed, with a division by
`num_threads`, then `for (int y = start_row; y < end_row; y++)
                       for (int x = 0; x < DIM; x++) cell(x, y)`. -/
def region_2D_Row_Block_int32 {σ : Type} (cell : Int → Int → σ → σ)
    (num_threads thread_id : Int) (s : σ) : Outcome σ :=
  if num_threads = 0 then .divByZero
  else .done (forRangeInt (start_row_int32 num_threads thread_id)
    (end_row_int32 num_threads thread_id)
    (fun y s1 => forRangeInt 0 DIM (fun x s2 => cell x y s2) s1) s)

/-- The parallel region of `kernel_omp_2D_Col_Block` on `int`, for one thread:
the range `[start_col, end_col)` is computed as in the row version, then
`for (int y = 0; y < DIM; y++)
   for (int x = start_col; x < end_col; x++) cell(x, y)`. -/
def region_2D_Col_Block_int32 {σ : Type} (cell : Int → Int → σ → σ)
    (num_threads thread_id : Int) (s : σ) : Outcome σ :=
  if num_threads = 0 then .divByZero
  else .done (forRangeInt 0 DIM
    (fun y s1 => forRangeInt (start_row_int32 num_threads thread_id)
      (end_row_int32 num_threads thread_id) (fun x s2 => cell x y s2) s1) s)

theorem refOrbit_step (A : Arith) (a : cuComplex A) (k : Nat) :
    refOrbit A (juliaStep A a) k = refOrbit A a (k + 1) := by
  induction k with
  | zero => rfl
  | succ k ih =>
    show ((refOrbit A (juliaStep A a) k).mul (refOrbit A (juliaStep A a) k)).add _ = _
    rw [ih]
    rfl

theorem refOrbit_one (A : Arith) (a : cuComplex A) :
    refOrbit A a 1 = juliaStep A a := rfl

/-- The loop returns 1 after all its iterations when no iterate escapes. -/
theorem juliaLoop_member (A : Arith) (n d : Nat) (a : cuComplex A)
    (h : ∀ k, 1 ≤ k → k ≤ n → escaped A (refOrbit A a k) = false) :
    juliaLoop A n d a = (1, d + n) := by
  induction n generalizing d a with
  | zero => rfl
  | succ n ih =>
    have h1 : escaped A (juliaStep A a) = false := by
      have := h 1 (le_refl _) (by omega)
      rwa [refOrbit_one] at this
    have hrest : ∀ k, 1 ≤ k → k ≤ n → escaped A (refOrbit A (juliaStep A a) k) = false := by
      intro k hk hkn
      rw [refOrbit_step]
      exact h (k + 1) (by omega) (by omega)
    simp only [juliaLoop, h1, Bool.false_eq_true, if_false]
    rw [ih (d + 1) (juliaStep A a) hrest]
    congr 1
    omega

/-- The loop returns 0 at the first iterate that escapes. -/
theorem juliaLoop_escape (A : Arith) (n d : Nat) (a : cuComplex A) (k : Nat)
    (hk1 : 1 ≤ k) (hkn : k ≤ n) (hesc : escaped A (refOrbit A a k) = true)
    (hfirst : ∀ j, 1 ≤ j → j < k → escaped A (refOrbit A a j) = false) :
    juliaLoop A n d a = (0, d + k) := by
  induction n generalizing d a k with
  | zero => omega
  | succ n ih =>
    by_cases hk : k = 1
    · subst hk
      rw [refOrbit_one] at hesc
      simp only [juliaLoop, hesc, if_true]
    · have h1 : escaped A (juliaStep A a) = false := by
        have := hfirst 1 (le_refl _) (by omega)
        rwa [refOrbit_one] at this
      simp only [juliaLoop, h1, Bool.false_eq_true, if_false]
      have := ih (d + 1) (juliaStep A a) (k - 1) (by omega) (by omega)
        (by rw [refOrbit_step]; rw [show k - 1 + 1 = k by omega]; exact hesc)
        (by
          intro j hj hjk
          rw [refOrbit_step]
          exact hfirst (j + 1) (by omega) (by omega))
      rw [this]
      congr 1
      omega

/-- The loop returns 0 or 1 and runs its body between once and `n` times more
(not at all when `n = 0`). -/
theorem juliaLoop_range (A : Arith) (n d : Nat) (a : cuComplex A) :
    ((juliaLoop A n d a).1 = 0 ∨ (juliaLoop A n d a).1 = 1) ∧
      d + min n 1 ≤ (juliaLoop A n d a).2 ∧ (juliaLoop A n d a).2 ≤ d + n := by
  induction n generalizing d a with
  | zero => simp [juliaLoop]
  | succ n ih =>
    by_cases h : escaped A (juliaStep A a) = true
    · simp [juliaLoop, h]
    · have h1 : escaped A (juliaStep A a) = false := by simpa using h
      simp only [juliaLoop, h1, Bool.false_eq_true, if_false]
      obtain ⟨hv, hlo, hhi⟩ := ih (d + 1) (juliaStep A a)
      refine ⟨hv, ?_, ?_⟩
      · have : min (n + 1) 1 = 1 := by simp
        omega
      · omega

theorem refEscapesAt_iff (A : Arith) (x y : Int) (k : Nat) :
    refEscapesAt A x y k ↔ escaped A (refOrbit A (juliaStart A x y) k) = true := Iff.rfl

/-- The two ways a run of `julia` ends: at the first escaping iterate, with
value 0, or after 300 iterations without escape, with value 1. -/
theorem juliaRun_cases (A : Arith) (x y : Int) :
    (∃ k, 1 ≤ k ∧ k ≤ 300 ∧ refEscapesAt A x y k ∧
        (∀ j, 1 ≤ j → j < k → ¬ refEscapesAt A x y j) ∧ juliaRun A x y = (0, k)) ∨
      ((∀ k, 1 ≤ k → k ≤ 300 → ¬ refEscapesAt A x y k) ∧ juliaRun A x y = (1, 300)) := by
  by_cases hP : ∃ k, 1 ≤ k ∧ k ≤ 300 ∧ refEscapesAt A x y k
  · left
    refine ⟨Nat.find hP, (Nat.find_spec hP).1, (Nat.find_spec hP).2.1,
      (Nat.find_spec hP).2.2, ?_, ?_⟩
    · intro j hj1 hjk hE
      exact Nat.find_min hP hjk ⟨hj1, by have := (Nat.find_spec hP).2.1; omega, hE⟩
    · have h := juliaLoop_escape A 300 0 (juliaStart A x y) (Nat.find hP)
        (Nat.find_spec hP).1 (Nat.find_spec hP).2.1 (Nat.find_spec hP).2.2
        (by
          intro j hj1 hjk
          by_contra hne
          have hE : refEscapesAt A x y j := by
            rw [refEscapesAt_iff]; simpa using hne
          exact Nat.find_min hP hjk ⟨hj1, by have := (Nat.find_spec hP).2.1; omega, hE⟩)
      simpa [juliaRun] using h
  · right
    have hall : ∀ k, 1 ≤ k → k ≤ 300 → ¬ refEscapesAt A x y k := by
      intro k hk1 hk hE
      exact hP ⟨k, hk1, hk, hE⟩
    refine ⟨hall, ?_⟩
    have h := juliaLoop_member A 300 0 (juliaStart A x y)
      (by
        intro k hk1 hk
        have := hall k hk1 hk
        rw [refEscapesAt_iff] at this
        simpa using this)
    simpa [juliaRun] using h

/-- C6. For every arithmetic and every `(x, y)`, with the orbit `a_0 = (jx, jy)`,
`a_{k+1} = a_k * a_k + c`: `julia(x, y)` returns 0 exactly when some iterate
`a_k` with `1 ≤ k ≤ 300` has `|a_k|^2 > 1000`, and 1 exactly when none has.
Only the iterates from `a_1` on are tested, and the loop stops at the first one
that escapes: it makes `k` iterations when `a_k` is the first escaping iterate
and 300 when there is none. -/
theorem julia_eq_escape_time (A : Arith) (x y : Int) :
    (julia A x y = 0 ↔ ∃ k, 1 ≤ k ∧ k ≤ 300 ∧ refEscapesAt A x y k) ∧
    (julia A x y = 1 ↔ ∀ k, 1 ≤ k → k ≤ 300 → ¬ refEscapesAt A x y k) ∧
    (∀ k, 1 ≤ k → k ≤ 300 → refEscapesAt A x y k →
      (∀ j, 1 ≤ j → j < k → ¬ refEscapesAt A x y j) → juliaIterations A x y = k) ∧
    ((∀ k, 1 ≤ k → k ≤ 300 → ¬ refEscapesAt A x y k) → juliaIterations A x y = 300) := by
  rcases juliaRun_cases A x y with ⟨k0, h1, h300, hE, hmin, hrun⟩ | ⟨hall, hrun⟩
  · refine ⟨?_, ?_, ?_, ?_⟩
    · simp only [julia, hrun]
      exact ⟨fun _ => ⟨k0, h1, h300, hE⟩, fun _ => trivial⟩
    · simp only [julia, hrun]
      constructor
      · intro h; exact absurd h (by decide)
      · intro h; exact absurd hE (h k0 h1 h300)
    · intro k hk1 _ hEk hmink
      simp only [juliaIterations, hrun]
      rcases Nat.lt_trichotomy k0 k with hlt | heq | hgt
      · exact absurd hE (hmink k0 h1 hlt)
      · exact heq
      · exact absurd hEk (hmin k hk1 hgt)
    · intro h
      exact absurd hE (h k0 h1 h300)
  · refine ⟨?_, ?_, ?_, ?_⟩
    · simp only [julia, hrun]
      constructor
      · intro h; exact absurd h (by decide)
      · rintro ⟨k, hk1, hk, hEk⟩; exact absurd hEk (hall k hk1 hk)
    · simp only [julia, hrun]
      exact ⟨fun _ => hall, fun _ => trivial⟩
    · intro k hk1 hk hEk _
      exact absurd hEk (hall k hk1 hk)
    · intro _
      simp only [juliaIterations, hrun]

/-- C7. For every arithmetic and every pair of integers `(x, y)`, the run of
`julia(x, y)` ends after at least one and at most 300 iterations of its loop
with the value 0 or 1; the divisor of its only division is `DIM/2 = 384`,
which is not zero. -/
theorem julia_total_binary (A : Arith) (x y : Int) :
    (julia A x y = 0 ∨ julia A x y = 1) ∧
    1 ≤ juliaIterations A x y ∧ juliaIterations A x y ≤ 300 ∧
    ((DIM / 2 : Nat) : Int) = 384 ∧ ((DIM / 2 : Nat) : Int) ≠ 0 := by
  obtain ⟨hv, hlo, hhi⟩ := juliaLoop_range A 300 0 (juliaStart A x y)
  refine ⟨hv, ?_, ?_, by decide, by decide⟩
  · simpa [juliaIterations, juliaRun] using hlo
  · simpa [juliaIterations, juliaRun] using hhi

/-! ## Loops as folds along their iteration sequence -/

theorem forStride_eq_foldl {σ : Type} (bound step : Nat) (body : Nat → σ → σ)
    (hstep : 1 ≤ step) (fuel i : Nat) (s : σ) (hfuel : bound ≤ i + fuel) :
    forStride bound step body fuel i s =
      .done ((strideList bound step fuel i).foldl (fun acc j => body j acc) s) := by
  induction fuel generalizing i s with
  | zero =>
    have : ¬ i < bound := by omega
    simp [forStride, strideList, this]
  | succ fuel ih =>
    by_cases h : i < bound
    · simp only [forStride, strideList, h, if_true, List.foldl_cons]
      exact ih (i + step) (body i s) (by omega)
    · simp [forStride, strideList, h]

theorem foldl_rowMajor {σ : Type} (cell : Nat → Nat → σ → σ) (ys xs : List Nat) (s : σ) :
    ys.foldl (fun s1 y => xs.foldl (fun s2 x => cell x y s2) s1) s =
      runCells cell (rowMajor ys xs) s := by
  induction ys generalizing s with
  | nil => rfl
  | cons y ys ih =>
    simp only [List.foldl_cons, rowMajor, List.flatMap_cons, runCells, List.foldl_append,
      List.foldl_map]
    exact ih _

theorem foldl_colMajor {σ : Type} (cell : Nat → Nat → σ → σ) (xs ys : List Nat) (s : σ) :
    xs.foldl (fun s1 x => ys.foldl (fun s2 y => cell x y s2) s1) s =
      runCells cell (colMajor xs ys) s := by
  induction xs generalizing s with
  | nil => rfl
  | cons x xs ih =>
    simp only [List.foldl_cons, colMajor, List.flatMap_cons, runCells, List.foldl_append,
      List.foldl_map]
    exact ih _

theorem region_1D_Row_eq {σ : Type} (cell : Nat → Nat → σ → σ) (N t fuel : Nat) (s : σ)
    (hN : 1 ≤ N) (hfuel : DIM ≤ fuel) :
    region_1D_Row cell N t fuel s = .done (runCells cell (cells_1D_Row N fuel t) s) := by
  unfold region_1D_Row cells_1D_Row
  rw [forStride_eq_foldl DIM N _ hN fuel t s (by omega)]
  simp only [forRange]
  rw [foldl_rowMajor]

theorem region_1D_Col_eq {σ : Type} (cell : Nat → Nat → σ → σ) (N t fuel : Nat) (s : σ)
    (hN : 1 ≤ N) (hfuel : DIM ≤ fuel) :
    region_1D_Col cell N t fuel s = .done (runCells cell (cells_1D_Col N fuel t) s) := by
  unfold region_1D_Col cells_1D_Col
  rw [forStride_eq_foldl DIM N _ hN fuel t s (by omega)]
  simp only [forRange]
  rw [foldl_colMajor]

theorem region_2D_Row_Block_eq {σ : Type} (cell : Nat → Nat → σ → σ) (N t : Nat) (s : σ)
    (hN : 1 ≤ N) :
    region_2D_Row_Block cell N t s = .done (runCells cell (cells_2D_Row_Block N t) s) := by
  unfold region_2D_Row_Block cells_2D_Row_Block
  rw [if_neg (by omega)]
  simp only [forRange]
  rw [foldl_rowMajor]

theorem region_2D_Col_Block_eq {σ : Type} (cell : Nat → Nat → σ → σ) (N t : Nat) (s : σ)
    (hN : 1 ≤ N) :
    region_2D_Col_Block cell N t s = .done (runCells cell (cells_2D_Col_Block N t) s) := by
  unfold region_2D_Col_Block cells_2D_Col_Block
  rw [if_neg (by omega)]
  simp only [forRange]
  rw [foldl_rowMajor]

theorem runPlan_append {σ : Type} (cell : Nat → Nat → Nat → σ → σ) (p q : List Visit) (s : σ) :
    runPlan cell (p ++ q) s = runPlan cell q (runPlan cell p s) := by
  simp [runPlan, List.foldl_append]

theorem runPlan_tag {σ : Type} (cell : Nat → Nat → Nat → σ → σ) (t : Nat)
    (cells : List (Nat × Nat)) (s : σ) :
    runPlan cell (cells.map (fun c => (t, c))) s = runCells (cell t) cells s := by
  simp [runPlan, runCells, List.foldl_map]

theorem teamPlan_succ (N : Nat) (cellsOf : Nat → List (Nat × Nat)) :
    teamPlan (N + 1) cellsOf = teamPlan N cellsOf ++ (cellsOf N).map (fun c => (N, c)) := by
  simp [teamPlan, List.range_succ, List.flatMap_append]

/-- The threads of a team of `N ≥ 1` threads are the threads `0 .. N-1`. -/
theorem parallel_eq_range {σ : Type} (N : Nat) (hN : 1 ≤ N) (region : Nat → σ → Outcome σ)
    (s : σ) :
    parallel N region s =
      (List.range N).foldl (fun o thread_id => o.andThen (region thread_id)) (.done s) := by
  have hteam : 0 :: List.range' 1 (N - 1) = List.range N := by
    rw [List.range_eq_range']
    obtain ⟨k, rfl⟩ : ∃ k, N = k + 1 := ⟨N - 1, by omega⟩
    simp [List.range'_succ]
  unfold parallel
  rw [hteam]

theorem foldl_range_eq_runPlan {σ : Type} (cell : Nat → Nat → Nat → σ → σ)
    (cellsOf : Nat → List (Nat × Nat)) (region : Nat → σ → Outcome σ) (N : Nat)
    (h : ∀ t s, region t s = .done (runCells (cell t) (cellsOf t) s)) (s : σ) :
    (List.range N).foldl (fun (o : Outcome σ) thread_id => o.andThen (region thread_id))
        (Outcome.done s) =
      Outcome.done (runPlan cell (teamPlan N cellsOf) s) := by
  induction N with
  | zero => rfl
  | succ N ih =>
    rw [List.range_succ, List.foldl_append, ih]
    simp only [List.foldl_cons, List.foldl_nil, Outcome.andThen]
    rw [h, teamPlan_succ, runPlan_append, runPlan_tag]

/-- A region whose threads each run a loop body along their cells is the run
of the body along the visits of the team. -/
theorem parallel_eq_runPlan {σ : Type} (cell : Nat → Nat → Nat → σ → σ)
    (cellsOf : Nat → List (Nat × Nat)) (region : Nat → σ → Outcome σ) (N : Nat) (hN : 1 ≤ N)
    (h : ∀ t s, region t s = .done (runCells (cell t) (cellsOf t) s)) (s : σ) :
    parallel N region s = .done (runPlan cell (teamPlan N cellsOf) s) := by
  rw [parallel_eq_range N hN, foldl_range_eq_runPlan cell cellsOf region N h]

theorem runPlan_logVisit (plan log : List Visit) :
    runPlan logVisit plan log = log ++ plan := by
  induction plan generalizing log with
  | nil => simp [runPlan]
  | cons v plan ih =>
    have : runPlan logVisit (v :: plan) log = runPlan logVisit plan (logVisit v.1 v.2.1 v.2.2 log) := rfl
    rw [this, ih]
    simp [logVisit]

theorem runPlan_untagged {σ : Type} (cell : Nat → Nat → σ → σ) (plan : List Visit) (s : σ) :
    runPlan (fun _ => cell) plan s = runCells cell (plan.map Prod.snd) s := by
  simp [runPlan, runCells, List.foldl_map]

/-! ## The iteration sequences as sets -/

theorem strideList_lower (bound step fuel i y : Nat)
    (h : y ∈ strideList bound step fuel i) : i ≤ y := by
  induction fuel generalizing i with
  | zero => simp [strideList] at h
  | succ fuel ih =>
    by_cases hi : i < bound
    · simp only [strideList, hi, if_true, List.mem_cons] at h
      rcases h with h | h
      · omega
      · have := ih (i + step) h
        omega
    · simp [strideList, hi] at h

theorem mem_strideList (bound step : Nat) (hstep : 1 ≤ step) (fuel i y : Nat)
    (hfuel : bound ≤ i + fuel) :
    y ∈ strideList bound step fuel i ↔ i ≤ y ∧ y < bound ∧ step ∣ (y - i) := by
  induction fuel generalizing i with
  | zero =>
    simp only [strideList, List.not_mem_nil, false_iff]
    omega
  | succ fuel ih =>
    by_cases hi : i < bound
    · simp only [strideList, hi, if_true, List.mem_cons]
      rw [ih (i + step) (by omega)]
      constructor
      · rintro (h | ⟨h1, h2, h3⟩)
        · subst h
          simp [hi]
        · refine ⟨by omega, h2, ?_⟩
          have : y - i = (y - (i + step)) + step := by omega
          rw [this]
          exact Dvd.dvd.add h3 (dvd_refl _)
      · rintro ⟨h1, h2, h3⟩
        by_cases hy : y = i
        · exact Or.inl hy
        · right
          have hpos : 0 < y - i := by omega
          have hle : step ≤ y - i := Nat.le_of_dvd hpos h3
          refine ⟨by omega, h2, ?_⟩
          have : y - (i + step) = (y - i) - step := by omega
          rw [this]
          exact Nat.dvd_sub' h3 (dvd_refl _)
    · simp only [strideList, hi, if_false, List.not_mem_nil, false_iff]
      omega

theorem nodup_strideList (bound step : Nat) (hstep : 1 ≤ step) (fuel i : Nat) :
    (strideList bound step fuel i).Nodup := by
  induction fuel generalizing i with
  | zero => simp [strideList]
  | succ fuel ih =>
    by_cases hi : i < bound
    · simp only [strideList, hi, if_true, List.nodup_cons]
      refine ⟨?_, ih _⟩
      intro hmem
      have := strideList_lower bound step fuel (i + step) i hmem
      omega
    · simp [strideList, hi]

/-- Thread `t < N` of a strided loop visits the indices below the bound that
are congruent to `t` modulo `N`. -/
theorem mem_strideList_thread (bound N fuel t y : Nat) (hN : 1 ≤ N) (ht : t < N)
    (hfuel : bound ≤ fuel) :
    y ∈ strideList bound N fuel t ↔ y < bound ∧ y % N = t := by
  rw [mem_strideList bound N hN fuel t y (by omega)]
  constructor
  · rintro ⟨h1, h2, k, hk⟩
    refine ⟨h2, ?_⟩
    have hy : y = t + N * k := by omega
    rw [hy, Nat.add_mul_mod_self_left, Nat.mod_eq_of_lt ht]
  · rintro ⟨h1, h2⟩
    have hdiv := Nat.mod_add_div y N
    refine ⟨by rw [← h2]; exact Nat.mod_le _ _, h1, y / N, ?_⟩
    rw [← h2]
    omega

theorem mem_rowMajor (ys xs : List Nat) (c : Nat × Nat) :
    c ∈ rowMajor ys xs ↔ c.2 ∈ ys ∧ c.1 ∈ xs := by
  obtain ⟨x, y⟩ := c
  simp only [rowMajor, List.mem_flatMap, List.mem_map, Prod.mk.injEq]
  constructor
  · rintro ⟨y1, hy1, x1, hx1, rfl, rfl⟩
    exact ⟨hy1, hx1⟩
  · rintro ⟨hy, hx⟩
    exact ⟨y, hy, x, hx, rfl, rfl⟩

theorem mem_colMajor (xs ys : List Nat) (c : Nat × Nat) :
    c ∈ colMajor xs ys ↔ c.1 ∈ xs ∧ c.2 ∈ ys := by
  obtain ⟨x, y⟩ := c
  simp only [colMajor, List.mem_flatMap, List.mem_map, Prod.mk.injEq]
  constructor
  · rintro ⟨x1, hx1, y1, hy1, rfl, rfl⟩
    exact ⟨hx1, hy1⟩
  · rintro ⟨hx, hy⟩
    exact ⟨x, hx, y, hy, rfl, rfl⟩

theorem nodup_rowMajor (ys xs : List Nat) (hy : ys.Nodup) (hx : xs.Nodup) :
    (rowMajor ys xs).Nodup := by
  unfold rowMajor
  rw [List.nodup_flatMap]
  refine ⟨fun y _ => hx.map (fun a b h => by simpa using h), ?_⟩
  refine hy.pairwise_of_forall_ne ?_
  intro a _ b _ hab
  simp only [Function.onFun]
  rw [List.disjoint_left]
  intro c hca hcb
  simp only [List.mem_map] at hca hcb
  obtain ⟨x1, _, rfl⟩ := hca
  obtain ⟨x2, _, h2⟩ := hcb
  simp only [Prod.mk.injEq] at h2
  exact hab h2.2.symm

theorem nodup_colMajor (xs ys : List Nat) (hx : xs.Nodup) (hy : ys.Nodup) :
    (colMajor xs ys).Nodup := by
  unfold colMajor
  rw [List.nodup_flatMap]
  refine ⟨fun x _ => hy.map (fun a b h => by simpa using h), ?_⟩
  refine hx.pairwise_of_forall_ne ?_
  intro a _ b _ hab
  simp only [Function.onFun]
  rw [List.disjoint_left]
  intro c hca hcb
  simp only [List.mem_map] at hca hcb
  obtain ⟨y1, _, rfl⟩ := hca
  obtain ⟨y2, _, h2⟩ := hcb
  simp only [Prod.mk.injEq] at h2
  exact hab h2.1.symm

/-! ## The block ranges -/

theorem rows_per_thread_mul_le (N : Nat) : N * rows_per_thread N ≤ DIM := by
  unfold rows_per_thread
  exact Nat.mul_div_le DIM N

theorem start_row_le_end_row (N t : Nat) (ht : t < N) :
    start_row N t ≤ end_row N t ∧ end_row N t ≤ DIM := by
  have hq := rows_per_thread_mul_le N
  unfold end_row start_row
  by_cases h : t + 1 = N
  · rw [if_pos h]
    have : t * rows_per_thread N ≤ N * rows_per_thread N := Nat.mul_le_mul_right _ (by omega)
    omega
  · rw [if_neg h]
    have : (t + 1) * rows_per_thread N ≤ N * rows_per_thread N :=
      Nat.mul_le_mul_right _ (by omega)
    rw [Nat.add_mul, Nat.one_mul] at this
    omega

/-- Thread `t < N` of a block strategy gets the indices whose owner it is. -/
theorem mem_block_range (N t v : Nat) (hN : 1 ≤ N) (ht : t < N) :
    (start_row N t ≤ v ∧ v < end_row N t) ↔ (v < DIM ∧ blockOwner N v = t) := by
  have hq := rows_per_thread_mul_le N
  have hle := start_row_le_end_row N t ht
  unfold end_row start_row at *
  unfold blockOwner
  generalize hqdef : rows_per_thread N = q at *
  by_cases h : t + 1 = N
  · have hN1 : N - 1 = t := by omega
    rw [if_pos h] at hle ⊢
    rw [hN1]
    constructor
    · rintro ⟨h1, h2⟩
      refine ⟨h2, ?_⟩
      rw [if_neg (by omega)]
    · rintro ⟨h1, h2⟩
      refine ⟨?_, h1⟩
      by_contra hlt
      rw [if_pos (by omega)] at h2
      have : v / q * q ≤ v := Nat.div_mul_le_self v q
      rw [h2] at this
      omega
  · rw [if_neg h] at hle ⊢
    have hmono : (t + 1) * q ≤ (N - 1) * q := Nat.mul_le_mul_right _ (by omega)
    rw [Nat.add_mul, Nat.one_mul] at hmono
    constructor
    · rintro ⟨h1, h2⟩
      refine ⟨by omega, ?_⟩
      rw [if_pos (by omega)]
      have hqpos : 0 < q := by
        rcases Nat.eq_zero_or_pos q with h0 | h0
        · subst h0; omega
        · exact h0
      apply Nat.div_eq_of_lt_le
      · exact h1
      · rw [Nat.succ_mul]; exact h2
    · rintro ⟨h1, h2⟩
      by_cases hv : v < (N - 1) * q
      · rw [if_pos hv] at h2
        have hqpos : 0 < q := by
          rcases Nat.eq_zero_or_pos q with h0 | h0
          · subst h0; simp at hv
          · exact h0
        have hd := Nat.div_add_mod v q
        have hm := Nat.mod_lt v hqpos
        rw [h2, Nat.mul_comm] at hd
        omega
      · rw [if_neg hv] at h2
        omega

theorem blockOwner_lt (N v : Nat) (hN : 1 ≤ N) : blockOwner N v < N := by
  unfold blockOwner
  by_cases hv : v < (N - 1) * rows_per_thread N
  · rw [if_pos hv]
    have : v / rows_per_thread N < N - 1 := by
      apply Nat.div_lt_of_lt_mul
      rwa [Nat.mul_comm] at hv
    omega
  · rw [if_neg hv]
    omega

/-! ## The four manual strategies split the grid -/

theorem range'_nodup (s n : Nat) : (List.range' s n).Nodup :=
  List.nodup_range' s n 1 (by decide)

theorem splits_1D_Row (N fuel : Nat) (hN : 1 ≤ N) (hfuel : DIM ≤ fuel) :
    SplitsGrid N (cells_1D_Row N fuel) (fun c => c.2 % N) where
  nodup := fun t _ => nodup_rowMajor _ _ (nodup_strideList DIM N hN fuel t) (range'_nodup _ _)
  mem_iff := by
    intro t ht c
    unfold cells_1D_Row
    rw [mem_rowMajor, mem_strideList_thread DIM N fuel t c.2 hN ht hfuel, List.mem_range'_1]
    constructor
    · rintro ⟨⟨h1, h2⟩, _, h3⟩
      exact ⟨by omega, h1, h2⟩
    · rintro ⟨h1, h2, h3⟩
      exact ⟨⟨h2, h3⟩, by omega, by omega⟩
  owner_lt := fun c _ _ => Nat.mod_lt _ (by omega)

theorem splits_1D_Col (N fuel : Nat) (hN : 1 ≤ N) (hfuel : DIM ≤ fuel) :
    SplitsGrid N (cells_1D_Col N fuel) (fun c => c.1 % N) where
  nodup := fun t _ => nodup_colMajor _ _ (nodup_strideList DIM N hN fuel t) (range'_nodup _ _)
  mem_iff := by
    intro t ht c
    unfold cells_1D_Col
    rw [mem_colMajor, mem_strideList_thread DIM N fuel t c.1 hN ht hfuel, List.mem_range'_1]
    constructor
    · rintro ⟨⟨h1, h2⟩, _, h3⟩
      exact ⟨h1, by omega, h2⟩
    · rintro ⟨h1, h2, h3⟩
      exact ⟨⟨h1, h3⟩, by omega, by omega⟩
  owner_lt := fun c _ _ => Nat.mod_lt _ (by omega)

theorem splits_2D_Row_Block (N : Nat) (hN : 1 ≤ N) :
    SplitsGrid N (cells_2D_Row_Block N) (fun c => blockOwner N c.2) where
  nodup := fun t _ => nodup_rowMajor _ _ (range'_nodup _ _) (range'_nodup _ _)
  mem_iff := by
    intro t ht c
    have hle := start_row_le_end_row N t ht
    have hb := mem_block_range N t c.2 hN ht
    unfold cells_2D_Row_Block
    rw [mem_rowMajor, List.mem_range'_1, List.mem_range'_1]
    constructor
    · rintro ⟨⟨h1, h2⟩, _, h3⟩
      have := hb.1 ⟨h1, by omega⟩
      exact ⟨by omega, this.1, this.2⟩
    · rintro ⟨h1, h2, h3⟩
      have := hb.2 ⟨h2, h3⟩
      exact ⟨⟨this.1, by omega⟩, by omega, by omega⟩
  owner_lt := fun c _ _ => blockOwner_lt N c.2 hN

theorem splits_2D_Col_Block (N : Nat) (hN : 1 ≤ N) :
    SplitsGrid N (cells_2D_Col_Block N) (fun c => blockOwner N c.1) where
  nodup := fun t _ => nodup_rowMajor _ _ (range'_nodup _ _) (range'_nodup _ _)
  mem_iff := by
    intro t ht c
    have hle := start_row_le_end_row N t ht
    have hb := mem_block_range N t c.1 hN ht
    unfold cells_2D_Col_Block
    rw [mem_rowMajor, List.mem_range'_1, List.mem_range'_1]
    constructor
    · rintro ⟨⟨_, h3⟩, h1, h2⟩
      have := hb.1 ⟨h1, by omega⟩
      exact ⟨this.1, by omega, this.2⟩
    · rintro ⟨h1, h2, h3⟩
      have := hb.2 ⟨h1, h3⟩
      exact ⟨⟨by omega, by omega⟩, this.1, by omega⟩
  owner_lt := fun c _ _ => blockOwner_lt N c.1 hN

/-! ## The visits of a team whose threads split the grid -/

theorem count_eq_one_of_nodup_mem {α : Type} [BEq α] [LawfulBEq α] {a : α} {l : List α}
    (d : l.Nodup) (h : a ∈ l) : l.count a = 1 := by
  induction l with
  | nil => cases h
  | cons b l ih =>
    rw [List.nodup_cons] at d
    rw [List.count_cons]
    by_cases hb : b = a
    · subst hb
      simp [List.count_eq_zero_of_not_mem d.1]
    · have hmem : a ∈ l := by
        rcases List.mem_cons.1 h with h1 | h1
        · exact absurd h1.symm hb
        · exact h1
      simp [ih d.2 hmem, hb]

theorem mem_teamPlan (N : Nat) (cellsOf : Nat → List (Nat × Nat)) (v : Visit) :
    v ∈ teamPlan N cellsOf ↔ v.1 < N ∧ v.2 ∈ cellsOf v.1 := by
  obtain ⟨t, c⟩ := v
  simp only [teamPlan, List.mem_flatMap, List.mem_range, List.mem_map, Prod.mk.injEq]
  constructor
  · rintro ⟨t1, ht1, c1, hc1, rfl, rfl⟩
    exact ⟨ht1, hc1⟩
  · rintro ⟨ht, hc⟩
    exact ⟨t, ht, c, hc, rfl, rfl⟩

theorem teamPlan_cells (N : Nat) (cellsOf : Nat → List (Nat × Nat)) :
    (teamPlan N cellsOf).map Prod.snd = (List.range N).flatMap cellsOf := by
  unfold teamPlan
  rw [List.map_flatMap]
  congr 1
  funext t
  simp [List.map_map, Function.comp_def]

namespace SplitsGrid

variable {N : Nat} {cellsOf : Nat → List (Nat × Nat)} {owner : Nat × Nat → Nat}

/-- A visit is in the log of the team exactly when its cell is in the grid and
its thread is the owner of the cell. -/
theorem mem_plan (P : SplitsGrid N cellsOf owner) (v : Visit) :
    v ∈ teamPlan N cellsOf ↔ v.2.1 < DIM ∧ v.2.2 < DIM ∧ owner v.2 = v.1 := by
  rw [mem_teamPlan]
  constructor
  · rintro ⟨h1, h2⟩
    exact (P.mem_iff v.1 h1 v.2).1 h2
  · rintro ⟨h1, h2, h3⟩
    have hlt : v.1 < N := by rw [← h3]; exact P.owner_lt v.2 h1 h2
    exact ⟨hlt, (P.mem_iff v.1 hlt v.2).2 ⟨h1, h2, h3⟩⟩

theorem nodup_cells (P : SplitsGrid N cellsOf owner) :
    ((teamPlan N cellsOf).map Prod.snd).Nodup := by
  rw [teamPlan_cells, List.nodup_flatMap]
  refine ⟨fun t ht => P.nodup t (List.mem_range.1 ht), ?_⟩
  refine (List.nodup_range N).pairwise_of_forall_ne ?_
  intro a ha b hb hab
  simp only [Function.onFun]
  rw [List.disjoint_left]
  intro c hca hcb
  have h1 := (P.mem_iff a (List.mem_range.1 ha) c).1 hca
  have h2 := (P.mem_iff b (List.mem_range.1 hb) c).1 hcb
  exact hab (h1.2.2.symm.trans h2.2.2)

theorem mem_cells (P : SplitsGrid N cellsOf owner) (c : Nat × Nat) :
    c ∈ (teamPlan N cellsOf).map Prod.snd ↔ c.1 < DIM ∧ c.2 < DIM := by
  rw [List.mem_map]
  constructor
  · rintro ⟨v, hv, rfl⟩
    have := (P.mem_plan v).1 hv
    exact ⟨this.1, this.2.1⟩
  · rintro ⟨h1, h2⟩
    exact ⟨(owner c, c), (P.mem_plan (owner c, c)).2 ⟨h1, h2, rfl⟩, rfl⟩

/-- Every cell of the grid is visited exactly once by the team. -/
theorem count_cells (P : SplitsGrid N cellsOf owner) (x y : Nat) (hx : x < DIM) (hy : y < DIM) :
    ((teamPlan N cellsOf).map Prod.snd).count (x, y) = 1 :=
  count_eq_one_of_nodup_mem P.nodup_cells ((P.mem_cells (x, y)).2 ⟨hx, hy⟩)

end SplitsGrid

theorem visits_eq_teamPlan (N : Nat) (hN : 1 ≤ N) (cellsOf : Nat → List (Nat × Nat))
    (region : (Nat → Nat → List Visit → List Visit) → Nat → List Visit → Outcome (List Visit))
    (h : ∀ cell t s, region cell t s = .done (runCells cell (cellsOf t) s)) :
    parallel N (fun t => region (logVisit t) t) [] = .done (teamPlan N cellsOf) := by
  rw [parallel_eq_runPlan logVisit cellsOf (fun t => region (logVisit t) t) N hN
    (fun t s => h (logVisit t) t s), runPlan_logVisit]
  rfl

theorem visits_1D_Row_eq (N fuel : Nat) (hN : 1 ≤ N) (hfuel : DIM ≤ fuel) :
    visits_1D_Row N fuel = .done (teamPlan N (cells_1D_Row N fuel)) :=
  visits_eq_teamPlan N hN _ (fun cell t s => region_1D_Row cell N t fuel s)
    (fun cell t s => region_1D_Row_eq cell N t fuel s hN hfuel)

theorem visits_1D_Col_eq (N fuel : Nat) (hN : 1 ≤ N) (hfuel : DIM ≤ fuel) :
    visits_1D_Col N fuel = .done (teamPlan N (cells_1D_Col N fuel)) :=
  visits_eq_teamPlan N hN _ (fun cell t s => region_1D_Col cell N t fuel s)
    (fun cell t s => region_1D_Col_eq cell N t fuel s hN hfuel)

theorem visits_2D_Row_Block_eq (N : Nat) (hN : 1 ≤ N) :
    visits_2D_Row_Block N = .done (teamPlan N (cells_2D_Row_Block N)) :=
  visits_eq_teamPlan N hN _ (fun cell t s => region_2D_Row_Block cell N t s)
    (fun cell t s => region_2D_Row_Block_eq cell N t s hN)

theorem visits_2D_Col_Block_eq (N : Nat) (hN : 1 ≤ N) :
    visits_2D_Col_Block N = .done (teamPlan N (cells_2D_Col_Block N)) :=
  visits_eq_teamPlan N hN _ (fun cell t s => region_2D_Col_Block cell N t s)
    (fun cell t s => region_2D_Col_Block_eq cell N t s hN)

/-! ## The per-cell write and the picture -/

theorem julia_binary (A : Arith) (x y : Int) : julia A x y = 0 ∨ julia A x y = 1 :=
  (juliaLoop_range A 300 0 (juliaStart A x y)).1

theorem toUChar_julia (A : Arith) (x y : Int) :
    toUChar (255 * julia A x y) = (255 * julia A x y).toNat := by
  rcases julia_binary A x y with h | h <;> rw [h] <;> decide

theorem offset_decode (x y : Nat) (hx : x < DIM) :
    (x + y * DIM) % DIM = x ∧ (x + y * DIM) / DIM = y := by
  have hD : 0 < DIM := by decide
  constructor
  · rw [Nat.add_mul_mod_self_right, Nat.mod_eq_of_lt hx]
  · rw [Nat.add_mul_div_right _ _ hD, Nat.div_eq_of_lt hx, Nat.zero_add]

/-- The loop body writes the four bytes of its cell as in the picture and
leaves the other bytes as they are. -/
theorem pixel_apply (A : Arith) (x y : Nat) (hx : x < DIM) (b : Buffer) (idx : Nat) :
    pixel A x y b idx = if idx / 4 = x + y * DIM then refImage A idx else b idx := by
  simp only [pixel, Function.update_apply]
  by_cases h : idx / 4 = x + y * DIM
  · rw [if_pos h]
    obtain ⟨hdx, hdy⟩ := offset_decode x y hx
    have hcases : idx % 4 = 0 ∨ idx % 4 = 1 ∨ idx % 4 = 2 ∨ idx % 4 = 3 := by omega
    simp only [refImage, h, hdx, hdy]
    rcases hcases with h0 | h0 | h0 | h0
    · rw [if_neg (by omega), if_neg (by omega), if_neg (by omega), if_pos (by omega), h0]
      exact toUChar_julia A x y
    · rw [if_neg (by omega), if_neg (by omega), if_pos (by omega), h0]
    · rw [if_neg (by omega), if_pos (by omega), h0]
    · rw [if_pos (by omega), h0]
  · rw [if_neg h, if_neg (by omega), if_neg (by omega), if_neg (by omega), if_neg (by omega)]

theorem runCells_cons {σ : Type} (cell : Nat → Nat → σ → σ) (c : Nat × Nat)
    (cells : List (Nat × Nat)) (s : σ) :
    runCells cell (c :: cells) s = runCells cell cells (cell c.1 c.2 s) := rfl

/-- The loop body run along a sequence of cells leaves the picture in the
bytes of these cells and the other bytes as they were. -/
theorem runCells_pixel (A : Arith) (cells : List (Nat × Nat))
    (hcells : ∀ c ∈ cells, c.1 < DIM) (b : Buffer) (idx : Nat) :
    runCells (pixel A) cells b idx =
      if ∃ c ∈ cells, idx / 4 = c.1 + c.2 * DIM then refImage A idx else b idx := by
  induction cells generalizing b with
  | nil => simp [runCells]
  | cons c cells ih =>
    rw [runCells_cons, ih (fun c1 h1 => hcells c1 (List.mem_cons_of_mem _ h1)),
      pixel_apply A c.1 c.2 (hcells c (List.mem_cons_self _ _))]
    by_cases h1 : ∃ c1 ∈ cells, idx / 4 = c1.1 + c1.2 * DIM
    · obtain ⟨c1, hc1, he⟩ := h1
      rw [if_pos ⟨c1, hc1, he⟩, if_pos ⟨c1, List.mem_cons_of_mem _ hc1, he⟩]
    · rw [if_neg h1]
      by_cases h2 : idx / 4 = c.1 + c.2 * DIM
      · rw [if_pos h2, if_pos ⟨c, List.mem_cons_self _ _, h2⟩]
      · rw [if_neg h2, if_neg]
        rintro ⟨c1, hc1, he⟩
        rcases List.mem_cons.1 hc1 with h3 | h3
        · subst h3; exact h2 he
        · exact h1 ⟨c1, h3, he⟩

theorem offset_lt (x y : Nat) (hx : x < DIM) (hy : y < DIM) : x + y * DIM < DIM * DIM := by
  have : y * DIM + DIM ≤ DIM * DIM := by
    have h := Nat.mul_le_mul_right DIM (show y + 1 ≤ DIM from hy)
    rw [Nat.add_mul, Nat.one_mul] at h
    exact h
  omega

/-- The loop body run along any sequence made of the cells of the grid, all of
them, writes the picture over the bitmap. -/
theorem runCells_pixel_grid (A : Arith) (cells : List (Nat × Nat))
    (hcells : ∀ c, c ∈ cells ↔ c.1 < DIM ∧ c.2 < DIM) (b : Buffer) :
    runCells (pixel A) cells b = refRender A b := by
  funext idx
  rw [runCells_pixel A cells (fun c hc => ((hcells c).1 hc).1)]
  unfold refRender
  by_cases h : idx < 4 * DIM * DIM
  · rw [if_pos h, if_pos]
    have hD : 0 < DIM := by decide
    have hoff : idx / 4 < DIM * DIM := by
      rw [Nat.div_lt_iff_lt_mul (by decide)]
      calc idx < 4 * DIM * DIM := h
        _ = DIM * DIM * 4 := by ring
    refine ⟨(idx / 4 % DIM, idx / 4 / DIM), (hcells _).2 ⟨Nat.mod_lt _ hD, ?_⟩, ?_⟩
    · rw [Nat.div_lt_iff_lt_mul hD]
      exact hoff
    · exact (Nat.mod_add_div' (idx / 4) DIM).symm
  · rw [if_neg h, if_neg]
    rintro ⟨c, hc, he⟩
    have hc2 := (hcells c).1 hc
    have := offset_lt c.1 c.2 hc2.1 hc2.2
    have h4 : 4 * DIM * DIM = 4 * (DIM * DIM) := by ring
    omega

/-! ## Coverage of the grid by the manual strategies -/

/-- What the log of a team that splits the grid looks like: its visits are in
the grid, by threads of the team; every cell of the grid is visited exactly
once, by its owner. -/
theorem SplitsGrid.log_spec {N : Nat} {cellsOf : Nat → List (Nat × Nat)}
    {owner : Nat × Nat → Nat} (P : SplitsGrid N cellsOf owner) :
    (∀ v ∈ teamPlan N cellsOf, v.1 < N ∧ v.2.1 < DIM ∧ v.2.2 < DIM) ∧
    ∀ x y, x < DIM → y < DIM →
      ((teamPlan N cellsOf).map Prod.snd).count (x, y) = 1 ∧
      ∀ t, (t, x, y) ∈ teamPlan N cellsOf ↔ t = owner (x, y) := by
  constructor
  · intro v hv
    have h := (P.mem_plan v).1 hv
    exact ⟨by rw [← h.2.2]; exact P.owner_lt v.2 h.1 h.2.1, h.1, h.2.1⟩
  · intro x y hx hy
    refine ⟨P.count_cells x y hx hy, fun t => ?_⟩
    rw [P.mem_plan]
    constructor
    · rintro ⟨_, _, h⟩
      exact h.symm
    · intro h
      exact ⟨hx, hy, h.symm⟩

/-- C1. Interleaved strategies, `N` threads with `1 ≤ N ≤ 2147482880`, the
counts for which the `int` index of the strided loop does not overflow
(`y + N ≤ INT_MAX` for every `y < DIM`): the run of `kernel_omp_1D_Row` ends
(the strided loops within `DIM` iterations), its threads visit only cells of
the grid, and every cell `(x, y)` of the grid is visited exactly once in the
whole run, by the thread `y mod N` and by no other; the same holds for
`kernel_omp_1D_Col` with the thread `x mod N`. -/
theorem interleaved_cover_exactly_once (N fuel : Nat) (hN : 1 ≤ N) (hmax : N ≤ 2147482880)
    (hfuel : DIM ≤ fuel) :
    (∀ y, y < DIM → y + N ≤ 2147483647) ∧
    (∃ log, visits_1D_Row N fuel = .done log ∧
      (∀ v ∈ log, v.1 < N ∧ v.2.1 < DIM ∧ v.2.2 < DIM) ∧
      ∀ x y, x < DIM → y < DIM →
        (log.map Prod.snd).count (x, y) = 1 ∧ ∀ t, (t, x, y) ∈ log ↔ t = y % N) ∧
    (∃ log, visits_1D_Col N fuel = .done log ∧
      (∀ v ∈ log, v.1 < N ∧ v.2.1 < DIM ∧ v.2.2 < DIM) ∧
      ∀ x y, x < DIM → y < DIM →
        (log.map Prod.snd).count (x, y) = 1 ∧ ∀ t, (t, x, y) ∈ log ↔ t = x % N) :=
  ⟨fun y hy => by have hD : DIM = 768 := rfl; omega,
    ⟨_, visits_1D_Row_eq N fuel hN hfuel, (splits_1D_Row N fuel hN hfuel).log_spec⟩,
    ⟨_, visits_1D_Col_eq N fuel hN hfuel, (splits_1D_Col N fuel hN hfuel).log_spec⟩⟩

/-- C1, at three threads: the cell `(5, 7)` is visited once, by thread
`7 mod 3 = 1` in the row strategy and by thread `5 mod 3 = 2` in the column
strategy. -/
theorem interleaved_cover_exactly_once_witness :
    (1 ≤ 3 ∧ 3 ≤ 2147482880 ∧ DIM ≤ 768) ∧
    (∃ log, visits_1D_Row 3 768 = .done log ∧
      (log.map Prod.snd).count (5, 7) = 1 ∧ (1, 5, 7) ∈ log) ∧
    (∃ log, visits_1D_Col 3 768 = .done log ∧
      (log.map Prod.snd).count (5, 7) = 1 ∧ (2, 5, 7) ∈ log) := by
  have h := interleaved_cover_exactly_once 3 768 (by decide) (by decide) (by decide)
  obtain ⟨_, ⟨l1, h1, _, h1c⟩, ⟨l2, h2, _, h2c⟩⟩ := h
  refine ⟨⟨by decide, by decide, by decide⟩, ⟨l1, h1, (h1c 5 7 (by decide) (by decide)).1, ?_⟩,
    ⟨l2, h2, (h2c 5 7 (by decide) (by decide)).1, ?_⟩⟩
  · exact ((h1c 5 7 (by decide) (by decide)).2 1).2 (by decide)
  · exact ((h2c 5 7 (by decide) (by decide)).2 2).2 (by decide)

theorem block_range_unique (N : Nat) (hN : 1 ≤ N) (v : Nat) (hv : v < DIM) :
    ∃! t, t < N ∧ start_row N t ≤ v ∧ v < end_row N t := by
  refine ⟨blockOwner N v, ⟨blockOwner_lt N v hN, ?_⟩, ?_⟩
  · exact (mem_block_range N _ v hN (blockOwner_lt N v hN)).2 ⟨hv, rfl⟩
  · rintro t ⟨ht, h⟩
    exact ((mem_block_range N t v hN ht).1 h).2.symm

/-- C2. Block strategies, `N ≥ 1` threads, `q = DIM / N`: thread `t` gets the
range that starts at `t * q` and ends at `start + q`, or at `DIM` for the last
thread; the ranges lie in `[0, DIM)` and every index below `DIM` is in the
range of exactly one thread. In the run of `kernel_omp_2D_Row_Block` the
threads visit only cells of the grid and every cell `(x, y)` is visited
exactly once, by the thread whose range holds `y`; the same holds for
`kernel_omp_2D_Col_Block` and the thread whose range holds `x`. -/
theorem block_cover_exactly_once (N : Nat) (hN : 1 ≤ N) :
    (∀ t, t < N →
      start_row N t = t * (DIM / N) ∧
      end_row N t = (if t = N - 1 then DIM else start_row N t + DIM / N) ∧
      start_row N t ≤ end_row N t ∧ end_row N t ≤ DIM) ∧
    (∀ v, v < DIM → ∃! t, t < N ∧ start_row N t ≤ v ∧ v < end_row N t) ∧
    (∃ log, visits_2D_Row_Block N = .done log ∧
      (∀ v ∈ log, v.1 < N ∧ v.2.1 < DIM ∧ v.2.2 < DIM) ∧
      ∀ x y, x < DIM → y < DIM →
        (log.map Prod.snd).count (x, y) = 1 ∧
        ∀ t, (t, x, y) ∈ log ↔ (t < N ∧ start_row N t ≤ y ∧ y < end_row N t)) ∧
    (∃ log, visits_2D_Col_Block N = .done log ∧
      (∀ v ∈ log, v.1 < N ∧ v.2.1 < DIM ∧ v.2.2 < DIM) ∧
      ∀ x y, x < DIM → y < DIM →
        (log.map Prod.snd).count (x, y) = 1 ∧
        ∀ t, (t, x, y) ∈ log ↔ (t < N ∧ start_row N t ≤ x ∧ x < end_row N t)) := by
  have hown : ∀ v, v < DIM → ∀ t,
      t = blockOwner N v ↔ (t < N ∧ start_row N t ≤ v ∧ v < end_row N t) := by
    intro v hv t
    constructor
    · intro h
      have ht : t < N := by rw [h]; exact blockOwner_lt N v hN
      exact ⟨ht, (mem_block_range N t v hN ht).2 ⟨hv, h.symm⟩⟩
    · rintro ⟨ht, h⟩
      exact ((mem_block_range N t v hN ht).1 h).2.symm
  refine ⟨?_, fun v hv => block_range_unique N hN v hv, ?_, ?_⟩
  · intro t ht
    refine ⟨rfl, ?_, start_row_le_end_row N t ht⟩
    unfold end_row rows_per_thread
    by_cases h : t + 1 = N
    · rw [if_pos h, if_pos (by omega)]
    · rw [if_neg h, if_neg (by omega)]
  · obtain ⟨h1, h2⟩ := (splits_2D_Row_Block N hN).log_spec
    refine ⟨_, visits_2D_Row_Block_eq N hN, h1, fun x y hx hy => ⟨(h2 x y hx hy).1, fun t => ?_⟩⟩
    rw [(h2 x y hx hy).2 t]
    exact hown y hy t
  · obtain ⟨h1, h2⟩ := (splits_2D_Col_Block N hN).log_spec
    refine ⟨_, visits_2D_Col_Block_eq N hN, h1, fun x y hx hy => ⟨(h2 x y hx hy).1, fun t => ?_⟩⟩
    rw [(h2 x y hx hy).2 t]
    exact hown x hx t

/-- C2, at five threads (768 = 5 * 153 + 3): row 766 belongs to the last
thread, and to no other, and the cell `(0, 766)` is visited once. -/
theorem block_cover_exactly_once_witness :
    1 ≤ 5 ∧
    (∃! t, t < 5 ∧ start_row 5 t ≤ 766 ∧ 766 < end_row 5 t) ∧
    (∃ log, visits_2D_Row_Block 5 = .done log ∧
      (log.map Prod.snd).count (0, 766) = 1 ∧ (4, 0, 766) ∈ log) := by
  obtain ⟨_, hu, ⟨log, hlog, _, hc⟩, _⟩ := block_cover_exactly_once 5 (by decide)
  refine ⟨by decide, hu 766 (by decide), log, hlog, (hc 0 766 (by decide) (by decide)).1, ?_⟩
  exact ((hc 0 766 (by decide) (by decide)).2 4).2 (by decide)

/-- C5 as stated fails: with 100 threads the last thread gets 75 rows, which is
not below `2 * (768 / 100) = 14`. -/
theorem last_block_length_not_below_twice :
    ¬ (100 ∣ DIM) ∧ end_row 100 99 - start_row 100 99 = 75 ∧ 2 * (DIM / 100) = 14 ∧
    ¬ (end_row 100 99 - start_row 100 99 < 2 * (DIM / 100)) := by
  decide

/-- C5, amended. For `N ≥ 1` threads and `DIM` not divisible by `N`, the range
of the last thread of the block strategies has length
`DIM - (N - 1) * (DIM / N) = DIM / N + DIM % N`; this is above `DIM / N` and
below `DIM / N + N`, and it is below `2 * (DIM / N)` exactly when
`DIM % N < DIM / N`. -/
theorem last_block_length (N : Nat) (hN : 1 ≤ N) (hdiv : ¬ N ∣ DIM) :
    end_row N (N - 1) - start_row N (N - 1) = DIM - (N - 1) * (DIM / N) ∧
    end_row N (N - 1) - start_row N (N - 1) = DIM / N + DIM % N ∧
    DIM / N ≤ end_row N (N - 1) - start_row N (N - 1) ∧
    DIM / N < end_row N (N - 1) - start_row N (N - 1) ∧
    end_row N (N - 1) - start_row N (N - 1) < DIM / N + N ∧
    (end_row N (N - 1) - start_row N (N - 1) < 2 * (DIM / N) ↔ DIM % N < DIM / N) := by
  have hend : end_row N (N - 1) = DIM := by
    unfold end_row
    rw [if_pos (by omega)]
  have hstart : start_row N (N - 1) = (N - 1) * (DIM / N) := rfl
  have hmod : 0 < DIM % N := by
    rcases Nat.eq_zero_or_pos (DIM % N) with h | h
    · exact absurd (Nat.dvd_of_mod_eq_zero h) hdiv
    · exact h
  have hlt : DIM % N < N := Nat.mod_lt _ (by omega)
  have hsplit : DIM = (N - 1) * (DIM / N) + (DIM / N + DIM % N) := by
    have h1 := Nat.div_add_mod DIM N
    have h2 : N * (DIM / N) = (N - 1) * (DIM / N) + DIM / N := by
      have h3 := Nat.succ_mul (N - 1) (DIM / N)
      rwa [Nat.succ_eq_add_one, Nat.sub_add_cancel hN] at h3
    omega
  rw [hend, hstart]
  generalize (N - 1) * (DIM / N) = p at hsplit ⊢
  generalize DIM / N = q at hsplit ⊢
  generalize DIM % N = r at hsplit hmod hlt ⊢
  generalize DIM = D at hsplit ⊢
  omega

/-- C5 amended, at 100 threads: the last thread gets `7 + 68 = 75` rows. -/
theorem last_block_length_witness :
    (1 ≤ 100 ∧ ¬ (100 ∣ DIM)) ∧
    end_row 100 (100 - 1) - start_row 100 (100 - 1) = DIM / 100 + DIM % 100 ∧
    end_row 100 (100 - 1) - start_row 100 (100 - 1) < DIM / 100 + 100 :=
  ⟨⟨by decide, by decide⟩, (last_block_length 100 (by decide) (by decide)).2.1,
    (last_block_length 100 (by decide) (by decide)).2.2.2.2.1⟩

/-! ## Every strategy writes the picture -/

theorem kernel_eq_refRender (A : Arith) {N : Nat} {cellsOf : Nat → List (Nat × Nat)}
    {owner : Nat × Nat → Nat} (hN : 1 ≤ N) (P : SplitsGrid N cellsOf owner)
    (region : (Nat → Nat → Buffer → Buffer) → Nat → Buffer → Outcome Buffer)
    (h : ∀ cell t s, region cell t s = .done (runCells cell (cellsOf t) s)) (buf : Buffer) :
    parallel N (fun t => region (pixel A) t) buf = .done (refRender A buf) := by
  rw [parallel_eq_runPlan (fun _ => pixel A) cellsOf (fun t => region (pixel A) t) N hN
    (fun t s => h (pixel A) t s), runPlan_untagged, runCells_pixel_grid A _ P.mem_cells]

theorem kernel_omp_1D_Row_eq (A : Arith) (N fuel : Nat) (buf : Buffer) (hN : 1 ≤ N)
    (hfuel : DIM ≤ fuel) : kernel_omp_1D_Row A N fuel buf = .done (refRender A buf) :=
  kernel_eq_refRender A hN (splits_1D_Row N fuel hN hfuel)
    (fun cell t s => region_1D_Row cell N t fuel s)
    (fun cell t s => region_1D_Row_eq cell N t fuel s hN hfuel) buf

theorem kernel_omp_1D_Col_eq (A : Arith) (N fuel : Nat) (buf : Buffer) (hN : 1 ≤ N)
    (hfuel : DIM ≤ fuel) : kernel_omp_1D_Col A N fuel buf = .done (refRender A buf) :=
  kernel_eq_refRender A hN (splits_1D_Col N fuel hN hfuel)
    (fun cell t s => region_1D_Col cell N t fuel s)
    (fun cell t s => region_1D_Col_eq cell N t fuel s hN hfuel) buf

theorem kernel_omp_2D_Row_Block_eq (A : Arith) (N : Nat) (buf : Buffer) (hN : 1 ≤ N) :
    kernel_omp_2D_Row_Block A N buf = .done (refRender A buf) :=
  kernel_eq_refRender A hN (splits_2D_Row_Block N hN)
    (fun cell t s => region_2D_Row_Block cell N t s)
    (fun cell t s => region_2D_Row_Block_eq cell N t s hN) buf

theorem kernel_omp_2D_Col_Block_eq (A : Arith) (N : Nat) (buf : Buffer) (hN : 1 ≤ N) :
    kernel_omp_2D_Col_Block A N buf = .done (refRender A buf) :=
  kernel_eq_refRender A hN (splits_2D_Col_Block N hN)
    (fun cell t s => region_2D_Col_Block cell N t s)
    (fun cell t s => region_2D_Col_Block_eq cell N t s hN) buf

theorem region_For_eq {σ : Type} (cell : Nat → Nat → σ → σ) (sched : List Nat) (s : σ) :
    region_For cell sched s = runCells cell (rowMajor sched (List.range' 0 (DIM - 0))) s := by
  unfold region_For
  simp only [forRange]
  rw [foldl_rowMajor]

theorem region_serial_eq {σ : Type} (cell : Nat → Nat → σ → σ) (s : σ) :
    region_serial cell s = region_For cell (List.range DIM) s := by
  unfold region_serial region_For forRange
  rw [List.range_eq_range', Nat.sub_zero]

theorem mem_cells_For (sched : List Nat) (hs : sched.Perm (List.range DIM)) (c : Nat × Nat) :
    c ∈ rowMajor sched (List.range' 0 (DIM - 0)) ↔ c.1 < DIM ∧ c.2 < DIM := by
  rw [mem_rowMajor, hs.mem_iff, List.mem_range, List.mem_range'_1]
  constructor
  · rintro ⟨h1, _, h2⟩
    exact ⟨by omega, h1⟩
  · rintro ⟨h1, h2⟩
    exact ⟨h2, by omega, by omega⟩

theorem runCells_logCell (cells log : List (Nat × Nat)) :
    runCells logCell cells log = log ++ cells := by
  induction cells generalizing log with
  | nil => simp [runCells]
  | cons c cells ih =>
    rw [runCells_cons, ih]
    simp [logCell]

theorem visits_For_eq (sched : List Nat) :
    visits_For sched = rowMajor sched (List.range' 0 (DIM - 0)) := by
  unfold visits_For
  rw [region_For_eq, runCells_logCell]
  rfl

theorem visits_serial_eq : visits_serial = visits_For (List.range DIM) := by
  unfold visits_serial visits_For
  rw [region_serial_eq]

theorem kernel_omp_For_eq (A : Arith) (sched : List Nat) (buf : Buffer)
    (hs : sched.Perm (List.range DIM)) : kernel_omp_For A sched buf = refRender A buf := by
  unfold kernel_omp_For
  rw [region_For_eq]
  apply runCells_pixel_grid
  intro c
  exact mem_cells_For sched hs c

theorem kernel_serial_eq (A : Arith) (buf : Buffer) : kernel_serial A buf = refRender A buf := by
  have h := kernel_omp_For_eq A (List.range DIM) buf (List.Perm.refl _)
  rw [← h]
  unfold kernel_serial kernel_omp_For
  rw [region_serial_eq]

theorem refRender_cell (A : Arith) (buf : Buffer) (x y : Nat) (hx : x < DIM) (hy : y < DIM) :
    refCellBytes A x y (refRender A buf) := by
  have hoff := offset_lt x y hx hy
  have h4 : 4 * DIM * DIM = 4 * (DIM * DIM) := by ring
  obtain ⟨hdx, hdy⟩ := offset_decode x y hx
  have hb : ∀ k, k < 4 → refRender A buf (4 * (x + y * DIM) + k) =
      refImage A (4 * (x + y * DIM) + k) := by
    intro k hk
    unfold refRender
    rw [if_pos (by omega)]
  have hq : ∀ k, k < 4 → (4 * (x + y * DIM) + k) / 4 = x + y * DIM := by
    intro k hk; omega
  have hr : ∀ k, k < 4 → (4 * (x + y * DIM) + k) % 4 = k := by
    intro k hk; omega
  have h0 : refRender A buf (4 * (x + y * DIM) + 0) = (255 * julia A x y).toNat := by
    rw [hb 0 (by decide)]
    simp only [refImage, hq 0 (by decide), hr 0 (by decide), hdx, hdy]
  have h1 : refRender A buf (4 * (x + y * DIM) + 1) = 0 := by
    rw [hb 1 (by decide)]
    simp only [refImage, hr 1 (by decide)]
  have h2 : refRender A buf (4 * (x + y * DIM) + 2) = 0 := by
    rw [hb 2 (by decide)]
    simp only [refImage, hr 2 (by decide)]
  have h3 : refRender A buf (4 * (x + y * DIM) + 3) = 255 := by
    rw [hb 3 (by decide)]
    simp only [refImage, hr 3 (by decide)]
  refine ⟨?_, h1, h2, h3, ?_, ?_⟩
  · rw [h0]
    rcases julia_binary A x y with h | h <;> rw [h] <;> decide
  · intro h
    rw [h0, h]
    decide
  · intro h
    rw [h0, h]
    decide

theorem refRender_sameBitmap (A : Arith) (b1 b2 : Buffer) :
    sameBitmap (refRender A b1) (refRender A b2) := by
  intro idx hidx
  unfold refRender
  rw [if_pos hidx, if_pos hidx]

theorem refRender_beyond (A : Arith) (b : Buffer) (idx : Nat) (h : 4 * DIM * DIM ≤ idx) :
    refRender A b idx = b idx := by
  unfold refRender
  rw [if_neg (by omega)]

/-- C3. For `N ≥ 1` threads, any initial buffer and any cell `(x, y)` of the
grid, each of the four manual strategies (threads run one after another) ends
and leaves `(255 * julia(x, y), 0, 0, 255)` in the four bytes of the cell, the
interleaved ones for `N ≤ 2147482880`, the counts for which the `int` index of
their strided loop does not overflow; so does `kernel_omp_For`, in whatever
order `sched` its rows are run. -/
theorem strategies_write_kernel_value (A : Arith) (N fuel : Nat) (sched : List Nat)
    (buf : Buffer) (x y : Nat) (hN : 1 ≤ N) (hfuel : DIM ≤ fuel)
    (hs : sched.Perm (List.range DIM)) (hx : x < DIM) (hy : y < DIM) :
    (N ≤ 2147482880 →
      ∃ out, kernel_omp_1D_Row A N fuel buf = .done out ∧ refCellBytes A x y out) ∧
    (N ≤ 2147482880 →
      ∃ out, kernel_omp_1D_Col A N fuel buf = .done out ∧ refCellBytes A x y out) ∧
    (∃ out, kernel_omp_2D_Row_Block A N buf = .done out ∧ refCellBytes A x y out) ∧
    (∃ out, kernel_omp_2D_Col_Block A N buf = .done out ∧ refCellBytes A x y out) ∧
    refCellBytes A x y (kernel_omp_For A sched buf) := by
  refine ⟨fun _ => ⟨_, kernel_omp_1D_Row_eq A N fuel buf hN hfuel,
      refRender_cell A buf x y hx hy⟩,
    fun _ => ⟨_, kernel_omp_1D_Col_eq A N fuel buf hN hfuel, refRender_cell A buf x y hx hy⟩,
    ⟨_, kernel_omp_2D_Row_Block_eq A N buf hN, refRender_cell A buf x y hx hy⟩,
    ⟨_, kernel_omp_2D_Col_Block_eq A N buf hN, refRender_cell A buf x y hx hy⟩, ?_⟩
  rw [kernel_omp_For_eq A sched buf hs]
  exact refRender_cell A buf x y hx hy

/-- C3, at seven threads, a zeroed buffer, the rows in their natural order and
the cell `(384, 384)`: its last byte is 255 after each strategy. -/
theorem strategies_write_kernel_value_witness :
    (1 ≤ 7 ∧ 7 ≤ 2147482880 ∧ DIM ≤ 768 ∧ (List.range DIM).Perm (List.range DIM) ∧
      384 < DIM) ∧
    (∃ out, kernel_omp_1D_Row exactArith 7 768 (fun _ => 0) = .done out ∧
      out (4 * (384 + 384 * DIM) + 3) = 255) ∧
    (∃ out, kernel_omp_2D_Col_Block exactArith 7 (fun _ => 0) = .done out ∧
      out (4 * (384 + 384 * DIM) + 3) = 255) ∧
    kernel_omp_For exactArith (List.range DIM) (fun _ => 0) (4 * (384 + 384 * DIM) + 3) = 255 := by
  obtain ⟨hrow, _, _, ⟨o4, h4, c4⟩, c5⟩ :=
    strategies_write_kernel_value exactArith 7 768 (List.range DIM) (fun _ => 0) 384 384
      (by decide) (by decide) (List.Perm.refl _) (by decide) (by decide)
  obtain ⟨o1, h1, c1⟩ := hrow (by decide)
  exact ⟨⟨by decide, by decide, by decide, List.Perm.refl _, by decide⟩,
    ⟨o1, h1, c1.2.2.2.1⟩,
    ⟨o4, h4, c4.2.2.2.1⟩, c5.2.2.2.1⟩

/-- C4. For `N ≥ 1` threads and any two initial buffers `b1`, `b2`, each of
the four manual strategies started from `b1` ends with the same bitmap as
`kernel_serial` started from `b2`, the interleaved ones for `N ≤ 2147482880`,
the counts for which the `int` index of their strided loop does not overflow;
so does `kernel_omp_For` in whatever order its rows are run; the bytes beyond
the bitmap are left as they were. -/
theorem strategies_eq_serial (A : Arith) (N fuel : Nat) (sched : List Nat) (b1 b2 : Buffer)
    (hN : 1 ≤ N) (hfuel : DIM ≤ fuel) (hs : sched.Perm (List.range DIM)) :
    (N ≤ 2147482880 → ∃ out, kernel_omp_1D_Row A N fuel b1 = .done out ∧
      sameBitmap out (kernel_serial A b2) ∧ ∀ idx, 4 * DIM * DIM ≤ idx → out idx = b1 idx) ∧
    (N ≤ 2147482880 → ∃ out, kernel_omp_1D_Col A N fuel b1 = .done out ∧
      sameBitmap out (kernel_serial A b2) ∧ ∀ idx, 4 * DIM * DIM ≤ idx → out idx = b1 idx) ∧
    (∃ out, kernel_omp_2D_Row_Block A N b1 = .done out ∧
      sameBitmap out (kernel_serial A b2) ∧ ∀ idx, 4 * DIM * DIM ≤ idx → out idx = b1 idx) ∧
    (∃ out, kernel_omp_2D_Col_Block A N b1 = .done out ∧
      sameBitmap out (kernel_serial A b2) ∧ ∀ idx, 4 * DIM * DIM ≤ idx → out idx = b1 idx) ∧
    (sameBitmap (kernel_omp_For A sched b1) (kernel_serial A b2) ∧
      ∀ idx, 4 * DIM * DIM ≤ idx → kernel_omp_For A sched b1 idx = b1 idx) := by
  have hser := kernel_serial_eq A b2
  refine ⟨fun _ => ⟨_, kernel_omp_1D_Row_eq A N fuel b1 hN hfuel, ?_, refRender_beyond A b1⟩,
    fun _ => ⟨_, kernel_omp_1D_Col_eq A N fuel b1 hN hfuel, ?_, refRender_beyond A b1⟩,
    ⟨_, kernel_omp_2D_Row_Block_eq A N b1 hN, ?_, refRender_beyond A b1⟩,
    ⟨_, kernel_omp_2D_Col_Block_eq A N b1 hN, ?_, refRender_beyond A b1⟩, ?_, ?_⟩
  · rw [hser]; exact refRender_sameBitmap A b1 b2
  · rw [hser]; exact refRender_sameBitmap A b1 b2
  · rw [hser]; exact refRender_sameBitmap A b1 b2
  · rw [hser]; exact refRender_sameBitmap A b1 b2
  · rw [hser, kernel_omp_For_eq A sched b1 hs]; exact refRender_sameBitmap A b1 b2
  · rw [kernel_omp_For_eq A sched b1 hs]; exact refRender_beyond A b1

/-- C4, at three threads, from a zeroed buffer against the baseline run from a
buffer of ones. -/
theorem strategies_eq_serial_witness :
    (1 ≤ 3 ∧ 3 ≤ 2147482880 ∧ DIM ≤ 768 ∧ (List.range DIM).Perm (List.range DIM)) ∧
    (∃ out, kernel_omp_1D_Col exactArith 3 768 (fun _ => 0) = .done out ∧
      sameBitmap out (kernel_serial exactArith (fun _ => 1))) ∧
    (∃ out, kernel_omp_2D_Row_Block exactArith 3 (fun _ => 0) = .done out ∧
      sameBitmap out (kernel_serial exactArith (fun _ => 1))) := by
  obtain ⟨_, hcol, ⟨o3, h3, c3, _⟩, _, _⟩ :=
    strategies_eq_serial exactArith 3 768 (List.range DIM) (fun _ => 0) (fun _ => 1)
      (by decide) (by decide) (List.Perm.refl _)
  obtain ⟨o2, h2, c2, _⟩ := hcol (by decide)
  exact ⟨⟨by decide, by decide, by decide, List.Perm.refl _⟩, ⟨o2, h2, c2⟩, ⟨o3, h3, c3⟩⟩

/-! ## One thread -/

theorem strideList_one (bound fuel i : Nat) (hfuel : bound ≤ i + fuel) :
    strideList bound 1 fuel i = List.range' i (bound - i) := by
  induction fuel generalizing i with
  | zero =>
    have : bound - i = 0 := by omega
    simp [strideList, this]
  | succ fuel ih =>
    by_cases hi : i < bound
    · have : bound - i = (bound - (i + 1)) + 1 := by omega
      simp only [strideList, hi, if_true]
      rw [ih (i + 1) (by omega), this, List.range'_succ]
    · have : bound - i = 0 := by omega
      simp [strideList, hi, this]

theorem teamPlan_one (cellsOf : Nat → List (Nat × Nat)) :
    teamPlan 1 cellsOf = (cellsOf 0).map (fun c => (0, c)) := by
  have h := teamPlan_succ 0 cellsOf
  simpa [teamPlan] using h

theorem block_range_one : start_row 1 0 = 0 ∧ end_row 1 0 = DIM := by
  decide

/-- C8. With one thread, thread 0 of `kernel_omp_1D_Row` goes through the
rows `0, 1, .., DIM-1` in order and through `x = 0, .., DIM-1` in each, thread
0 of `kernel_omp_1D_Col` through the columns `0, 1, .., DIM-1` and through
`y = 0, .., DIM-1` in each, and the block strategies compute the range
`[0, DIM)` and go through the grid row by row; every cell of the grid is in
these sequences, and the buffer each strategy leaves is the one `kernel_serial`
leaves. -/
theorem single_thread_owns_grid (A : Arith) (fuel : Nat) (buf : Buffer) (hfuel : DIM ≤ fuel) :
    visits_1D_Row 1 fuel =
      .done ((rowMajor (List.range DIM) (List.range DIM)).map (fun c => (0, c))) ∧
    visits_1D_Col 1 fuel =
      .done ((colMajor (List.range DIM) (List.range DIM)).map (fun c => (0, c))) ∧
    (start_row 1 0 = 0 ∧ end_row 1 0 = DIM) ∧
    visits_2D_Row_Block 1 =
      .done ((rowMajor (List.range DIM) (List.range DIM)).map (fun c => (0, c))) ∧
    visits_2D_Col_Block 1 =
      .done ((rowMajor (List.range DIM) (List.range DIM)).map (fun c => (0, c))) ∧
    (∀ x y, x < DIM → y < DIM →
      (x, y) ∈ rowMajor (List.range DIM) (List.range DIM) ∧
      (x, y) ∈ colMajor (List.range DIM) (List.range DIM)) ∧
    kernel_omp_1D_Row A 1 fuel buf = .done (kernel_serial A buf) ∧
    kernel_omp_1D_Col A 1 fuel buf = .done (kernel_serial A buf) ∧
    kernel_omp_2D_Row_Block A 1 buf = .done (kernel_serial A buf) ∧
    kernel_omp_2D_Col_Block A 1 buf = .done (kernel_serial A buf) := by
  have hstride : strideList DIM 1 fuel 0 = List.range DIM := by
    rw [strideList_one DIM fuel 0 (by omega), List.range_eq_range', Nat.sub_zero]
  have hfull : List.range' 0 (DIM - 0) = List.range DIM := by
    rw [List.range_eq_range', Nat.sub_zero]
  have hblock : List.range' (start_row 1 0) (end_row 1 0 - start_row 1 0) = List.range DIM := by
    rw [block_range_one.1, block_range_one.2, List.range_eq_range', Nat.sub_zero]
  have hser := kernel_serial_eq A buf
  refine ⟨?_, ?_, block_range_one, ?_, ?_, ?_, ?_, ?_, ?_, ?_⟩
  · rw [visits_1D_Row_eq 1 fuel (le_refl _) hfuel, teamPlan_one]
    unfold cells_1D_Row
    rw [hstride, hfull]
  · rw [visits_1D_Col_eq 1 fuel (le_refl _) hfuel, teamPlan_one]
    unfold cells_1D_Col
    rw [hstride, hfull]
  · rw [visits_2D_Row_Block_eq 1 (le_refl _), teamPlan_one]
    unfold cells_2D_Row_Block
    rw [hblock, hfull]
  · rw [visits_2D_Col_Block_eq 1 (le_refl _), teamPlan_one]
    unfold cells_2D_Col_Block
    rw [hblock, hfull]
  · intro x y hx hy
    rw [mem_rowMajor, mem_colMajor]
    simp only [List.mem_range]
    exact ⟨⟨hy, hx⟩, ⟨hx, hy⟩⟩
  · rw [hser]; exact kernel_omp_1D_Row_eq A 1 fuel buf (le_refl _) hfuel
  · rw [hser]; exact kernel_omp_1D_Col_eq A 1 fuel buf (le_refl _) hfuel
  · rw [hser]; exact kernel_omp_2D_Row_Block_eq A 1 buf (le_refl _)
  · rw [hser]; exact kernel_omp_2D_Col_Block_eq A 1 buf (le_refl _)

/-- C8, with 768 iterations allowed to the strided loops and a zeroed buffer. -/
theorem single_thread_owns_grid_witness :
    DIM ≤ 768 ∧
    kernel_omp_1D_Row exactArith 1 768 (fun _ => 0) =
      .done (kernel_serial exactArith (fun _ => 0)) ∧
    kernel_omp_2D_Col_Block exactArith 1 (fun _ => 0) =
      .done (kernel_serial exactArith (fun _ => 0)) := by
  have h := single_thread_owns_grid exactArith 768 (fun _ => 0) (by decide)
  exact ⟨by decide, h.2.2.2.2.2.2.1, h.2.2.2.2.2.2.2.2.2⟩

/-! ## Bounds and disjointness of the writes -/

theorem offset_injective (x y x1 y1 : Nat) (hx : x < DIM) (hx1 : x1 < DIM)
    (h : x + y * DIM = x1 + y1 * DIM) : x = x1 ∧ y = y1 := by
  obtain ⟨a1, a2⟩ := offset_decode x y hx
  obtain ⟨b1, b2⟩ := offset_decode x1 y1 hx1
  rw [h] at a1 a2
  exact ⟨a1.symm.trans b1, a2.symm.trans b2⟩

theorem mem_pixelWrites (x y i : Nat) :
    i ∈ pixelWrites x y ↔ ∃ k, k < 4 ∧ i = (x + y * DIM) * 4 + k := by
  simp only [pixelWrites, List.mem_cons, List.mem_singleton, List.not_mem_nil, or_false]
  constructor
  · rintro (h | h | h | h)
    · exact ⟨0, by decide, h⟩
    · exact ⟨1, by decide, h⟩
    · exact ⟨2, by decide, h⟩
    · exact ⟨3, by decide, h⟩
  · rintro ⟨k, hk, h⟩
    have : k = 0 ∨ k = 1 ∨ k = 2 ∨ k = 3 := by omega
    rcases this with rfl | rfl | rfl | rfl
    · exact Or.inl h
    · exact Or.inr (Or.inl h)
    · exact Or.inr (Or.inr (Or.inl h))
    · exact Or.inr (Or.inr (Or.inr h))

theorem pixelWrites_bounds (x y : Nat) (hx : x < DIM) (hy : y < DIM) (i : Nat)
    (hi : i ∈ pixelWrites x y) : i < 4 * DIM * DIM ∧ i < 2 ^ 31 := by
  obtain ⟨k, hk, rfl⟩ := (mem_pixelWrites x y i).1 hi
  have hoff := offset_lt x y hx hy
  have h4 : 4 * DIM * DIM = 4 * (DIM * DIM) := by ring
  have hsq : DIM * DIM = 589824 := by decide
  constructor
  · omega
  · have : (2 : Nat) ^ 31 = 2147483648 := by norm_num
    omega

theorem pixel_frame (A : Arith) (x y : Nat) (b : Buffer) (i : Nat)
    (hi : i ∉ pixelWrites x y) : pixel A x y b i = b i := by
  simp only [pixelWrites, List.mem_cons, List.mem_singleton, List.not_mem_nil, or_false,
    not_or] at hi
  simp only [pixel, Function.update_apply]
  rw [if_neg hi.2.2.2, if_neg hi.2.2.1, if_neg hi.2.1, if_neg hi.1]

theorem SplitsGrid.writes {N : Nat} {cellsOf : Nat → List (Nat × Nat)}
    {owner : Nat × Nat → Nat} (P : SplitsGrid N cellsOf owner) :
    writesInBounds (teamPlan N cellsOf) ∧ writesDisjoint (teamPlan N cellsOf) := by
  constructor
  · intro v hv i hi
    have h := (P.mem_plan v).1 hv
    exact pixelWrites_bounds v.2.1 v.2.2 h.1 h.2.1 i hi
  · intro v hv w hw hne i hi j hj hij
    have h1 := (P.mem_plan v).1 hv
    have h2 := (P.mem_plan w).1 hw
    obtain ⟨k, hk, rfl⟩ := (mem_pixelWrites _ _ i).1 hi
    obtain ⟨k1, hk1, hj1⟩ := (mem_pixelWrites _ _ j).1 hj
    have hoff : v.2.1 + v.2.2 * DIM = w.2.1 + w.2.2 * DIM := by omega
    obtain ⟨e1, e2⟩ := offset_injective _ _ _ _ h1.1 h2.1 hoff
    have hc : v.2 = w.2 := Prod.ext e1 e2
    apply hne
    rw [← h1.2.2, ← h2.2.2, hc]

theorem visits_For_bounds (sched : List Nat) (hs : sched.Perm (List.range DIM))
    (c : Nat × Nat) (hc : c ∈ visits_For sched) (i : Nat) (hi : i ∈ pixelWrites c.1 c.2) :
    i < 4 * DIM * DIM ∧ i < 2 ^ 31 := by
  rw [visits_For_eq] at hc
  have h := (mem_cells_For sched hs c).1 hc
  exact pixelWrites_bounds c.1 c.2 h.1 h.2 i hi

/-- C10. The map `(x, y) ↦ x + y * DIM` is injective on the grid, with values
below `DIM * DIM`; the four byte indices the loop body writes for a cell of
the grid are below `4 * DIM * DIM` and below `2^31`, and the body changes no
other byte; and for `N ≥ 1` threads, in each of the four manual strategies, the
run ends, all bytes written are bytes of the bitmap, and the bytes written by
two different threads are different, in the interleaved strategies for
`N ≤ 2147482880`, the counts for which the `int` index of their strided loop
does not overflow. The bytes written by `kernel_omp_For` and by
`kernel_serial` are bytes of the bitmap too. -/
theorem writes_in_bounds_and_disjoint (N fuel : Nat) (hN : 1 ≤ N) (hfuel : DIM ≤ fuel) :
    (∀ x y x1 y1, x < DIM → y < DIM → x1 < DIM → y1 < DIM →
      x + y * DIM = x1 + y1 * DIM → x = x1 ∧ y = y1) ∧
    (∀ x y, x < DIM → y < DIM → x + y * DIM < DIM * DIM) ∧
    (∀ x y, x < DIM → y < DIM → ∀ i ∈ pixelWrites x y, i < 4 * DIM * DIM ∧ i < 2 ^ 31) ∧
    (∀ (A : Arith) (x y : Nat) (b : Buffer) (i : Nat),
      i ∉ pixelWrites x y → pixel A x y b i = b i) ∧
    (N ≤ 2147482880 →
      ∃ log, visits_1D_Row N fuel = .done log ∧ writesInBounds log ∧ writesDisjoint log) ∧
    (N ≤ 2147482880 →
      ∃ log, visits_1D_Col N fuel = .done log ∧ writesInBounds log ∧ writesDisjoint log) ∧
    (∃ log, visits_2D_Row_Block N = .done log ∧ writesInBounds log ∧ writesDisjoint log) ∧
    (∃ log, visits_2D_Col_Block N = .done log ∧ writesInBounds log ∧ writesDisjoint log) ∧
    (∀ sched : List Nat, sched.Perm (List.range DIM) →
      ∀ c ∈ visits_For sched, ∀ i ∈ pixelWrites c.1 c.2, i < 4 * DIM * DIM ∧ i < 2 ^ 31) ∧
    (∀ c ∈ visits_serial, ∀ i ∈ pixelWrites c.1 c.2, i < 4 * DIM * DIM ∧ i < 2 ^ 31) :=
  ⟨fun x y x1 y1 hx _ hx1 _ h => offset_injective x y x1 y1 hx hx1 h,
    fun x y hx hy => offset_lt x y hx hy,
    fun x y hx hy i hi => pixelWrites_bounds x y hx hy i hi,
    fun A x y b i hi => pixel_frame A x y b i hi,
    fun _ => ⟨_, visits_1D_Row_eq N fuel hN hfuel, (splits_1D_Row N fuel hN hfuel).writes⟩,
    fun _ => ⟨_, visits_1D_Col_eq N fuel hN hfuel, (splits_1D_Col N fuel hN hfuel).writes⟩,
    ⟨_, visits_2D_Row_Block_eq N hN, (splits_2D_Row_Block N hN).writes⟩,
    ⟨_, visits_2D_Col_Block_eq N hN, (splits_2D_Col_Block N hN).writes⟩,
    fun sched hs c hc i hi => visits_For_bounds sched hs c hc i hi,
    fun c hc i hi =>
      visits_For_bounds (List.range DIM) (List.Perm.refl _) c (visits_serial_eq ▸ hc) i hi⟩

/-- C10, at four threads: the last byte written, for the cell `(767, 767)`, is
byte `2359295`, the last of the bitmap. -/
theorem writes_in_bounds_and_disjoint_witness :
    (1 ≤ 4 ∧ 4 ≤ 2147482880 ∧ DIM ≤ 768) ∧
    (∀ i ∈ pixelWrites 767 767, i < 4 * DIM * DIM ∧ i < 2 ^ 31) ∧
    (∃ log, visits_1D_Row 4 768 = .done log ∧ writesInBounds log ∧ writesDisjoint log) ∧
    (∃ log, visits_2D_Row_Block 4 = .done log ∧ writesInBounds log ∧ writesDisjoint log) := by
  have h := writes_in_bounds_and_disjoint 4 768 (by decide) (by decide)
  exact ⟨⟨by decide, by decide, by decide⟩, h.2.2.1 767 767 (by decide) (by decide),
    h.2.2.2.2.1 (by decide), h.2.2.2.2.2.2.1⟩

/-! ## The kernel in exact arithmetic -/

theorem exactVal_ofInt (n : Int) : exactVal (exactArith.ofInt n) = (n : ℚ) := rfl

theorem exactVal_lit (q : ℚ) : exactVal (exactArith.lit q) = q := rfl

theorem exactVal_add (a b : exactArith.F) :
    exactVal (exactArith.add a b) = exactVal a + exactVal b := rfl

theorem exactVal_sub (a b : exactArith.F) :
    exactVal (exactArith.sub a b) = exactVal a - exactVal b := rfl

theorem exactVal_mul (a b : exactArith.F) :
    exactVal (exactArith.mul a b) = exactVal a * exactVal b := rfl

theorem exactVal_div (a b : exactArith.F) :
    exactVal (exactArith.div a b) = exactVal a / exactVal b := rfl

theorem exactArith_gt (a b : exactArith.F) :
    exactArith.gt a b = decide (exactVal a > exactVal b) := rfl

theorem exactVal_injective (a b : exactArith.F) (h : exactVal a = exactVal b) : a = b := h

theorem wrapInt32_of_range (v : Int) (hlo : -2147483648 ≤ v) (hhi : v < 2147483648) :
    wrapInt32 v = v := by
  unfold wrapInt32
  omega

/-- The coordinate map in exact arithmetic, on the grid. -/
theorem juliaCoord_exact (coord : Int) (h0 : 0 ≤ coord) (hD : coord < DIM) :
    exactVal (juliaCoord exactArith coord) = 3 / 2 * ((384 - coord : Int) : ℚ) / 384 := by
  have hD1 : coord < 768 := hD
  have hhalf : ((DIM / 2 : Nat) : Int) = 384 := by decide
  unfold juliaCoord
  rw [hhalf, wrapInt32_of_range _ (by omega) (by omega)]
  simp only [exactVal_div, exactVal_mul, exactVal_lit, exactVal_ofInt]
  norm_num

/-- C13. In exact arithmetic, for integers `c`, `c1` of `[0, DIM)`: `julia`
maps `c` to `1.5 * (384 - c) / 384`, the subtraction made on integers and the
division on rationals (`383` is mapped to `1/256`, not to 0); the map is
strictly decreasing; its value is 0 exactly at `c = 384`, it is `1.5` at 0,
and it lies in `(-1.5, 1.5]`. The same map gives both coordinates of the
starting point, which is `(0, 0)` for the cell `(384, 384)`. -/
theorem coordinate_map_exact (c c1 : Int) (h0 : 0 ≤ c) (hD : c < DIM)
    (h1 : 0 ≤ c1) (hD1 : c1 < DIM) :
    exactVal (juliaCoord exactArith c) = 3 / 2 * ((384 - c : Int) : ℚ) / 384 ∧
    ((DIM / 2 : Nat) : Int) = 384 ∧
    exactVal (juliaCoord exactArith 383) = 1 / 256 ∧
    (c < c1 → exactVal (juliaCoord exactArith c1) < exactVal (juliaCoord exactArith c)) ∧
    (exactVal (juliaCoord exactArith c) = 0 ↔ c = 384) ∧
    exactVal (juliaCoord exactArith 0) = 3 / 2 ∧
    -(3 / 2) < exactVal (juliaCoord exactArith c) ∧
    exactVal (juliaCoord exactArith c) ≤ 3 / 2 ∧
    (juliaStart exactArith c c1).r = juliaCoord exactArith c ∧
    (juliaStart exactArith c c1).i = juliaCoord exactArith c1 ∧
    exactVal (juliaStart exactArith 384 384).r = 0 ∧
    exactVal (juliaStart exactArith 384 384).i = 0 := by
  have hc := juliaCoord_exact c h0 hD
  have hc1 := juliaCoord_exact c1 h1 hD1
  have hcD : c < 768 := hD
  have hcQ : (c : ℚ) < 768 := by exact_mod_cast hcD
  have h0Q : (0 : ℚ) ≤ c := by exact_mod_cast h0
  have h384 : exactVal (juliaCoord exactArith 384) = 0 := by
    rw [juliaCoord_exact 384 (by decide) (by decide)]
    norm_num
  refine ⟨hc, by decide, ?_, ?_, ?_, ?_, ?_, ?_, rfl, rfl, h384, h384⟩
  · rw [juliaCoord_exact 383 (by decide) (by decide)]
    norm_num
  · intro hlt
    have hltQ : (c : ℚ) < c1 := by exact_mod_cast hlt
    rw [hc, hc1]
    push_cast
    linarith
  · rw [hc]
    push_cast
    constructor
    · intro h
      have h2 : (c : ℚ) = 384 := by linarith
      exact_mod_cast h2
    · intro h
      rw [h]
      norm_num
  · rw [juliaCoord_exact 0 (by decide) (by decide)]
    norm_num
  · rw [hc]
    push_cast
    linarith
  · rw [hc]
    push_cast
    linarith

/-- C13, at the coordinates 0 and 767, the two ends of the grid. -/
theorem coordinate_map_exact_witness :
    ((0 : Int) ≤ 0 ∧ (0 : Int) < DIM ∧ (0 : Int) ≤ 767 ∧ (767 : Int) < DIM) ∧
    exactVal (juliaCoord exactArith 0) = 3 / 2 * ((384 - 0 : Int) : ℚ) / 384 ∧
    exactVal (juliaCoord exactArith 767) < exactVal (juliaCoord exactArith 0) ∧
    -(3 / 2) < exactVal (juliaCoord exactArith 0) := by
  have h := coordinate_map_exact 0 767 (by decide) (by decide) (by decide) (by decide)
  exact ⟨⟨by decide, by decide, by decide, by decide⟩, h.1, h.2.2.2.1 (by decide), h.2.2.2.2.2.2.1⟩

/-! ## The complex value type in exact arithmetic -/

/-- C14. In exact arithmetic, for all values `a` and `b` of `cuComplex`:
`operator*` returns `(r*r' - i*i', i*r' + r*i')`, `operator+` returns
`(r + r', i + i')` and `magnitude2` returns `r*r + i*i`; read as complex
numbers, these are the product, the sum and the squared norm; the product is
commutative and `magnitude2` of a product is the product of the `magnitude2`. -/
theorem cuComplex_is_complex_arithmetic (a b : cuComplex exactArith) :
    exactVal (a.mul b).r = exactVal a.r * exactVal b.r - exactVal a.i * exactVal b.i ∧
    exactVal (a.mul b).i = exactVal a.i * exactVal b.r + exactVal a.r * exactVal b.i ∧
    exactVal (a.add b).r = exactVal a.r + exactVal b.r ∧
    exactVal (a.add b).i = exactVal a.i + exactVal b.i ∧
    exactVal a.magnitude2 = exactVal a.r * exactVal a.r + exactVal a.i * exactVal a.i ∧
    refComplex (a.mul b) = refComplex a * refComplex b ∧
    refComplex (a.add b) = refComplex a + refComplex b ∧
    ((exactVal a.magnitude2 : ℚ) : ℝ) = Complex.normSq (refComplex a) ∧
    a.mul b = b.mul a ∧
    exactVal (a.mul b).magnitude2 = exactVal a.magnitude2 * exactVal b.magnitude2 := by
  refine ⟨rfl, rfl, rfl, rfl, rfl, ?_, ?_, ?_, ?_, ?_⟩
  · apply Complex.ext
    · simp only [refComplex, Complex.mul_re]
      show ((exactVal a.r * exactVal b.r - exactVal a.i * exactVal b.i : ℚ) : ℝ) = _
      push_cast
      ring
    · simp only [refComplex, Complex.mul_im]
      show ((exactVal a.i * exactVal b.r + exactVal a.r * exactVal b.i : ℚ) : ℝ) = _
      push_cast
      ring
  · apply Complex.ext
    · simp only [refComplex, Complex.add_re]
      show ((exactVal a.r + exactVal b.r : ℚ) : ℝ) = _
      push_cast
      ring
    · simp only [refComplex, Complex.add_im]
      show ((exactVal a.i + exactVal b.i : ℚ) : ℝ) = _
      push_cast
      ring
  · show ((exactVal a.r * exactVal a.r + exactVal a.i * exactVal a.i : ℚ) : ℝ) = _
    simp only [refComplex, Complex.normSq_mk]
    push_cast
    ring
  · obtain ⟨ar, ai⟩ := a
    obtain ⟨br, bi⟩ := b
    show cuComplex.mk _ _ = cuComplex.mk _ _
    congr 1
    · apply exactVal_injective
      simp only [exactVal_sub, exactVal_mul]
      ring
    · apply exactVal_injective
      simp only [exactVal_add, exactVal_mul]
      ring
  · show (exactVal a.r * exactVal b.r - exactVal a.i * exactVal b.i) *
        (exactVal a.r * exactVal b.r - exactVal a.i * exactVal b.i) +
      (exactVal a.i * exactVal b.r + exactVal a.r * exactVal b.i) *
        (exactVal a.i * exactVal b.r + exactVal a.r * exactVal b.i) =
      (exactVal a.r * exactVal a.r + exactVal a.i * exactVal a.i) *
        (exactVal b.r * exactVal b.r + exactVal b.i * exactVal b.i)
    ring

/-! ## The corner pixel in exact arithmetic -/

theorem juliaStep_exact (a : cuComplex exactArith) :
    exactVal (juliaStep exactArith a).r =
      exactVal a.r * exactVal a.r - exactVal a.i * exactVal a.i + -7269 / 10000 ∧
    exactVal (juliaStep exactArith a).i =
      exactVal a.i * exactVal a.r + exactVal a.r * exactVal a.i + 1889 / 10000 :=
  ⟨rfl, rfl⟩

theorem refOrbit_succ_exact (a : cuComplex exactArith) (k : Nat) :
    exactVal (refOrbit exactArith a (k + 1)).r =
      exactVal (refOrbit exactArith a k).r * exactVal (refOrbit exactArith a k).r -
        exactVal (refOrbit exactArith a k).i * exactVal (refOrbit exactArith a k).i +
        -7269 / 10000 ∧
    exactVal (refOrbit exactArith a (k + 1)).i =
      exactVal (refOrbit exactArith a k).i * exactVal (refOrbit exactArith a k).r +
        exactVal (refOrbit exactArith a k).r * exactVal (refOrbit exactArith a k).i +
        1889 / 10000 :=
  ⟨rfl, rfl⟩

theorem magnitude2_exact (a : cuComplex exactArith) :
    exactVal a.magnitude2 = exactVal a.r * exactVal a.r + exactVal a.i * exactVal a.i := rfl

theorem escaped_exact (a : cuComplex exactArith) :
    escaped exactArith a = true ↔ exactVal a.magnitude2 > 1000 := by
  unfold escaped
  rw [exactArith_gt, decide_eq_true_iff, exactVal_ofInt]
  norm_num

/-- The first three iterates of the corner pixel `(0, 0)`, from the starting
point `(3/2, 3/2)`. -/
theorem corner_orbit :
    (exactVal (refOrbit exactArith (juliaStart exactArith 0 0) 0).r = 3 / 2 ∧
      exactVal (refOrbit exactArith (juliaStart exactArith 0 0) 0).i = 3 / 2) ∧
    (exactVal (refOrbit exactArith (juliaStart exactArith 0 0) 1).r = -7269 / 10000 ∧
      exactVal (refOrbit exactArith (juliaStart exactArith 0 0) 1).i = 46889 / 10000) ∧
    (exactVal (refOrbit exactArith (juliaStart exactArith 0 0) 2).r = -55460749 / 2500000 ∧
      exactVal (refOrbit exactArith (juliaStart exactArith 0 0) 2).i =
        -331391141 / 50000000) ∧
    (exactVal (refOrbit exactArith (juliaStart exactArith 0 0) 3).r =
        1118720533523118519 / 2500000000000000 ∧
      exactVal (refOrbit exactArith (juliaStart exactArith 0 0) 3).i =
        18391007141824609 / 62500000000000) := by
  have h0 : exactVal (refOrbit exactArith (juliaStart exactArith 0 0) 0).r = 3 / 2 ∧
      exactVal (refOrbit exactArith (juliaStart exactArith 0 0) 0).i = 3 / 2 := by
    have h := juliaCoord_exact 0 (by decide) (by decide)
    have h' : exactVal (juliaCoord exactArith 0) = 3 / 2 := by rw [h]; norm_num
    exact ⟨h', h'⟩
  have s1 := refOrbit_succ_exact (juliaStart exactArith 0 0) 0
  rw [h0.1, h0.2] at s1
  have h1 : exactVal (refOrbit exactArith (juliaStart exactArith 0 0) 1).r = -7269 / 10000 ∧
      exactVal (refOrbit exactArith (juliaStart exactArith 0 0) 1).i = 46889 / 10000 := by
    constructor
    · rw [s1.1]; norm_num
    · rw [s1.2]; norm_num
  have s2 := refOrbit_succ_exact (juliaStart exactArith 0 0) 1
  rw [h1.1, h1.2] at s2
  have h2 : exactVal (refOrbit exactArith (juliaStart exactArith 0 0) 2).r =
        -55460749 / 2500000 ∧
      exactVal (refOrbit exactArith (juliaStart exactArith 0 0) 2).i =
        -331391141 / 50000000 := by
    constructor
    · rw [s2.1]; norm_num
    · rw [s2.2]; norm_num
  have s3 := refOrbit_succ_exact (juliaStart exactArith 0 0) 2
  rw [h2.1, h2.2] at s3
  have h3 : exactVal (refOrbit exactArith (juliaStart exactArith 0 0) 3).r =
        1118720533523118519 / 2500000000000000 ∧
      exactVal (refOrbit exactArith (juliaStart exactArith 0 0) 3).i =
        18391007141824609 / 62500000000000 := by
    constructor
    · rw [s3.1]; norm_num
    · rw [s3.2]; norm_num
  exact ⟨h0, h1, h2, h3⟩

theorem corner_magnitudes :
    exactVal (refOrbit exactArith (juliaStart exactArith 0 0) 1).magnitude2 ≤ 1000 ∧
    exactVal (refOrbit exactArith (juliaStart exactArith 0 0) 2).magnitude2 ≤ 1000 ∧
    exactVal (refOrbit exactArith (juliaStart exactArith 0 0) 3).magnitude2 > 1000 := by
  obtain ⟨_, h1, h2, h3⟩ := corner_orbit
  refine ⟨?_, ?_, ?_⟩
  · rw [magnitude2_exact, h1.1, h1.2]; norm_num
  · rw [magnitude2_exact, h2.1, h2.2]; norm_num
  · rw [magnitude2_exact, h3.1, h3.2]; norm_num

theorem corner_run : juliaRun exactArith 0 0 = (0, 3) := by
  obtain ⟨m1, m2, m3⟩ := corner_magnitudes
  have e3 : escaped exactArith (refOrbit exactArith (juliaStart exactArith 0 0) 3) = true :=
    (escaped_exact _).2 m3
  have e12 : ∀ j, 1 ≤ j → j < 3 →
      escaped exactArith (refOrbit exactArith (juliaStart exactArith 0 0) j) = false := by
    intro j hj1 hj3
    have hj : j = 1 ∨ j = 2 := by omega
    rcases hj with rfl | rfl
    · by_contra h
      have := (escaped_exact _).1 (by simpa using h)
      linarith
    · by_contra h
      have := (escaped_exact _).1 (by simpa using h)
      linarith
  have h := juliaLoop_escape exactArith 300 0 (juliaStart exactArith 0 0) 3 (by decide)
    (by decide) e3 e12
  simpa [juliaRun] using h

/-- C17. In exact rational arithmetic the corner pixel `(0, 0)` starts at
`(3/2, 3/2)`; its first and second iterates have squared magnitude at most
1000 (they do not escape), its third iterate has squared magnitude above 1000;
`julia(0, 0)` returns 0 after three iterations of its loop (on the iteration of
index 2), and the cell at offset 0 is written as `(0, 0, 0, 255)` by
`kernel_serial`, whatever the buffer held. -/
theorem corner_pixel_fixture (buf : Buffer) :
    (exactVal (juliaStart exactArith 0 0).r = 3 / 2 ∧
      exactVal (juliaStart exactArith 0 0).i = 3 / 2) ∧
    exactVal (refOrbit exactArith (juliaStart exactArith 0 0) 1).magnitude2 ≤ 1000 ∧
    exactVal (refOrbit exactArith (juliaStart exactArith 0 0) 2).magnitude2 ≤ 1000 ∧
    exactVal (refOrbit exactArith (juliaStart exactArith 0 0) 3).magnitude2 > 1000 ∧
    ¬ refEscapesAt exactArith 0 0 1 ∧ ¬ refEscapesAt exactArith 0 0 2 ∧
    refEscapesAt exactArith 0 0 3 ∧
    julia exactArith 0 0 = 0 ∧
    juliaIterations exactArith 0 0 = 3 ∧
    kernel_serial exactArith buf 0 = 0 ∧ kernel_serial exactArith buf 1 = 0 ∧
    kernel_serial exactArith buf 2 = 0 ∧ kernel_serial exactArith buf 3 = 255 := by
  obtain ⟨m1, m2, m3⟩ := corner_magnitudes
  have hrun := corner_run
  have hj : julia exactArith 0 0 = 0 := by simp [julia, hrun]
  have hcell := refRender_cell exactArith buf 0 0 (by decide) (by decide)
  rw [← kernel_serial_eq] at hcell
  obtain ⟨_, b1, b2, b3, _, b0⟩ := hcell
  refine ⟨corner_orbit.1, m1, m2, m3, ?_, ?_, ?_, hj, by simp [juliaIterations, hrun],
    b0 hj, b1, b2, b3⟩
  · intro h
    have := (escaped_exact _).1 ((refEscapesAt_iff exactArith 0 0 1).1 h)
    linarith
  · intro h
    have := (escaped_exact _).1 ((refEscapesAt_iff exactArith 0 0 2).1 h)
    linarith
  · exact (refEscapesAt_iff exactArith 0 0 3).2 ((escaped_exact _).2 m3)

/-! ## Load of the threads -/

theorem foldl_log_index (l log : List Nat) :
    l.foldl (fun acc j => acc ++ [j]) log = log ++ l := by
  induction l generalizing log with
  | nil => simp
  | cons j l ih => simp [ih]

theorem outerIndices_1D_eq (N t fuel : Nat) (hN : 1 ≤ N) (hfuel : DIM ≤ fuel) :
    outerIndices_1D N t fuel = .done (strideList DIM N fuel t) := by
  unfold outerIndices_1D
  rw [forStride_eq_foldl DIM N _ hN fuel t [] (by omega), foldl_log_index]
  rfl

theorem length_strideList (bound step : Nat) (hstep : 1 ≤ step) (fuel i : Nat)
    (hfuel : bound ≤ i + fuel) :
    (strideList bound step fuel i).length = (bound - i + step - 1) / step := by
  induction fuel generalizing i with
  | zero =>
    have h0 : bound - i = 0 := by omega
    rw [h0, Nat.zero_add, Nat.div_eq_of_lt (by omega)]
    rfl
  | succ fuel ih =>
    by_cases hi : i < bound
    · simp only [strideList, hi, if_true, List.length_cons]
      rw [ih (i + step) (by omega)]
      by_cases hbig : i + step ≤ bound
      · have hsplit : bound - i + step - 1 = (bound - (i + step) + step - 1) + step := by
          omega
        rw [hsplit, Nat.add_div_right _ (by omega)]
      · have h0 : bound - (i + step) = 0 := by omega
        rw [h0, Nat.zero_add, Nat.div_eq_of_lt (by omega)]
        symm
        apply Nat.div_eq_of_lt_le
        · omega
        · omega
    · have h0 : bound - i = 0 := by omega
      simp only [strideList, hi, if_false, List.length_nil]
      rw [h0, Nat.zero_add, Nat.div_eq_of_lt (by omega)]

/-- The quotient `(m + n - 1) / n` is the ceiling of `m / n`. -/
theorem ceilDiv_spec (m n : Nat) (hn : 1 ≤ n) (hm : 1 ≤ m) :
    1 ≤ (m + n - 1) / n ∧ n * ((m + n - 1) / n - 1) < m ∧ m ≤ n * ((m + n - 1) / n) := by
  have h1 := Nat.div_add_mod (m + n - 1) n
  have h2 := Nat.mod_lt (m + n - 1) (show 0 < n by omega)
  have hpos : 1 ≤ (m + n - 1) / n := by
    rw [Nat.one_le_div_iff (by omega)]
    omega
  refine ⟨hpos, ?_, ?_⟩
  · have h3 : n * ((m + n - 1) / n - 1) + n = n * ((m + n - 1) / n) := by
      have h4 : (m + n - 1) / n = ((m + n - 1) / n - 1) + 1 := by omega
      conv_rhs => rw [h4, Nat.mul_add, Nat.mul_one]
    omega
  · omega

theorem ceilDiv_eq_ceil (m n : Nat) (hn : 1 ≤ n) :
    ⌈(m : ℚ) / (n : ℚ)⌉₊ = (m + n - 1) / n := by
  have hnQ : (0 : ℚ) < n := by exact_mod_cast hn
  rcases Nat.eq_zero_or_pos m with h0 | hm
  · subst h0
    rw [Nat.zero_add, Nat.div_eq_of_lt (by omega)]
    simp
  · obtain ⟨hpos, hlo, hhi⟩ := ceilDiv_spec m n hn hm
    rw [Nat.ceil_eq_iff (by omega)]
    constructor
    · rw [lt_div_iff₀ hnQ]
      have : (((m + n - 1) / n - 1 : ℕ) : ℚ) * n < m := by
        have h := hlo
        rw [Nat.mul_comm] at h
        exact_mod_cast h
      exact this
    · rw [div_le_iff₀ hnQ]
      have : (m : ℚ) ≤ ((m + n - 1) / n : ℕ) * n := by
        have h := hhi
        rw [Nat.mul_comm] at h
        exact_mod_cast h
      exact this

theorem ceilDiv_mono (m k n : Nat) (hn : 1 ≤ n) (h : m ≤ k) :
    (m + n - 1) / n ≤ (k + n - 1) / n :=
  Nat.div_le_div_right (by omega)

theorem ceilDiv_add (m n : Nat) (hn : 1 ≤ n) :
    (m + n + n - 1) / n = (m + n - 1) / n + 1 := by
  have : m + n + n - 1 = (m + n - 1) + n := by omega
  rw [this, Nat.add_div_right _ (by omega)]

/-- Two threads of a strided loop make numbers of iterations that differ by at
most one. -/
theorem strideCount_balanced (bound N t u : Nat) (hN : 1 ≤ N) (ht : t < N) (hu : u < N) :
    (bound - t + N - 1) / N ≤ (bound - u + N - 1) / N + 1 := by
  rw [← ceilDiv_add (bound - u) N hN]
  have h : bound - t + N - 1 ≤ bound - u + N + N - 1 := by omega
  exact Nat.div_le_div_right h

theorem length_rowMajor (ys xs : List Nat) :
    (rowMajor ys xs).length = ys.length * xs.length := by
  induction ys with
  | nil => simp [rowMajor]
  | cons y ys ih =>
    have : rowMajor (y :: ys) xs = xs.map (fun x => (x, y)) ++ rowMajor ys xs := by
      simp [rowMajor, List.flatMap_cons]
    rw [this, List.length_append, List.length_map, ih, List.length_cons, Nat.succ_mul]
    omega

theorem length_colMajor (xs ys : List Nat) :
    (colMajor xs ys).length = xs.length * ys.length := by
  induction xs with
  | nil => simp [colMajor]
  | cons x xs ih =>
    have : colMajor (x :: xs) ys = ys.map (fun y => (x, y)) ++ colMajor xs ys := by
      simp [colMajor, List.flatMap_cons]
    rw [this, List.length_append, List.length_map, ih, List.length_cons, Nat.succ_mul]
    omega

theorem runCells_logVisit (t : Nat) (cells : List (Nat × Nat)) (log : List Visit) :
    runCells (logVisit t) cells log = log ++ cells.map (fun c => (t, c)) := by
  induction cells generalizing log with
  | nil => simp [runCells]
  | cons c cells ih =>
    rw [runCells_cons, ih]
    simp [logVisit]

/-- C15. Interleaved strategies, `N` threads with `1 ≤ N ≤ 2147482880`, the
counts for which the `int` index of the strided loop does not overflow
(`y + N ≤ INT_MAX` for every `y < DIM`), threads `t` and `u` of the team.
The outer loop of thread `t` ends; the number of indices it takes (rows
in `kernel_omp_1D_Row`, columns in `kernel_omp_1D_Col`) is the ceiling of
`(DIM - t) / N` when `t < DIM` and 0 when `t ≥ DIM`; the thread visits these
rows (columns) in full, `DIM` cells each; and the numbers of rows of `t` and
`u` differ by at most 1. -/
theorem interleaved_load_balance (N fuel t u : Nat) (hN : 1 ≤ N) (hmax : N ≤ 2147482880)
    (hfuel : DIM ≤ fuel) (ht : t < N) (hu : u < N) :
    (∀ y, y < DIM → y + N ≤ 2147483647) ∧
    ∃ rows_t rows_u, outerIndices_1D N t fuel = .done rows_t ∧
      outerIndices_1D N u fuel = .done rows_u ∧
      (t < DIM → rows_t.length = ⌈((DIM - t : Nat) : ℚ) / (N : ℚ)⌉₊ ∧
        1 ≤ rows_t.length ∧ N * (rows_t.length - 1) < DIM - t ∧
        DIM - t ≤ N * rows_t.length) ∧
      (DIM ≤ t → rows_t.length = 0) ∧
      rows_t.length = (DIM - t + N - 1) / N ∧
      rows_t.length ≤ rows_u.length + 1 ∧ rows_u.length ≤ rows_t.length + 1 ∧
      region_1D_Row (logVisit t) N t fuel [] =
        .done ((rowMajor rows_t (List.range DIM)).map (fun c => (t, c))) ∧
      region_1D_Col (logVisit t) N t fuel [] =
        .done ((colMajor rows_t (List.range DIM)).map (fun c => (t, c))) ∧
      (rowMajor rows_t (List.range DIM)).length = rows_t.length * DIM ∧
      (colMajor rows_t (List.range DIM)).length = rows_t.length * DIM := by
  have hlen : ∀ v, (strideList DIM N fuel v).length = (DIM - v + N - 1) / N :=
    fun v => length_strideList DIM N hN fuel v (by omega)
  have hfull : List.range' 0 (DIM - 0) = List.range DIM := by
    rw [List.range_eq_range', Nat.sub_zero]
  refine ⟨fun y hy => by have hD : DIM = 768 := rfl; omega,
    strideList DIM N fuel t, strideList DIM N fuel u,
    outerIndices_1D_eq N t fuel hN hfuel, outerIndices_1D_eq N u fuel hN hfuel,
    ?_, ?_, hlen t, ?_, ?_, ?_, ?_, ?_, ?_⟩
  · intro htD
    rw [hlen t, ceilDiv_eq_ceil (DIM - t) N hN]
    exact ⟨rfl, ceilDiv_spec (DIM - t) N hN (by omega)⟩
  · intro htD
    have h0 : DIM - t = 0 := by omega
    rw [hlen t, h0, Nat.zero_add, Nat.div_eq_of_lt (by omega)]
  · rw [hlen t, hlen u]
    exact strideCount_balanced DIM N t u hN ht hu
  · rw [hlen t, hlen u]
    exact strideCount_balanced DIM N u t hN hu ht
  · rw [region_1D_Row_eq (logVisit t) N t fuel [] hN hfuel, runCells_logVisit]
    unfold cells_1D_Row
    rw [hfull, List.nil_append]
  · rw [region_1D_Col_eq (logVisit t) N t fuel [] hN hfuel, runCells_logVisit]
    unfold cells_1D_Col
    rw [hfull, List.nil_append]
  · rw [length_rowMajor, List.length_range]
  · rw [length_colMajor, List.length_range]

/-- C15, at five threads: thread 2 takes `⌈766 / 5⌉ = 154` rows, thread 4 takes
`⌈764 / 5⌉ = 153`. -/
theorem interleaved_load_balance_witness :
    (1 ≤ 5 ∧ 5 ≤ 2147482880 ∧ DIM ≤ 768 ∧ 2 < 5 ∧ 4 < 5) ∧
    ∃ rows_t rows_u, outerIndices_1D 5 2 768 = .done rows_t ∧
      outerIndices_1D 5 4 768 = .done rows_u ∧
      rows_t.length = 154 ∧ rows_t.length ≤ rows_u.length + 1 := by
  obtain ⟨_, rt, ru, h1, h2, _, _, h5, h6, _⟩ :=
    interleaved_load_balance 5 768 2 4 (by decide) (by decide) (by decide) (by decide)
      (by decide)
  exact ⟨⟨by decide, by decide, by decide, by decide, by decide⟩, rt, ru, h1, h2,
    by rw [h5]; decide, h6⟩

/-! ## Block strategies: the share of each thread -/

theorem forRange_empty {σ : Type} (lo : Nat) (body : Nat → σ → σ) (s : σ) :
    forRange lo lo body s = s := by
  simp [forRange]

theorem forRange_skip {σ : Type} (lo hi : Nat) (s : σ) :
    forRange lo hi (fun _ s1 => s1) s = s := by
  unfold forRange
  induction List.range' lo (hi - lo) generalizing s with
  | nil => rfl
  | cons j l ih => exact ih s

theorem block_lengths (N : Nat) (hN : 1 ≤ N) :
    (∀ t, t + 1 < N → end_row N t - start_row N t = DIM / N) ∧
    end_row N (N - 1) - start_row N (N - 1) = DIM / N + DIM % N := by
  constructor
  · intro t ht
    unfold end_row
    rw [if_neg (by omega), Nat.add_sub_cancel_left]
    rfl
  · have hend : end_row N (N - 1) = DIM := by
      unfold end_row
      rw [if_pos (by omega)]
    have hstart : start_row N (N - 1) = (N - 1) * (DIM / N) := rfl
    have h1 := Nat.div_add_mod DIM N
    have h2 : N * (DIM / N) = (N - 1) * (DIM / N) + DIM / N := by
      have h3 := Nat.succ_mul (N - 1) (DIM / N)
      rwa [Nat.succ_eq_add_one, Nat.sub_add_cancel hN] at h3
    rw [hend, hstart]
    generalize (N - 1) * (DIM / N) = p at h2 ⊢
    generalize N * (DIM / N) = w at h1 h2
    generalize DIM / N = q at h2 ⊢
    generalize DIM % N = r at h1 ⊢
    generalize DIM = D at h1 ⊢
    omega

/-- C16. Block strategies with `N ≥ 1` threads: a thread that is not the last
gets `DIM / N` rows (columns) and the last thread gets `DIM / N + DIM % N`.
With more threads than rows, `N > DIM`, `rows_per_thread` is 0: a thread
`t < N - 1` gets the empty range `[0, 0)` and its region leaves the state as
it is (it writes nothing), whatever the loop body; the last thread gets the
range `[0, DIM)` and its region is the loop nest of `kernel_serial` over the
whole grid. -/
theorem block_shares (N : Nat) (hN : 1 ≤ N) :
    (∀ t, t + 1 < N → end_row N t - start_row N t = DIM / N) ∧
    end_row N (N - 1) - start_row N (N - 1) = DIM / N + DIM % N ∧
    (DIM < N →
      rows_per_thread N = 0 ∧
      (∀ t, t + 1 < N → start_row N t = 0 ∧ end_row N t = 0 ∧
        ∀ (σ : Type) (cell : Nat → Nat → σ → σ) (s : σ),
          region_2D_Row_Block cell N t s = .done s ∧
          region_2D_Col_Block cell N t s = .done s) ∧
      start_row N (N - 1) = 0 ∧ end_row N (N - 1) = DIM ∧
      ∀ (σ : Type) (cell : Nat → Nat → σ → σ) (s : σ),
        region_2D_Row_Block cell N (N - 1) s = .done (region_serial cell s) ∧
        region_2D_Col_Block cell N (N - 1) s = .done (region_serial cell s)) := by
  refine ⟨(block_lengths N hN).1, (block_lengths N hN).2, fun hbig => ?_⟩
  have hq : rows_per_thread N = 0 := by
    unfold rows_per_thread
    exact Nat.div_eq_of_lt hbig
  have hstart : ∀ t, start_row N t = 0 := by
    intro t
    unfold start_row
    rw [hq, Nat.mul_zero]
  have hN0 : ¬ N = 0 := by omega
  refine ⟨hq, fun t ht => ?_, hstart _, ?_, fun σ cell s => ?_⟩
  · have hend : end_row N t = 0 := by
      unfold end_row
      rw [if_neg (by omega), hstart, hq]
    refine ⟨hstart t, hend, fun σ cell s => ⟨?_, ?_⟩⟩
    · unfold region_2D_Row_Block
      rw [if_neg hN0, hstart, hend, forRange_empty]
    · unfold region_2D_Col_Block
      rw [if_neg hN0, hstart, hend]
      simp only [forRange_empty]
      rw [forRange_skip]
  · unfold end_row
    rw [if_pos (by omega)]
  · have hend : end_row N (N - 1) = DIM := by
      unfold end_row
      rw [if_pos (by omega)]
    constructor
    · unfold region_2D_Row_Block
      rw [if_neg hN0, hstart, hend]
      rfl
    · unfold region_2D_Col_Block
      rw [if_neg hN0, hstart, hend]
      rfl

/-- C16, at 1000 threads: thread 3 gets `[0, 0)` and logs no visit, thread 999
gets `[0, 768)`. -/
theorem block_shares_witness :
    (1 ≤ 1000 ∧ DIM < 1000) ∧
    rows_per_thread 1000 = 0 ∧
    (start_row 1000 3 = 0 ∧ end_row 1000 3 = 0) ∧
    region_2D_Row_Block (logVisit 3) 1000 3 [] = .done [] ∧
    (start_row 1000 (1000 - 1) = 0 ∧ end_row 1000 (1000 - 1) = DIM) ∧
    end_row 1000 (1000 - 1) - start_row 1000 (1000 - 1) = DIM / 1000 + DIM % 1000 := by
  have h := block_shares 1000 (by decide)
  obtain ⟨h1, h2, h3⟩ := h
  obtain ⟨hq, ht, hs, he, _⟩ := h3 (by decide)
  obtain ⟨a, b, c⟩ := ht 3 (by decide)
  exact ⟨⟨by decide, by decide⟩, hq, ⟨a, b⟩, (c _ (logVisit 3) []).1, ⟨hs, he⟩, h2⟩

/-! ## Interleavings of the threads -/

theorem applyWrites_pixelEvents (A : Arith) (t x y : Nat) (b : Buffer) :
    applyWrites (pixelEvents A t x y) b = pixel A x y b := rfl

/-- The events of a cell of the grid: their thread, their cell, their value. -/
theorem pixelEvents_spec (A : Arith) (t x y : Nat) (hx : x < DIM) (e : WriteEv)
    (he : e ∈ pixelEvents A t x y) :
    e.1 = t ∧ e.2.1 / 4 = x + y * DIM ∧ e.2.2 = refImage A e.2.1 := by
  obtain ⟨hdx, hdy⟩ := offset_decode x y hx
  simp only [pixelEvents, List.mem_cons, List.mem_singleton, List.not_mem_nil, or_false] at he
  rcases he with rfl | rfl | rfl | rfl
  · refine ⟨rfl, by show ((x + y * DIM) * 4 + 0) / 4 = _; omega, ?_⟩
    have hq : ((x + y * DIM) * 4 + 0) / 4 = x + y * DIM := by omega
    have hr : ((x + y * DIM) * 4 + 0) % 4 = 0 := by omega
    show toUChar (255 * julia A x y) = refImage A ((x + y * DIM) * 4 + 0)
    simp only [refImage, hq, hr, hdx, hdy]
    exact toUChar_julia A x y
  · refine ⟨rfl, by show ((x + y * DIM) * 4 + 1) / 4 = _; omega, ?_⟩
    have hr : ((x + y * DIM) * 4 + 1) % 4 = 1 := by omega
    show 0 = refImage A ((x + y * DIM) * 4 + 1)
    simp only [refImage, hr]
  · refine ⟨rfl, by show ((x + y * DIM) * 4 + 2) / 4 = _; omega, ?_⟩
    have hr : ((x + y * DIM) * 4 + 2) % 4 = 2 := by omega
    show 0 = refImage A ((x + y * DIM) * 4 + 2)
    simp only [refImage, hr]
  · refine ⟨rfl, by show ((x + y * DIM) * 4 + 3) / 4 = _; omega, ?_⟩
    have hr : ((x + y * DIM) * 4 + 3) % 4 = 3 := by omega
    show 255 = refImage A ((x + y * DIM) * 4 + 3)
    simp only [refImage, hr]

/-- Every byte of a cell is written by the events of the cell. -/
theorem pixelEvents_cover (A : Arith) (t x y idx : Nat) (h : idx / 4 = x + y * DIM) :
    ∃ e ∈ pixelEvents A t x y, e.2.1 = idx := by
  have hcases : idx % 4 = 0 ∨ idx % 4 = 1 ∨ idx % 4 = 2 ∨ idx % 4 = 3 := by omega
  simp only [pixelEvents, List.mem_cons, List.mem_singleton, List.not_mem_nil, or_false]
  rcases hcases with h0 | h0 | h0 | h0
  · exact ⟨_, Or.inl rfl, by show (x + y * DIM) * 4 + 0 = idx; omega⟩
  · exact ⟨_, Or.inr (Or.inl rfl), by show (x + y * DIM) * 4 + 1 = idx; omega⟩
  · exact ⟨_, Or.inr (Or.inr (Or.inl rfl)), by show (x + y * DIM) * 4 + 2 = idx; omega⟩
  · exact ⟨_, Or.inr (Or.inr (Or.inr rfl)), by show (x + y * DIM) * 4 + 3 = idx; omega⟩

theorem applyWrites_cons (e : WriteEv) (evs : List WriteEv) (b : Buffer) :
    applyWrites (e :: evs) b = applyWrites evs (Function.update b e.2.1 e.2.2) := rfl

/-- Writes that all carry the value a picture has at their index leave this
picture at the indices written, in whatever order they are made. -/
theorem applyWrites_image (img : Buffer) (evs : List WriteEv)
    (hval : ∀ e ∈ evs, e.2.2 = img e.2.1) (b : Buffer) (idx : Nat) :
    applyWrites evs b idx = if ∃ e ∈ evs, e.2.1 = idx then img idx else b idx := by
  induction evs generalizing b with
  | nil => simp [applyWrites]
  | cons e evs ih =>
    rw [applyWrites_cons, ih (fun e1 h1 => hval e1 (List.mem_cons_of_mem _ h1))]
    by_cases h1 : ∃ e1 ∈ evs, e1.2.1 = idx
    · obtain ⟨e1, he1, hi⟩ := h1
      rw [if_pos ⟨e1, he1, hi⟩, if_pos ⟨e1, List.mem_cons_of_mem _ he1, hi⟩]
    · rw [if_neg h1, Function.update_apply]
      by_cases h2 : idx = e.2.1
      · rw [if_pos h2, if_pos ⟨e, List.mem_cons_self _ _, h2.symm⟩,
          hval e (List.mem_cons_self _ _), h2]
      · rw [if_neg h2, if_neg]
        rintro ⟨e1, he1, hi⟩
        rcases List.mem_cons.1 he1 with h3 | h3
        · subst h3; exact h2 hi.symm
        · exact h1 ⟨e1, h3, hi⟩

theorem runCells_logWrites (A : Arith) (t : Nat) (cells : List (Nat × Nat))
    (log : List WriteEv) :
    runCells (logWrites A t) cells log =
      log ++ cells.flatMap (fun c => pixelEvents A t c.1 c.2) := by
  induction cells generalizing log with
  | nil => simp [runCells]
  | cons c cells ih =>
    rw [runCells_cons, ih, List.flatMap_cons]
    simp [logWrites, List.append_assoc]

theorem mem_interleaving {N : Nat} {trace : Nat → List WriteEv} {merged : List WriteEv}
    (h : isInterleaving N trace merged) (e : WriteEv) :
    e ∈ merged ↔ e.1 < N ∧ e ∈ trace e.1 := by
  constructor
  · intro he
    have hlt := h.1 e he
    refine ⟨hlt, ?_⟩
    rw [← h.2 e.1 hlt, List.mem_filter]
    exact ⟨he, by simp⟩
  · rintro ⟨hlt, he⟩
    rw [← h.2 e.1 hlt, List.mem_filter] at he
    exact he.1

theorem filter_thread_flatMap (trace : Nat → List WriteEv)
    (htag : ∀ u, ∀ e ∈ trace u, e.1 = u) (N t : Nat) :
    ((List.range N).flatMap trace).filter (fun e => decide (e.1 = t)) =
      if t < N then trace t else [] := by
  induction N with
  | zero => simp
  | succ N ih =>
    rw [List.range_succ, List.flatMap_append, List.filter_append, ih, List.flatMap_singleton]
    by_cases h1 : t < N
    · have hne : ∀ e ∈ trace N, ¬ (decide (e.1 = t) = true) := by
        intro e he hd
        have := htag N e he
        have h2 : e.1 = t := by simpa using hd
        omega
      rw [if_pos h1, if_pos (by omega), List.filter_eq_nil_iff.2 hne, List.append_nil]
    · rw [if_neg h1]
      by_cases h2 : t = N
      · subst h2
        have hall : ∀ e ∈ trace t, decide (e.1 = t) = true := by
          intro e he
          simpa using htag t e he
        rw [if_pos (by omega), List.filter_eq_self.2 hall, List.nil_append]
      · have hne : ∀ e ∈ trace N, ¬ (decide (e.1 = t) = true) := by
          intro e he hd
          have := htag N e he
          have h3 : e.1 = t := by simpa using hd
          omega
        rw [if_neg (by omega), List.filter_eq_nil_iff.2 hne, List.append_nil]

/-- The threads run one after another are an interleaving. -/
theorem sequential_isInterleaving (N : Nat) (trace : Nat → List WriteEv)
    (htag : ∀ u, ∀ e ∈ trace u, e.1 = u) :
    isInterleaving N trace ((List.range N).flatMap trace) := by
  constructor
  · intro e he
    obtain ⟨u, hu, heu⟩ := List.mem_flatMap.1 he
    rw [htag u e heu]
    exact List.mem_range.1 hu
  · intro t ht
    rw [filter_thread_flatMap trace htag N t, if_pos ht]

theorem pixelEvents_thread (A : Arith) (t x y : Nat) (e : WriteEv)
    (he : e ∈ pixelEvents A t x y) : e.1 = t := by
  simp only [pixelEvents, List.mem_cons, List.mem_singleton, List.not_mem_nil, or_false] at he
  rcases he with rfl | rfl | rfl | rfl <;> rfl

theorem SplitsGrid.covers {N : Nat} {cellsOf : Nat → List (Nat × Nat)}
    {owner : Nat × Nat → Nat} (P : SplitsGrid N cellsOf owner) : CoversGrid N cellsOf where
  inGrid := fun t ht c hc => ⟨((P.mem_iff t ht c).1 hc).1, ((P.mem_iff t ht c).1 hc).2.1⟩
  covered := fun c h1 h2 =>
    ⟨owner c, P.owner_lt c h1 h2, (P.mem_iff _ (P.owner_lt c h1 h2) c).2 ⟨h1, h2, rfl⟩⟩
  unique := fun t u ht hu c hct hcu =>
    ((P.mem_iff t ht c).1 hct).2.2.symm.trans ((P.mem_iff u hu c).1 hcu).2.2

/-- Rows handed out to the threads, each row once: the cells of the threads
cover the grid. -/
theorem covers_For (N : Nat) (rowsOf : Nat → List Nat)
    (hsched : ((List.range N).flatMap rowsOf).Perm (List.range DIM)) :
    CoversGrid N (fun t => rowMajor (rowsOf t) (List.range' 0 (DIM - 0))) where
  inGrid := by
    intro t ht c hc
    rw [mem_rowMajor, List.mem_range'_1] at hc
    have hmem : c.2 ∈ (List.range N).flatMap rowsOf :=
      List.mem_flatMap.2 ⟨t, List.mem_range.2 ht, hc.1⟩
    have := List.mem_range.1 (hsched.mem_iff.1 hmem)
    exact ⟨by omega, this⟩
  covered := by
    intro c h1 h2
    have hmem : c.2 ∈ (List.range N).flatMap rowsOf :=
      hsched.mem_iff.2 (List.mem_range.2 h2)
    obtain ⟨t, ht, hc⟩ := List.mem_flatMap.1 hmem
    refine ⟨t, List.mem_range.1 ht, ?_⟩
    rw [mem_rowMajor, List.mem_range'_1]
    exact ⟨hc, by omega, by omega⟩
  unique := by
    intro t u ht hu c hct hcu
    rw [mem_rowMajor] at hct hcu
    have hnd : ((List.range N).flatMap rowsOf).Nodup :=
      hsched.nodup_iff.2 (List.nodup_range DIM)
    have hpw := (List.nodup_flatMap.1 hnd).2
    by_contra hne
    have hdis : List.Disjoint (rowsOf t) (rowsOf u) :=
      hpw.forall (fun a b hab => List.Disjoint.symm hab) (List.mem_range.2 ht)
        (List.mem_range.2 hu) hne
    exact List.disjoint_left.1 hdis hct.1 hcu.1

/-- Threads whose cells cover the grid, each cell in one thread: every
interleaving of their writes is free of races and ends with the picture. -/
theorem raceFreeRuns_of_covers (A : Arith) {N : Nat} {cellsOf : Nat → List (Nat × Nat)}
    (C : CoversGrid N cellsOf) (buf : Buffer) :
    raceFreeRuns A N (fun t => (cellsOf t).flatMap (fun c => pixelEvents A t c.1 c.2)) buf := by
  have htag : ∀ u, ∀ e ∈ (cellsOf u).flatMap (fun c => pixelEvents A u c.1 c.2), e.1 = u := by
    intro u e he
    obtain ⟨c, _, hec⟩ := List.mem_flatMap.1 he
    exact pixelEvents_thread A u c.1 c.2 e hec
  refine ⟨sequential_isInterleaving N _ htag, fun merged h => ?_⟩
  have hev : ∀ e ∈ merged, e.1 < N ∧ ∃ c ∈ cellsOf e.1, c.1 < DIM ∧ c.2 < DIM ∧
      e.2.1 / 4 = c.1 + c.2 * DIM ∧ e.2.2 = refImage A e.2.1 := by
    intro e he
    obtain ⟨hlt, hmem⟩ := (mem_interleaving h e).1 he
    obtain ⟨c, hc, hec⟩ := List.mem_flatMap.1 hmem
    obtain ⟨g1, g2⟩ := C.inGrid e.1 hlt c hc
    obtain ⟨_, s2, s3⟩ := pixelEvents_spec A e.1 c.1 c.2 g1 e hec
    exact ⟨hlt, c, hc, g1, g2, s2, s3⟩
  have hwritten : ∀ idx, idx / 4 < DIM * DIM → ∃ e ∈ merged, e.2.1 = idx := by
    intro idx hidx
    have hD : 0 < DIM := by decide
    have hy : idx / 4 / DIM < DIM := by
      rw [Nat.div_lt_iff_lt_mul hD]
      exact hidx
    obtain ⟨t, ht, hc⟩ := C.covered (idx / 4 % DIM, idx / 4 / DIM) (Nat.mod_lt _ hD) hy
    obtain ⟨e, he, hi⟩ := pixelEvents_cover A t (idx / 4 % DIM) (idx / 4 / DIM) idx
      (Nat.mod_add_div' (idx / 4) DIM).symm
    have het : e.1 = t := pixelEvents_thread A t _ _ e he
    refine ⟨e, (mem_interleaving h e).2 ⟨by rw [het]; exact ht, ?_⟩, hi⟩
    rw [het]
    exact List.mem_flatMap.2 ⟨_, hc, he⟩
  have h4 : 4 * DIM * DIM = 4 * (DIM * DIM) := by ring
  refine ⟨?_, ?_, ?_⟩
  · intro e he
    obtain ⟨_, c, _, g1, g2, s2, _⟩ := hev e he
    have := offset_lt c.1 c.2 g1 g2
    omega
  · intro offset hoff
    obtain ⟨e, he, hi⟩ := hwritten (offset * 4) (by omega)
    refine ⟨e.1, ⟨e, he, rfl, by omega⟩, ?_⟩
    rintro t ⟨e1, he1, rfl, ho1⟩
    obtain ⟨hlt, c, hc, g1, _, s2, _⟩ := hev e he
    obtain ⟨hlt1, c1, hc1, k1, _, r2, _⟩ := hev e1 he1
    have hsame : c1.1 + c1.2 * DIM = c.1 + c.2 * DIM := by omega
    obtain ⟨q1, q2⟩ := offset_injective _ _ _ _ k1 g1 hsame
    have hcc : c1 = c := Prod.ext q1 q2
    rw [hcc] at hc1
    exact C.unique _ _ hlt1 hlt c hc1 hc
  · funext idx
    rw [kernel_serial_eq, applyWrites_image (refImage A) merged
      (fun e he => by obtain ⟨_, _, _, _, _, _, s3⟩ := hev e he; exact s3)]
    unfold refRender
    by_cases hidx : idx < 4 * DIM * DIM
    · rw [if_pos hidx, if_pos (hwritten idx (by omega))]
    · rw [if_neg hidx, if_neg]
      rintro ⟨e, he, hi⟩
      obtain ⟨_, c, _, g1, g2, s2, _⟩ := hev e he
      have := offset_lt c.1 c.2 g1 g2
      omega

/-- C12. Runs of the strategies as interleavings of the byte writes of their
threads, `N ≥ 1` threads, and `N ≤ 2147482880` for the interleaved strategies
(the counts for which the `int` index of their strided loop does not
overflow); for `kernel_omp_For`, `rowsOf t` are the rows the runtime hands to
thread `t`, each row of the loop handed out once. For each of
the five strategies the threads have traces (their regions end), the threads
run one after another are one interleaving, and in every interleaving all
writes are in the bitmap, every cell of the bitmap is written by exactly one
thread, and the buffer at the end is the one `kernel_serial` leaves. The
events are the writes of the loop body: made in order, they are the body. -/
theorem lock_free_writes_race_free (A : Arith) (N fuel : Nat) (rowsOf : Nat → List Nat)
    (buf : Buffer) (hN : 1 ≤ N) (hfuel : DIM ≤ fuel)
    (hsched : ((List.range N).flatMap rowsOf).Perm (List.range DIM)) :
    (∀ t x y b, applyWrites (pixelEvents A t x y) b = pixel A x y b) ∧
    (N ≤ 2147482880 →
      ∃ trace, (∀ t, t < N → region_1D_Row (logWrites A t) N t fuel [] = .done (trace t)) ∧
        raceFreeRuns A N trace buf) ∧
    (N ≤ 2147482880 →
      ∃ trace, (∀ t, t < N → region_1D_Col (logWrites A t) N t fuel [] = .done (trace t)) ∧
        raceFreeRuns A N trace buf) ∧
    (∃ trace, (∀ t, region_2D_Row_Block (logWrites A t) N t [] = .done (trace t)) ∧
      raceFreeRuns A N trace buf) ∧
    (∃ trace, (∀ t, region_2D_Col_Block (logWrites A t) N t [] = .done (trace t)) ∧
      raceFreeRuns A N trace buf) ∧
    (∃ trace, (∀ t, region_For (logWrites A t) (rowsOf t) [] = trace t) ∧
      raceFreeRuns A N trace buf) := by
  refine ⟨fun t x y b => applyWrites_pixelEvents A t x y b,
    fun _ => ⟨_, fun t _ => ?_,
      raceFreeRuns_of_covers A (splits_1D_Row N fuel hN hfuel).covers buf⟩,
    fun _ => ⟨_, fun t _ => ?_,
      raceFreeRuns_of_covers A (splits_1D_Col N fuel hN hfuel).covers buf⟩,
    ⟨_, fun t => ?_, raceFreeRuns_of_covers A (splits_2D_Row_Block N hN).covers buf⟩,
    ⟨_, fun t => ?_, raceFreeRuns_of_covers A (splits_2D_Col_Block N hN).covers buf⟩,
    ⟨_, fun t => ?_, raceFreeRuns_of_covers A (covers_For N rowsOf hsched) buf⟩⟩
  · rw [region_1D_Row_eq (logWrites A t) N t fuel [] hN hfuel, runCells_logWrites,
      List.nil_append]
  · rw [region_1D_Col_eq (logWrites A t) N t fuel [] hN hfuel, runCells_logWrites,
      List.nil_append]
  · rw [region_2D_Row_Block_eq (logWrites A t) N t [] hN, runCells_logWrites, List.nil_append]
  · rw [region_2D_Col_Block_eq (logWrites A t) N t [] hN, runCells_logWrites, List.nil_append]
  · rw [region_For_eq, runCells_logWrites, List.nil_append]

/-- C12, at two threads, the runtime handing all rows of `kernel_omp_For` to
thread 0. -/
theorem lock_free_writes_race_free_witness :
    (1 ≤ 2 ∧ 2 ≤ 2147482880 ∧ DIM ≤ 768 ∧
      ((List.range 2).flatMap (fun t => if t = 0 then List.range DIM else [])).Perm
        (List.range DIM)) ∧
    (∃ trace, (∀ t, t < 2 →
        region_1D_Row (logWrites exactArith t) 2 t 768 [] = .done (trace t)) ∧
      raceFreeRuns exactArith 2 trace (fun _ => 0)) ∧
    (∃ trace, (∀ t, region_For (logWrites exactArith t)
        ((fun t => if t = 0 then List.range DIM else []) t) [] = trace t) ∧
      raceFreeRuns exactArith 2 trace (fun _ => 0)) := by
  have hperm : ((List.range 2).flatMap (fun t => if t = 0 then List.range DIM else [])).Perm
      (List.range DIM) := by
    have : (List.range 2).flatMap (fun t => if t = 0 then List.range DIM else []) =
        List.range DIM := by
      simp [List.range_succ, List.flatMap_cons]
    rw [this]
  have h := lock_free_writes_race_free exactArith 2 768
    (fun t => if t = 0 then List.range DIM else []) (fun _ => 0) (by decide) (by decide) hperm
  exact ⟨⟨by decide, by decide, by decide, hperm⟩, h.2.1 (by decide), h.2.2.2.2.2⟩

/-! ## The speedups -/

theorem roundTiesEven_bounds (m : ℚ) : ⌊m⌋ ≤ roundTiesEven m ∧ roundTiesEven m ≤ ⌊m⌋ + 1 := by
  unfold roundTiesEven
  split_ifs <;> constructor <;> omega

theorem roundTiesEven_of_floor_lt (m : ℚ) (f : Int) (hf : ⌊m⌋ = f) (hlt : m - f < 1 / 2) :
    roundTiesEven m = f := by
  unfold roundTiesEven
  rw [hf, if_pos hlt]

theorem ulpExponent_zpow (z : Int) : ulpExponent ((2 : ℚ) ^ z) = max (z - 52) (-1074) := by
  unfold ulpExponent
  have h := Int.log_zpow (R := ℚ) (b := 2) (by decide) z
  rw [Nat.cast_ofNat] at h
  rw [h]

theorem two_zpow_isDouble (e : Int) (hlo : -1074 ≤ e) (hhi : e ≤ 971) :
    isDouble ((2 : ℚ) ^ e) :=
  ⟨1, e, by norm_num, hlo, hhi, by simp⟩

theorem divDouble_overflow :
    divDouble (2 ^ (971 : Int)) (2 ^ (-1074 : Int)) = .infinite := by
  have hq : (2 : ℚ) ^ (971 : Int) / 2 ^ (-1074 : Int) = 2 ^ (2045 : Int) := by
    rw [← zpow_sub₀ (by norm_num)]
    norm_num
  have he : max ((2045 : Int) - 52) (-1074) = 1993 := by decide
  have hm : (2 : ℚ) ^ (2045 : Int) / 2 ^ (1993 : Int) = ((2 ^ 52 : Int) : ℚ) := by
    rw [← zpow_sub₀ (by norm_num)]
    norm_num
  have hr : roundTiesEven (((2 ^ 52 : Int) : ℚ)) = 2 ^ 52 :=
    roundTiesEven_of_floor_lt _ _ (Int.floor_intCast _) (by norm_num)
  have hv : ¬ ((((2 ^ 52 : Int) : ℚ)) * 2 ^ (1993 : Int) < 2 ^ (1024 : Int)) := by
    have h1 : (((2 ^ 52 : Int) : ℚ)) * 2 ^ (1993 : Int) = 2 ^ (2045 : Int) := by
      have : (((2 ^ 52 : Int) : ℚ)) = 2 ^ (52 : Int) := by norm_num
      rw [this, ← zpow_add₀ (by norm_num)]
      norm_num
    rw [h1, not_lt]
    exact zpow_le_zpow_right₀ (by norm_num) (by decide)
  unfold divDouble roundDouble
  simp only [hq, ulpExponent_zpow, he, hm, hr]
  rw [if_neg hv]

theorem divDouble_underflow :
    divDouble (2 ^ (-1074 : Int)) 4 = .finite 0 := by
  have hq : (2 : ℚ) ^ (-1074 : Int) / 4 = 2 ^ (-1076 : Int) := by
    have h4 : (4 : ℚ) = 2 ^ (2 : Int) := by norm_num
    rw [h4, ← zpow_sub₀ (by norm_num)]
    norm_num
  have he : max ((-1076 : Int) - 52) (-1074) = -1074 := by decide
  have hm : (2 : ℚ) ^ (-1076 : Int) / 2 ^ (-1074 : Int) = 1 / 4 := by
    rw [← zpow_sub₀ (by norm_num)]
    norm_num
  have hfloor : ⌊(1 / 4 : ℚ)⌋ = 0 := by
    rw [Int.floor_eq_iff]
    norm_num
  have hr : roundTiesEven (1 / 4 : ℚ) = 0 :=
    roundTiesEven_of_floor_lt _ _ hfloor (by norm_num)
  unfold divDouble roundDouble
  simp only [hq, ulpExponent_zpow, he, hm, hr]
  have hpos : (0 : ℚ) < 2 ^ (1024 : Int) := zpow_pos (by norm_num) _
  simp [hpos]

theorem roundDouble_eq (q : ℚ) :
    roundDouble q =
      if ((roundTiesEven (q / 2 ^ ulpExponent q) : Int) : ℚ) * 2 ^ ulpExponent q <
          2 ^ (1024 : Int)
      then .finite (((roundTiesEven (q / 2 ^ ulpExponent q) : Int) : ℚ) * 2 ^ ulpExponent q)
      else .infinite := rfl

/-- An integer between 1 and `2^53` scaled by `2^e`, `-1074 ≤ e ≤ 970`, is a
finite, strictly positive `double` below `2^1024`. -/
theorem scaled_isDouble (n e : Int) (hn1 : 1 ≤ n) (hn2 : n ≤ 2 ^ 53) (he1 : -1074 ≤ e)
    (he2 : e ≤ 970) :
    (n : ℚ) * 2 ^ e < 2 ^ (1024 : Int) ∧ 0 < (n : ℚ) * 2 ^ e ∧ isDouble ((n : ℚ) * 2 ^ e) := by
  have h2 : (0 : ℚ) < 2 := by norm_num
  have h12 : (1 : ℚ) ≤ 2 := by norm_num
  have hpe : (0 : ℚ) < 2 ^ e := zpow_pos h2 _
  have hnQ1 : (1 : ℚ) ≤ n := by exact_mod_cast hn1
  have hnQ2 : (n : ℚ) ≤ 2 ^ (53 : Int) := by
    have : ((2 ^ 53 : Int) : ℚ) = 2 ^ (53 : Int) := by norm_num
    rw [← this]
    exact_mod_cast hn2
  refine ⟨?_, by positivity, ?_⟩
  · calc (n : ℚ) * 2 ^ e ≤ 2 ^ (53 : Int) * 2 ^ e := mul_le_mul_of_nonneg_right hnQ2 hpe.le
      _ = 2 ^ (53 + e) := by rw [← zpow_add₀ (by norm_num : (2 : ℚ) ≠ 0)]
      _ ≤ 2 ^ (1023 : Int) := zpow_le_zpow_right₀ h12 (by omega)
      _ < 2 ^ (1024 : Int) := zpow_lt_zpow_right₀ (by norm_num) (by decide)
  · by_cases hlt : n < 2 ^ 53
    · refine ⟨n.toNat, e, ?_, he1, by omega, ?_⟩
      · have : ((n.toNat : Nat) : Int) < ((2 ^ 53 : Nat) : Int) := by
          rw [Int.toNat_of_nonneg (by omega)]
          exact_mod_cast hlt
        exact_mod_cast this
      · have : ((n.toNat : Nat) : ℚ) = (n : ℚ) := by
          have h := Int.toNat_of_nonneg (show 0 ≤ n by omega)
          exact_mod_cast congrArg (fun z : Int => (z : ℚ)) h
        rw [this]
    · have hn : n = 2 ^ 53 := by omega
      refine ⟨2 ^ 52, e + 1, by norm_num, by omega, by omega, ?_⟩
      rw [hn, zpow_add₀ (by norm_num : (2 : ℚ) ≠ 0)]
      norm_num
      ring

/-- A quotient between `2^(-1074)` and `2^1023` is rounded to a finite,
strictly positive `double`. -/
theorem roundDouble_in_range (q : ℚ) (hlo : (2 : ℚ) ^ (-1074 : Int) ≤ q)
    (hhi : q < (2 : ℚ) ^ (1023 : Int)) :
    ∃ r, roundDouble q = .finite r ∧ 0 < r ∧ isDouble r := by
  have h2 : (0 : ℚ) < 2 := by norm_num
  have h12 : (1 : ℚ) ≤ 2 := by norm_num
  have hq : 0 < q := lt_of_lt_of_le (zpow_pos h2 _) hlo
  have hL1 : (2 : ℚ) ^ Int.log 2 q ≤ q := by
    have h := Int.zpow_log_le_self (R := ℚ) (b := 2) (by decide) hq
    rwa [Nat.cast_ofNat] at h
  have hL2 : q < (2 : ℚ) ^ (Int.log 2 q + 1) := by
    have h := Int.lt_zpow_succ_log_self (R := ℚ) (b := 2) (by decide) q
    rwa [Nat.cast_ofNat] at h
  have hLhi : Int.log 2 q < 1023 := by
    have h := (Int.lt_zpow_iff_log_lt (R := ℚ) (b := 2) (x := 1023) (by decide) hq).1
    rw [Nat.cast_ofNat] at h
    exact h hhi
  have hLlo : -1074 ≤ Int.log 2 q := by
    have h := (Int.zpow_le_iff_le_log (R := ℚ) (b := 2) (x := -1074) (by decide) hq).1
    rw [Nat.cast_ofNat] at h
    exact h hlo
  have hedef : ulpExponent q = max (Int.log 2 q - 52) (-1074) := rfl
  generalize Int.log 2 q = L at hL1 hL2 hLhi hLlo hedef
  have he_lo : -1074 ≤ ulpExponent q := by rw [hedef]; exact le_max_right _ _
  have he_hi : ulpExponent q ≤ 970 := by rw [hedef]; omega
  have he_L : ulpExponent q ≤ L := by rw [hedef]; omega
  have he_L2 : L + 1 ≤ ulpExponent q + 53 := by rw [hedef]; omega
  rw [roundDouble_eq]
  generalize ulpExponent q = e at he_lo he_hi he_L he_L2 ⊢
  have hpe : (0 : ℚ) < 2 ^ e := zpow_pos h2 _
  have hm1 : 1 ≤ q / 2 ^ e := by
    rw [le_div_iff₀ hpe, one_mul]
    exact le_trans (zpow_le_zpow_right₀ h12 he_L) hL1
  have hm2 : q / 2 ^ e < 2 ^ (53 : Int) := by
    rw [div_lt_iff₀ hpe, ← zpow_add₀ (by norm_num : (2 : ℚ) ≠ 0)]
    exact lt_of_lt_of_le hL2 (zpow_le_zpow_right₀ h12 (by omega))
  obtain ⟨hb1, hb2⟩ := roundTiesEven_bounds (q / 2 ^ e)
  have hf1 : 1 ≤ ⌊q / 2 ^ e⌋ := by
    rw [Int.le_floor]
    exact_mod_cast hm1
  have hf2 : ⌊q / 2 ^ e⌋ < 2 ^ 53 := by
    rw [Int.floor_lt]
    have : ((2 ^ 53 : Int) : ℚ) = 2 ^ (53 : Int) := by norm_num
    rw [this]
    exact hm2
  generalize roundTiesEven (q / 2 ^ e) = n at hb1 hb2 ⊢
  obtain ⟨s1, s2, s3⟩ := scaled_isDouble n e (by omega) (by omega) he_lo he_hi
  exact ⟨_, if_pos s1, s2, s3⟩

/-- A positive finite `double` is rounded to itself. -/
theorem roundDouble_of_isDouble (q : ℚ) (hq : 0 < q) (hd : isDouble q) :
    roundDouble q = .finite q := by
  obtain ⟨m, e0, hm, he1, he2, hqm⟩ := hd
  have h2 : (0 : ℚ) < 2 := by norm_num
  have h12 : (1 : ℚ) ≤ 2 := by norm_num
  have h20 : (2 : ℚ) ≠ 0 := by norm_num
  have hmQ : (m : ℚ) < 2 ^ (53 : Int) := by
    have : ((2 ^ 53 : Nat) : ℚ) = 2 ^ (53 : Int) := by norm_num
    rw [← this]
    exact_mod_cast hm
  have hqlt : q < (2 : ℚ) ^ (e0 + 53) := by
    rw [hqm, zpow_add₀ h20, mul_comm ((2 : ℚ) ^ e0)]
    exact mul_lt_mul_of_pos_right hmQ (zpow_pos h2 _)
  have hL1 : (2 : ℚ) ^ Int.log 2 q ≤ q := by
    have h := Int.zpow_log_le_self (R := ℚ) (b := 2) (by decide) hq
    rwa [Nat.cast_ofNat] at h
  have hL : Int.log 2 q < e0 + 53 :=
    (zpow_lt_zpow_iff_right₀ (by norm_num : (1 : ℚ) < 2)).1 (lt_of_le_of_lt hL1 hqlt)
  have hedef : ulpExponent q = max (Int.log 2 q - 52) (-1074) := rfl
  have he : ulpExponent q ≤ e0 := by rw [hedef]; omega
  rw [roundDouble_eq]
  generalize ulpExponent q = e at he ⊢
  obtain ⟨k, hk⟩ := Int.eq_ofNat_of_zero_le (show 0 ≤ e0 - e by omega)
  have hm' : q / 2 ^ e = (((m : Int) * 2 ^ k : Int) : ℚ) := by
    rw [hqm, mul_div_assoc, ← zpow_sub₀ h20, hk]
    push_cast
    rw [zpow_natCast]
  have hr : roundTiesEven (q / 2 ^ e) = (m : Int) * 2 ^ k := by
    rw [hm']
    exact roundTiesEven_of_floor_lt _ _ (Int.floor_intCast _) (by norm_num)
  have hv : ((((m : Int) * 2 ^ k : Int)) : ℚ) * 2 ^ e = q := by
    rw [← hm', div_mul_cancel₀ _ (zpow_pos h2 e).ne']
  rw [hr, hv, if_pos]
  exact lt_of_lt_of_le hqlt (zpow_le_zpow_right₀ h12 (by omega))

theorem mem_speedups (d : Durations) (v : DoubleVal) (hv : v ∈ speedups d) :
    ∃ x ∈ [d.finish_1d_row, d.finish_1d_col, d.finish_2d_row_block, d.finish_2d_col_block,
      d.finish_omp_for], v = divDouble d.finish_s x := by
  simp only [speedups, List.mem_cons, List.mem_singleton, List.not_mem_nil, or_false] at hv ⊢
  rcases hv with h | h | h | h | h
  · exact ⟨_, Or.inl rfl, h⟩
  · exact ⟨_, Or.inr (Or.inl rfl), h⟩
  · exact ⟨_, Or.inr (Or.inr (Or.inl rfl)), h⟩
  · exact ⟨_, Or.inr (Or.inr (Or.inr (Or.inl rfl))), h⟩
  · exact ⟨_, Or.inr (Or.inr (Or.inr (Or.inr rfl))), h⟩

/-- Durations between `2^(-511)` and `2^511` seconds have a quotient between
`2^(-1074)` and `2^1023`. -/
theorem quotient_in_range (a b : ℚ) (ha1 : (2 : ℚ) ^ (-511 : Int) ≤ a)
    (ha2 : a ≤ (2 : ℚ) ^ (511 : Int)) (hb1 : (2 : ℚ) ^ (-511 : Int) ≤ b)
    (hb2 : b ≤ (2 : ℚ) ^ (511 : Int)) :
    (2 : ℚ) ^ (-1074 : Int) ≤ a / b ∧ a / b < (2 : ℚ) ^ (1023 : Int) := by
  have h2 : (0 : ℚ) < 2 := by norm_num
  have h20 : (2 : ℚ) ≠ 0 := by norm_num
  have hb : 0 < b := lt_of_lt_of_le (zpow_pos h2 _) hb1
  constructor
  · rw [le_div_iff₀ hb]
    calc (2 : ℚ) ^ (-1074 : Int) * b ≤ 2 ^ (-1074 : Int) * 2 ^ (511 : Int) :=
          mul_le_mul_of_nonneg_left hb2 (zpow_pos h2 _).le
      _ = 2 ^ (-563 : Int) := by rw [← zpow_add₀ h20]; norm_num
      _ ≤ 2 ^ (-511 : Int) := zpow_le_zpow_right₀ (by norm_num) (by decide)
      _ ≤ a := ha1
  · rw [div_lt_iff₀ hb]
    calc a ≤ 2 ^ (511 : Int) := ha2
      _ < 2 ^ (512 : Int) := zpow_lt_zpow_right₀ (by norm_num) (by decide)
      _ = 2 ^ (1023 : Int) * 2 ^ (-511 : Int) := by rw [← zpow_add₀ h20]; norm_num
      _ ≤ 2 ^ (1023 : Int) * b := mul_le_mul_of_nonneg_left hb1 (zpow_pos h2 _).le

/-- C11 as stated fails in `double` arithmetic. The durations `2^971` and
`2^(-1074)` are finite, strictly positive `double` values and their quotient,
as `main` would report it for the first strategy, is `+inf`; the durations
`2^(-1074)` and `4` are such values too and their quotient is 0. -/
theorem speedup_overflow_and_underflow :
    (isDouble (2 ^ (971 : Int)) ∧ (0 : ℚ) < 2 ^ (971 : Int) ∧
      isDouble (2 ^ (-1074 : Int)) ∧ (0 : ℚ) < 2 ^ (-1074 : Int) ∧
      (speedups ⟨2 ^ (971 : Int), 2 ^ (-1074 : Int), 1, 1, 1, 1⟩).head? = some .infinite) ∧
    (isDouble 4 ∧ (0 : ℚ) < 4 ∧
      (speedups ⟨2 ^ (-1074 : Int), 4, 1, 1, 1, 1⟩).head? = some (.finite 0)) := by
  have h2 : (0 : ℚ) < 2 := by norm_num
  refine ⟨⟨two_zpow_isDouble 971 (by decide) (by decide), zpow_pos h2 _,
    two_zpow_isDouble (-1074) (by decide) (by decide), zpow_pos h2 _, ?_⟩,
    ⟨⟨4, 0, by norm_num, by decide, by decide, by norm_num⟩, by norm_num, ?_⟩⟩
  · show some (divDouble (2 ^ (971 : Int)) (2 ^ (-1074 : Int))) = some .infinite
    rw [divDouble_overflow]
  · show some (divDouble (2 ^ (-1074 : Int)) 4) = some (.finite 0)
    rw [divDouble_underflow]

/-- C11, amended. The five speedups `main` reports are the quotients
`finish_s / finish_X` in `double` arithmetic. For strictly positive durations
the exact quotient is strictly positive, and when it lies between `2^(-1074)`
and `2^1023`, for each strategy, every reported speedup is a finite, strictly
positive `double`. This is so, in particular, for durations between
`2^(-511)` and `2^511` seconds; and a quotient that is itself a `double` is
reported exactly. -/
theorem speedups_finite_positive_in_range (d : Durations) (hs : 0 < d.finish_s)
    (hX : ∀ x ∈ [d.finish_1d_row, d.finish_1d_col, d.finish_2d_row_block,
      d.finish_2d_col_block, d.finish_omp_for],
      0 < x ∧ (2 : ℚ) ^ (-1074 : Int) ≤ d.finish_s / x ∧
        d.finish_s / x < (2 : ℚ) ^ (1023 : Int)) :
    speedups d = [divDouble d.finish_s d.finish_1d_row, divDouble d.finish_s d.finish_1d_col,
      divDouble d.finish_s d.finish_2d_row_block, divDouble d.finish_s d.finish_2d_col_block,
      divDouble d.finish_s d.finish_omp_for] ∧
    (∀ x ∈ [d.finish_1d_row, d.finish_1d_col, d.finish_2d_row_block,
      d.finish_2d_col_block, d.finish_omp_for], 0 < d.finish_s / x) ∧
    (∀ v ∈ speedups d, ∃ r, v = .finite r ∧ 0 < r ∧ isDouble r) ∧
    (∀ a b : ℚ, (2 : ℚ) ^ (-511 : Int) ≤ a → a ≤ (2 : ℚ) ^ (511 : Int) →
      (2 : ℚ) ^ (-511 : Int) ≤ b → b ≤ (2 : ℚ) ^ (511 : Int) →
      ∃ r, divDouble a b = .finite r ∧ 0 < r ∧ isDouble r) ∧
    (∀ a b : ℚ, 0 < a / b → isDouble (a / b) → divDouble a b = .finite (a / b)) := by
  refine ⟨rfl, fun x hx => div_pos hs (hX x hx).1, fun v hv => ?_, fun a b ha1 ha2 hb1 hb2 => ?_,
    fun a b hpos hd => roundDouble_of_isDouble (a / b) hpos hd⟩
  · obtain ⟨x, hx, rfl⟩ := mem_speedups d v hv
    exact roundDouble_in_range _ (hX x hx).2.1 (hX x hx).2.2
  · obtain ⟨h1, h2⟩ := quotient_in_range a b ha1 ha2 hb1 hb2
    exact roundDouble_in_range _ h1 h2

/-- C11 amended, for a baseline of 3 seconds and strategies of 1 second and of
2 seconds: every speedup is finite and positive, and the first one is 3. -/
theorem speedups_finite_positive_in_range_witness :
    ((0 : ℚ) < 3) ∧
    (∀ v ∈ speedups ⟨3, 1, 2, 2, 1, 1⟩, ∃ r, v = .finite r ∧ 0 < r ∧ isDouble r) ∧
    divDouble 3 1 = .finite (3 / 1) := by
  have hX : ∀ x ∈ [(1 : ℚ), 2, 2, 1, 1],
      0 < x ∧ (2 : ℚ) ^ (-1074 : Int) ≤ 3 / x ∧ 3 / x < (2 : ℚ) ^ (1023 : Int) := by
    intro x hx
    have hx12 : x = 1 ∨ x = 2 := by
      simp only [List.mem_cons, List.mem_singleton, List.not_mem_nil, or_false] at hx
      rcases hx with h | h | h | h | h <;> simp [h]
    have hlo : (2 : ℚ) ^ (-1074 : Int) ≤ 1 := zpow_le_one_of_nonpos₀ (by norm_num) (by decide)
    have hhi : (4 : ℚ) ≤ 2 ^ (1023 : Int) := by
      have h4 : (4 : ℚ) = 2 ^ (2 : Int) := by norm_num
      rw [h4]
      exact zpow_le_zpow_right₀ (by norm_num) (by decide)
    rcases hx12 with rfl | rfl
    · refine ⟨by norm_num, ?_, ?_⟩
      · linarith
      · linarith
    · refine ⟨by norm_num, ?_, ?_⟩
      · linarith
      · linarith
  have h := speedups_finite_positive_in_range ⟨3, 1, 2, 2, 1, 1⟩ (by norm_num) hX
  refine ⟨by norm_num, h.2.2.1, h.2.2.2.2 3 1 (by norm_num) ?_⟩
  exact ⟨3, 0, by norm_num, by decide, by decide, by norm_num⟩

/-! ## The strategies on `int` and on natural numbers -/

theorem forRangeInt_eq_forRange {σ : Type} (lo hi : Nat) (bodyI : Int → σ → σ)
    (bodyN : Nat → σ → σ) (hbody : ∀ i : Nat, bodyI i = bodyN i) (s : σ) :
    forRangeInt lo hi bodyI s = forRange lo hi bodyN s := by
  unfold forRangeInt forRange
  have hlen : ((hi : Int) - (lo : Int)).toNat = hi - lo := by omega
  have hf : (fun (acc : σ) (k : Nat) => bodyI ((lo : Int) + (k : Int)) acc) =
      (fun (acc : σ) (k : Nat) => bodyN (lo + k) acc) := by
    funext acc k
    have h := hbody (lo + k)
    rw [Nat.cast_add] at h
    rw [h]
  rw [hlen, hf, List.range'_eq_map_range, List.foldl_map]

theorem forStrideInt32_eq_forStride {σ : Type} (bound step : Nat) (bodyI : Int → σ → σ)
    (bodyN : Nat → σ → σ) (hbody : ∀ i : Nat, bodyI i = bodyN i)
    (hstep : ∀ i, i < bound → i + step ≤ 2147483647) (fuel i : Nat) (s : σ) :
    forStrideInt32 bound step bodyI fuel i s = forStride bound step bodyN fuel i s := by
  induction fuel generalizing i s with
  | zero =>
    unfold forStrideInt32 forStride
    by_cases hi : i < bound
    · rw [if_pos hi, if_pos (by exact_mod_cast hi)]
    · rw [if_neg hi, if_neg (by exact_mod_cast hi)]
  | succ fuel ih =>
    unfold forStrideInt32 forStride
    by_cases hi : i < bound
    · have hw : wrapInt32 ((i : Int) + (step : Int)) = ((i + step : Nat) : Int) := by
        have := hstep i hi
        rw [wrapInt32_of_range _ (by omega) (by omega)]
        omega
      rw [if_pos hi, if_pos (by exact_mod_cast hi), hw, hbody i, ih]
    · rw [if_neg hi, if_neg (by exact_mod_cast hi)]

theorem region_1D_Row_int32_eq {σ : Type} (cellI : Int → Int → σ → σ)
    (cellN : Nat → Nat → σ → σ) (hcell : ∀ x y : Nat, cellI x y = cellN x y)
    (N t fuel : Nat) (hmax : N ≤ 2147482880) (s : σ) :
    region_1D_Row_int32 cellI N t fuel s = region_1D_Row cellN N t fuel s := by
  unfold region_1D_Row_int32 region_1D_Row
  apply forStrideInt32_eq_forStride
  · intro y
    funext s1
    exact forRangeInt_eq_forRange 0 DIM _ _ (fun x => hcell x y) s1
  · intro i hi
    have hD : DIM = 768 := rfl
    omega

theorem region_1D_Col_int32_eq {σ : Type} (cellI : Int → Int → σ → σ)
    (cellN : Nat → Nat → σ → σ) (hcell : ∀ x y : Nat, cellI x y = cellN x y)
    (N t fuel : Nat) (hmax : N ≤ 2147482880) (s : σ) :
    region_1D_Col_int32 cellI N t fuel s = region_1D_Col cellN N t fuel s := by
  unfold region_1D_Col_int32 region_1D_Col
  apply forStrideInt32_eq_forStride
  · intro x
    funext s1
    exact forRangeInt_eq_forRange 0 DIM _ _ (fun y => hcell x y) s1
  · intro i hi
    have hD : DIM = 768 := rfl
    omega

theorem rows_per_thread_int32_eq (N : Nat) :
    rows_per_thread_int32 N = (rows_per_thread N : Nat) := by
  unfold rows_per_thread_int32 rows_per_thread
  exact (Int.ofNat_tdiv DIM N).symm

theorem start_row_int32_eq (N t : Nat) (ht : t < N) :
    start_row_int32 N t = (start_row N t : Nat) := by
  unfold start_row_int32 start_row
  rw [rows_per_thread_int32_eq]
  have h1 : t * rows_per_thread N ≤ DIM := by
    unfold rows_per_thread
    calc t * (DIM / N) ≤ N * (DIM / N) := Nat.mul_le_mul_right _ (le_of_lt ht)
      _ ≤ DIM := Nat.mul_div_le DIM N
  have hD : DIM = 768 := rfl
  have h2 : ((t : Int) * ((rows_per_thread N : Nat) : Int)) = ((t * rows_per_thread N : Nat) : Int) := by
    push_cast
    rfl
  rw [h2, wrapInt32_of_range _ (by omega) (by omega)]

theorem end_row_int32_eq (N t : Nat) (hN : 1 ≤ N) (ht : t < N) (hmax : N ≤ 2147483647) :
    end_row_int32 N t = (end_row N t : Nat) := by
  unfold end_row_int32 end_row
  have hD : DIM = 768 := rfl
  have hw : wrapInt32 ((N : Int) - 1) = (N : Int) - 1 := wrapInt32_of_range _ (by omega) (by omega)
  rw [hw, start_row_int32_eq N t ht, rows_per_thread_int32_eq]
  by_cases hlast : t + 1 = N
  · rw [if_pos hlast, if_pos (by omega)]
  · rw [if_neg hlast, if_neg (by omega)]
    have h1 : start_row N t + rows_per_thread N ≤ DIM := by
      unfold start_row rows_per_thread
      calc t * (DIM / N) + DIM / N = (t + 1) * (DIM / N) := by ring
        _ ≤ N * (DIM / N) := Nat.mul_le_mul_right _ ht
        _ ≤ DIM := Nat.mul_div_le DIM N
    rw [wrapInt32_of_range _ (by omega) (by omega)]
    push_cast
    rfl

theorem region_2D_Row_Block_int32_eq {σ : Type} (cellI : Int → Int → σ → σ)
    (cellN : Nat → Nat → σ → σ) (hcell : ∀ x y : Nat, cellI x y = cellN x y)
    (N t : Nat) (hN : 1 ≤ N) (ht : t < N) (hmax : N ≤ 2147483647) (s : σ) :
    region_2D_Row_Block_int32 cellI N t s = region_2D_Row_Block cellN N t s := by
  unfold region_2D_Row_Block_int32 region_2D_Row_Block
  rw [if_neg (by omega), if_neg (by omega), start_row_int32_eq N t ht,
    end_row_int32_eq N t hN ht hmax]
  refine congrArg Outcome.done ?_
  refine forRangeInt_eq_forRange (start_row N t) (end_row N t) _ _ (fun y => ?_) s
  funext s1
  exact forRangeInt_eq_forRange 0 DIM _ _ (fun x => hcell x y) s1

theorem region_2D_Col_Block_int32_eq {σ : Type} (cellI : Int → Int → σ → σ)
    (cellN : Nat → Nat → σ → σ) (hcell : ∀ x y : Nat, cellI x y = cellN x y)
    (N t : Nat) (hN : 1 ≤ N) (ht : t < N) (hmax : N ≤ 2147483647) (s : σ) :
    region_2D_Col_Block_int32 cellI N t s = region_2D_Col_Block cellN N t s := by
  unfold region_2D_Col_Block_int32 region_2D_Col_Block
  rw [if_neg (by omega), if_neg (by omega), start_row_int32_eq N t ht,
    end_row_int32_eq N t hN ht hmax]
  refine congrArg Outcome.done ?_
  refine forRangeInt_eq_forRange 0 DIM _ _ (fun y => ?_) s
  funext s1
  exact forRangeInt_eq_forRange (start_row N t) (end_row N t) _ _ (fun x => hcell x y) s1

/-! ## A thread count that is not positive -/

end Fractal
